import Mathlib

/-!
Formal model of the srt-translator repository (corrector / polisher pipeline).

Strings of the Python source are modelled as `List Char`.  Python's `\s`
character class and `str.strip` whitespace are modelled by the ASCII
whitespace characters (space, tab, newline, carriage return, vertical tab,
form feed); Python's `\d` is modelled by the ASCII digits.  Python regex
substitutions are modelled by dedicated scanning functions, one per pattern,
implementing `re.sub`'s leftmost, non-overlapping, greedy-with-backtracking
semantics for that pattern.  Fallible calls to the remote service are
modelled by oracles (functions from a call counter to an outcome).
-/

/-- Python strings as lists of unicode characters. -/
abbrev Str := List Char

/-- Python whitespace (the `\s` class and `str.strip` set), ASCII core. -/
def pyIsSpace (c : Char) : Bool :=
  c == ' ' || c == '\t' || c == '\n' || c == '\r' || c == '\x0b' || c == '\x0c'

/-- Python `str.lstrip()`. -/
def pyLStrip (s : Str) : Str := s.dropWhile pyIsSpace

/-- Python `str.rstrip()`. -/
def pyRStrip (s : Str) : Str := (s.reverse.dropWhile pyIsSpace).reverse

/-- Python `str.strip()`. -/
def pyStrip (s : Str) : Str := pyRStrip (pyLStrip s)

/-- Python `str.split` on a newline character (`text.split('\n')`). -/
def splitNl (s : Str) : List Str :=
  match s with
  | [] => [[]]
  | c :: r =>
    let t := splitNl r
    if c == '\n' then [] :: t
    else
      match t with
      | [] => [[c]]
      | h :: t2 => (c :: h) :: t2

/-- Join a list of lines with newline characters (`'\n'.join(...)`). -/
def joinNl (ls : List Str) : Str :=
  match ls with
  | [] => []
  | [l] => l
  | l :: r => l ++ '\n' :: joinNl r

/-- Whether a 12-character list has the shape of one SRT timestamp
(two digits, colon, two digits, colon, two digits, comma, three digits). -/
def isTs (l : Str) : Bool :=
  match l with
  | [a, b, c, d, e, f, g, h, i, j, k, m] =>
    a.isDigit && b.isDigit && c == ':' && d.isDigit && e.isDigit && f == ':' &&
    g.isDigit && h.isDigit && i == ',' && j.isDigit && k.isDigit && m.isDigit
  | _ => false

/-- A timestamp occurrence starting at position `i` of `s`. -/
def tsAt (s : Str) (i : Nat) : Bool := isTs ((s.drop i).take 12)

/-- The string contains an SRT timestamp somewhere. -/
def containsTs (s : Str) : Bool := (List.range s.length).any fun i => tsAt s i

/-- A match of the timestamp-range pattern (timestamp, optional whitespace,
an arrow, optional whitespace, timestamp) starting at the head of `s`. -/
def tsRangeHere (s : Str) : Bool :=
  isTs (s.take 12) &&
    (match (s.drop 12).dropWhile pyIsSpace with
     | '-' :: '-' :: '>' :: r2 => isTs ((r2.dropWhile pyIsSpace).take 12)
     | _ => false)

/-- The string contains a timestamp-range pattern
(`re.search` of the polisher's timestamp-range regex succeeds). -/
def containsTsRange (s : Str) : Bool :=
  (List.range s.length).any fun i => tsRangeHere (s.drop i)

/-- One subtitle entry (class `SRTEntry` of the source).  The constructor
strips the content, as `SRTEntry.__init__` does. -/
structure SRTEntry where
  number : Nat
  start_time : Str
  end_time : Str
  content : Str
deriving Repr, DecidableEq

/-- Build an entry the way `SRTEntry.__init__` does: the content is stripped. -/
def mkEntry (n : Nat) (st et c : Str) : SRTEntry :=
  ⟨n, st, et, pyStrip c⟩

/-- The identity fields of an entry (number and time codes). -/
def idFields (e : SRTEntry) : Nat × Str × Str := (e.number, e.start_time, e.end_time)

/-! ## Batch partitioning (claim C8)

From `SRTPolisher.process_batch`, `SRTPolisher.polish_srt_file` and
`SRTCorrector.correct_srt_file`. -/

/-- Start index of 1-based batch `k` with batch size `B`
(`batch_start = (batch_number - 1) * self.batch_size`). -/
def batch_start (B k : Nat) : Nat := (k - 1) * B

/-- End index of 1-based batch `k`
(`batch_end = min(batch_start + self.batch_size, len(entries))`). -/
def batch_end (B k n : Nat) : Nat := min (batch_start B k + B) n

/-- Total number of batches
(`total_batches = (len(entries) + self.batch_size - 1) // self.batch_size`). -/
def total_batches (n B : Nat) : Nat := (n + B - 1) / B

/-- Python `range(start, stop, step)` for a positive step. -/
def pyRange (start stop step : Nat) : List Nat :=
  if start < stop ∧ 0 < step then
    start :: pyRange (start + step) stop step
  else []
termination_by stop - start
decreasing_by omega

/-- The corrector's batch list
(`batches = [entries[i:i + self.batch_size] for i in range(0, len(entries), self.batch_size)]`). -/
def corrector_batches (B : Nat) (l : List SRTEntry) : List (List SRTEntry) :=
  (pyRange 0 l.length B).map fun i => (l.drop i).take B

theorem ceil_div_succ (B d : Nat) (hB : 0 < B) (hd : 0 < d) :
    (d + B - 1) / B = (d - 1) / B + 1 := by
  have h : d + B - 1 = (d - 1) + B := by omega
  rw [h, Nat.add_div_right _ hB]

theorem pyRange_eq_map_range (B : Nat) (hB : 0 < B) :
    ∀ fuel s n, n - s ≤ fuel →
      pyRange s n B = (List.range ((n - s + B - 1) / B)).map (fun t => s + t * B) := by
  intro fuel
  induction fuel with
  | zero =>
    intro s n h
    rw [pyRange]
    have hsn : ¬ (s < n ∧ 0 < B) := by omega
    rw [if_neg hsn]
    have h2 : n - s + B - 1 = B - 1 := by omega
    rw [h2, Nat.div_eq_of_lt (by omega)]
    simp
  | succ fuel ih =>
    intro s n h
    by_cases hsn : s < n
    · rw [pyRange, if_pos ⟨hsn, hB⟩, ih (s + B) n (by omega)]
      have hm : (n - (s + B) + B - 1) / B = (n - s - 1) / B := by
        rcases Nat.lt_or_ge n (s + B + 1) with h1 | h1
        · have e1 : n - (s + B) + B - 1 = B - 1 := by omega
          rw [e1, Nat.div_eq_of_lt (by omega), Nat.div_eq_of_lt (by omega)]
        · have e1 : n - (s + B) + B - 1 = n - s - 1 := by omega
          rw [e1]
      have hc : (n - s + B - 1) / B = (n - s - 1) / B + 1 :=
        ceil_div_succ B (n - s) hB (by omega)
      rw [hm, hc, List.range_succ_eq_map]
      simp only [List.map_cons, List.map_map, Nat.zero_mul, Nat.add_zero]
      refine congrArg₂ _ rfl ?_
      refine List.map_congr_left ?_
      intro t _
      simp only [Function.comp_apply, Nat.succ_eq_add_one]
      ring
    · rw [pyRange]
      have hcond : ¬ (s < n ∧ 0 < B) := by omega
      rw [if_neg hcond]
      have h2 : n - s + B - 1 = B - 1 := by omega
      rw [h2, Nat.div_eq_of_lt (by omega)]
      simp

theorem batch_index_iff (B n i k : Nat) (hB : 0 < B) (hi : i < n) (hk : 1 ≤ k) :
    (batch_start B k ≤ i ∧ i < batch_end B k n) ↔ k = i / B + 1 := by
  simp only [batch_start, batch_end]
  constructor
  · rintro ⟨h1, h2⟩
    have h3 : i < (k - 1) * B + B := lt_of_lt_of_le h2 (min_le_left _ _)
    have h4 : i < (k - 1).succ * B := by rw [Nat.succ_mul]; exact h3
    have h5 : i / B = k - 1 := Nat.div_eq_of_lt_le h1 h4
    omega
  · intro hkeq
    have hdm := Nat.div_add_mod i B
    have hmod : i % B < B := Nat.mod_lt i hB
    have hk1 : k - 1 = i / B := by omega
    rw [hk1]
    have h1 : (i / B) * B ≤ i := Nat.div_mul_le_self i B
    have h2 : i < (i / B) * B + B := by
      rw [Nat.mul_comm B (i / B)] at hdm
      omega
    exact ⟨h1, lt_min h2 hi⟩

/-- C8: batch partitioning is purely arithmetic.  For a fixed batch size `B ≥ 1`
and a record sequence of length `n`: the total number of batches is the
ceiling of `n / B` (characterized by its Galois property), 1-based batch `k`
covers exactly the index interval from `(k-1)*B` up to `k*B` clipped to `n`,
every record index `i < n` lies in exactly the batch numbered `i / B + 1`
(which is within the valid batch range), and the corrector's list-slicing
batch construction produces exactly these arithmetic slices. -/
theorem C8_batch_partition_arithmetic (B n : Nat) (l : List SRTEntry) (hB : 1 ≤ B)
    (hn : n = l.length) :
    (∀ m, total_batches n B ≤ m ↔ n ≤ B * m) ∧
    (∀ k, 1 ≤ k → batch_end B k n = min (k * B) n) ∧
    (∀ i, i < n → ∀ k, 1 ≤ k →
        ((batch_start B k ≤ i ∧ i < batch_end B k n) ↔ k = i / B + 1)) ∧
    (∀ i, i < n → 1 ≤ i / B + 1 ∧ i / B + 1 ≤ total_batches n B) ∧
    corrector_batches B l =
      (List.range (total_batches n B)).map
        (fun t => (l.drop (batch_start B (t + 1))).take B) := by
  have hB0 : 0 < B := hB
  refine ⟨?_, ?_, ?_, ?_, ?_⟩
  · intro m
    unfold total_batches
    rw [Nat.div_le_iff_le_mul_add_pred hB0]
    generalize B * m = x
    omega
  · intro k hk
    unfold batch_end batch_start
    have e : k - 1 + 1 = k := by omega
    have h : (k - 1) * B + B = k * B := by
      calc (k - 1) * B + B = (k - 1 + 1) * B := by ring
      _ = k * B := by rw [e]
    rw [h]
  · intro i hi k hk
    exact batch_index_iff B n i k hB0 hi hk
  · intro i hi
    have h1 : B * (i / B) + i % B = i := Nat.div_add_mod i B
    have hmod : i % B < B := Nat.mod_lt i hB0
    refine ⟨Nat.le_add_left 1 _, ?_⟩
    unfold total_batches
    rw [Nat.le_div_iff_mul_le hB0]
    have h2 : (i / B + 1) * B = B * (i / B) + B := by ring
    rw [h2]
    omega
  · unfold corrector_batches
    rw [← hn, pyRange_eq_map_range B hB0 n 0 n (by omega)]
    have h0 : n - 0 + B - 1 = n + B - 1 := by omega
    rw [h0, List.map_map]
    refine List.map_congr_left ?_
    intro t _
    simp only [Function.comp_apply, Nat.zero_add]
    unfold batch_start
    have ht : t + 1 - 1 = t := by omega
    rw [ht]

/-- Witness for C8 at batch size 2 over a five-entry list. -/
theorem C8_batch_partition_arithmetic_witness :
    1 ≤ 2 ∧ (5 : Nat) = (List.replicate 5 (mkEntry 1 [] [] [])).length ∧
      ((∀ m, total_batches 5 2 ≤ m ↔ 5 ≤ 2 * m) ∧
       (∀ k, 1 ≤ k → batch_end 2 k 5 = min (k * 2) 5) ∧
       (∀ i, i < 5 → ∀ k, 1 ≤ k →
           ((batch_start 2 k ≤ i ∧ i < batch_end 2 k 5) ↔ k = i / 2 + 1)) ∧
       (∀ i, i < 5 → 1 ≤ i / 2 + 1 ∧ i / 2 + 1 ≤ total_batches 5 2) ∧
       corrector_batches 2 (List.replicate 5 (mkEntry 1 [] [] [])) =
         (List.range (total_batches 5 2)).map
           (fun t => ((List.replicate 5 (mkEntry 1 [] [] [])).drop
              (batch_start 2 (t + 1))).take 2)) :=
  ⟨by decide, by decide,
   C8_batch_partition_arithmetic 2 5 (List.replicate 5 (mkEntry 1 [] [] []))
     (by decide) (by decide)⟩


/-! ## Merge verification (claim C4)

From `SRTPolisher.auto_verify_result`.  Python's number dictionaries
(`{e.number: e for e in entries}`, later entries overwrite earlier ones)
are modelled by `lookupLast`; its key set by `entryNumbers`. -/

/-- Lookup in the number-keyed dictionary built from `l` (last entry wins). -/
def lookupLast (l : List SRTEntry) (n : Nat) : Option SRTEntry :=
  (l.filter (fun e => e.number == n)).getLast?

/-- The set of entry numbers of `l` (the dictionary's key set), as a
duplicate-free list. -/
def entryNumbers (l : List SRTEntry) : List Nat :=
  (l.map (fun e => e.number)).dedup

/-- Numbers present in the source but not in the output
(`missing_from_translated = sorted(source_numbers - translated_numbers)`). -/
def missing_from_translated (src dst : List SRTEntry) : List Nat :=
  (entryNumbers src).filter (fun n => !(entryNumbers dst).contains n)

/-- Numbers present in the output but not in the source
(`extra_in_translated = sorted(translated_numbers - source_numbers)`). -/
def extra_in_translated (src dst : List SRTEntry) : List Nat :=
  (entryNumbers dst).filter (fun n => !(entryNumbers src).contains n)

/-- Whether the two dictionaries disagree on the time codes stored for
number `n` (the `issues` check of `auto_verify_result`). -/
def timeMismatchAt (src dst : List SRTEntry) (n : Nat) : Bool :=
  match lookupLast src n, lookupLast dst n with
  | some s, some d => !(s.start_time == d.start_time) || !(s.end_time == d.end_time)
  | _, _ => false

/-- Numbers common to both files whose start or end time differs
(the `time_mismatches` list of `auto_verify_result`). -/
def time_mismatches (src dst : List SRTEntry) : List Nat :=
  (entryNumbers src).filter
    (fun n => (entryNumbers dst).contains n && timeMismatchAt src dst n)

/-- The `perfect` flag computed by `auto_verify_result`. -/
def auto_verify_perfect (src dst : List SRTEntry) : Bool :=
  src.length == dst.length &&
    (missing_from_translated src dst).isEmpty &&
    (extra_in_translated src dst).isEmpty &&
    (time_mismatches src dst).isEmpty

theorem mem_entryNumbers (l : List SRTEntry) (n : Nat) :
    n ∈ entryNumbers l ↔ n ∈ l.map (fun e => e.number) := by
  unfold entryNumbers
  exact List.mem_dedup

theorem lookupLast_eq_some_iff (l : List SRTEntry) (n : Nat) :
    (∃ e, lookupLast l n = some e) ↔ n ∈ l.map (fun e => e.number) := by
  unfold lookupLast
  constructor
  · rintro ⟨e, he⟩
    have hmem : e ∈ l.filter (fun e => e.number == n) := List.mem_of_mem_getLast? he
    rw [List.mem_filter] at hmem
    have : e.number = n := by simpa using hmem.2
    exact List.mem_map.mpr ⟨e, hmem.1, this⟩
  · intro hn
    rcases List.mem_map.mp hn with ⟨e, hel, hen⟩
    have hmem : e ∈ l.filter (fun e => e.number == n) := by
      rw [List.mem_filter]
      exact ⟨hel, by simpa using hen⟩
    cases hl : (l.filter (fun e => e.number == n)).getLast? with
    | none =>
      have hnil := List.getLast?_eq_none_iff.mp hl
      rw [hnil] at hmem
      exact absurd hmem (List.not_mem_nil e)
    | some x => exact ⟨x, rfl⟩

theorem lookupLast_number (l : List SRTEntry) (n : Nat) (e : SRTEntry)
    (h : lookupLast l n = some e) : e.number = n := by
  unfold lookupLast at h
  have hmem : e ∈ l.filter (fun e => e.number == n) := List.mem_of_mem_getLast? h
  rw [List.mem_filter] at hmem
  simpa using hmem.2

/-- C4: verification reports a job as perfect exactly when the set of missing
numbers (source minus output), the set of extra numbers (output minus
source), and the set of time mismatches between commonly numbered entries
are all empty and the two total entry counts are equal. -/
theorem C4_perfect_iff (src dst : List SRTEntry) :
    auto_verify_perfect src dst = true ↔
      ((src.map (fun e => e.number)).toFinset \ (dst.map (fun e => e.number)).toFinset = ∅ ∧
       (dst.map (fun e => e.number)).toFinset \ (src.map (fun e => e.number)).toFinset = ∅ ∧
       (∀ n es ed, lookupLast src n = some es → lookupLast dst n = some ed →
          es.start_time = ed.start_time ∧ es.end_time = ed.end_time) ∧
       src.length = dst.length) := by
  unfold auto_verify_perfect
  simp only [Bool.and_eq_true, beq_iff_eq, List.isEmpty_iff]
  unfold missing_from_translated extra_in_translated time_mismatches
  simp only [List.filter_eq_nil_iff]
  constructor
  · rintro ⟨⟨⟨hlen, hmiss⟩, hextra⟩, hmm⟩
    refine ⟨?_, ?_, ?_, hlen⟩
    · rw [Finset.sdiff_eq_empty_iff_subset]
      intro n hn
      rw [List.mem_toFinset] at hn ⊢
      have h1 : n ∈ entryNumbers src := (mem_entryNumbers src n).mpr hn
      have h2 := hmiss n h1
      simp only [Bool.not_eq_true', Bool.not_eq_false] at h2
      have h3 : n ∈ entryNumbers dst := by
        have := List.elem_iff.mp h2
        exact this
      exact (mem_entryNumbers dst n).mp h3
    · rw [Finset.sdiff_eq_empty_iff_subset]
      intro n hn
      rw [List.mem_toFinset] at hn ⊢
      have h1 : n ∈ entryNumbers dst := (mem_entryNumbers dst n).mpr hn
      have h2 := hextra n h1
      simp only [Bool.not_eq_true', Bool.not_eq_false] at h2
      have h3 : n ∈ entryNumbers src := List.elem_iff.mp h2
      exact (mem_entryNumbers src n).mp h3
    · intro n es ed hes hed
      have hnsrc : n ∈ src.map (fun e => e.number) :=
        (lookupLast_eq_some_iff src n).mp ⟨es, hes⟩
      have hndst : n ∈ dst.map (fun e => e.number) :=
        (lookupLast_eq_some_iff dst n).mp ⟨ed, hed⟩
      have h1 : n ∈ entryNumbers src := (mem_entryNumbers src n).mpr hnsrc
      have h2 := hmm n h1
      have hc : (entryNumbers dst).contains n = true :=
        List.elem_iff.mpr ((mem_entryNumbers dst n).mpr hndst)
      simp only [hc, Bool.true_and, Bool.not_eq_true] at h2
      unfold timeMismatchAt at h2
      rw [hes, hed] at h2
      simp only [Bool.or_eq_false_iff, Bool.not_eq_true', beq_iff_eq,
        Bool.not_eq_false', beq_iff_eq] at h2
      exact ⟨by simpa using h2.1, by simpa using h2.2⟩
  · rintro ⟨hsub1, hsub2, htimes, hlen⟩
    rw [Finset.sdiff_eq_empty_iff_subset] at hsub1 hsub2
    refine ⟨⟨⟨hlen, ?_⟩, ?_⟩, ?_⟩
    · intro n hn
      have h1 : n ∈ src.map (fun e => e.number) := (mem_entryNumbers src n).mp hn
      have h2 : n ∈ dst.map (fun e => e.number) := by
        have := hsub1 (List.mem_toFinset.mpr h1)
        exact List.mem_toFinset.mp this
      have h3 : (entryNumbers dst).contains n = true :=
        List.elem_iff.mpr ((mem_entryNumbers dst n).mpr h2)
      rw [h3]
      simp
    · intro n hn
      have h1 : n ∈ dst.map (fun e => e.number) := (mem_entryNumbers dst n).mp hn
      have h2 : n ∈ src.map (fun e => e.number) := by
        have := hsub2 (List.mem_toFinset.mpr h1)
        exact List.mem_toFinset.mp this
      have h3 : (entryNumbers src).contains n = true :=
        List.elem_iff.mpr ((mem_entryNumbers src n).mpr h2)
      rw [h3]
      simp
    · intro n hn
      simp only [Bool.not_eq_true, Bool.and_eq_false_iff]
      by_cases hc : (entryNumbers dst).contains n = true
      · right
        have hndst : n ∈ dst.map (fun e => e.number) :=
          (mem_entryNumbers dst n).mp (List.elem_iff.mp hc)
        have hnsrc : n ∈ src.map (fun e => e.number) := (mem_entryNumbers src n).mp hn
        rcases (lookupLast_eq_some_iff src n).mpr hnsrc with ⟨es, hes⟩
        rcases (lookupLast_eq_some_iff dst n).mpr hndst with ⟨ed, hed⟩
        have := htimes n es ed hes hed
        unfold timeMismatchAt
        rw [hes, hed]
        simp [this.1, this.2]
      · left
        simpa using hc

/-! ## Transformation client retries (claim C6)

From `CorrectionAPI.correct_text_with_context` and
`CorrectionAPI.correct_batch_texts` in `srt_corrector.py`. -/

/-- Retry constant `MAX_API_RETRIES = 5`. -/
def MAX_API_RETRIES : Nat := 5

/-- Retry constant `MAX_BATCH_RETRIES = 5`. -/
def MAX_BATCH_RETRIES : Nat := 5

/-- Backoff cap `MAX_BACKOFF_SECONDS = 10`. -/
def MAX_BACKOFF_SECONDS : Nat := 10

/-- Outcome of one HTTP POST to the remote service: a successful response
body (the `choices[0].message.content` string), a transport-level failure
(`requests.exceptions.RequestException`), or a malformed response envelope
(`KeyError` / `IndexError`). -/
inductive ApiOutcome where
  | ok (content : Str)
  | transportError
  | formatError
deriving Repr, DecidableEq

/-- Python's substring test (`needle in hay`). -/
def strContains (hay needle : Str) : Bool :=
  (List.range (hay.length + 1)).any fun i => ((hay.drop i).take needle.length) == needle

/-- Decimal digit character. -/
def digitChar (d : Nat) : Char := Char.ofNat (48 + d)

def natDigitsAux : Nat → Nat → List Char
  | 0, _ => []
  | fuel + 1, n => if n < 10 then [digitChar n] else natDigitsAux fuel (n / 10) ++ [digitChar (n % 10)]

/-- Decimal rendering of a natural number (Python `str(n)` / f-string). -/
def natDigits (n : Nat) : List Char := natDigitsAux (n + 1) n

/-- Python `haystack.split(sep, 1)`: the part before the first occurrence of
`sep`, and the part after it when `sep` occurs. -/
def pySplitOnce (sep : Str) (s : Str) : Str × Option Str :=
  match s with
  | [] => if sep == [] then ([], some []) else ([], none)
  | c :: r =>
    if s.take sep.length == sep then ([], some (s.drop sep.length))
    else
      let t := pySplitOnce sep r
      (c :: t.1, t.2)

/-- Keyword test of `_clean_corrected_text`'s explanatory-text branch
(`any(keyword in line for keyword in ["修正", "纠错", "原文", "结果", "主要"])`). -/
def cleanupKeywordIn (line : Str) : Bool :=
  strContains line "修正".toList || strContains line "纠错".toList ||
  strContains line "原文".toList || strContains line "结果".toList ||
  strContains line "主要".toList

/-- The first stripped, non-empty, keyword-free line, else the default
(the `for line in lines ... break` loop of `_clean_corrected_text`). -/
def firstContentLine (default : Str) : List Str → Str
  | [] => default
  | l :: ls =>
    let l2 := pyStrip l
    if l2 ≠ [] ∧ cleanupKeywordIn l2 = false then l2 else firstContentLine default ls

/-- Strip one layer of wrapping ASCII quotes, as `_clean_corrected_text` does
(`c.startswith('"') and c.endswith('"')`, or the same with single quotes,
then `c[1:-1].strip()`). -/
def stripWrapQuotesOnce (s : Str) : Str :=
  if (s.head? == some '"' && s.getLast? == some '"') ||
     (s.head? == some '\'' && s.getLast? == some '\'') then
    pyStrip ((s.drop 1).dropLast)
  else s

/-- Model of `CorrectionAPI._clean_corrected_text(corrected_text, original_text)`.
The float comparison `len(corrected_text) > len(original_text) * 0.8` is
modelled by `5 * len(corrected) > 4 * len(original)`, which agrees with the
IEEE-754 computation for all lengths below `2 ^ 50`. -/
def clean_corrected_text (corrected original : Str) : Str :=
  let c1 := pyStrip corrected
  let c2 := stripWrapQuotesOnce c1
  let c3 :=
    if strContains c2 "修正后的文本".toList || strContains c2 "纠错结果".toList ||
       strContains c2 "主要修正".toList then
      firstContentLine c2 (splitNl c2)
    else c2
  let original_lines := splitNl (pyStrip original)
  let corrected_lines := splitNl (pyStrip c3)
  if original_lines.length > 1 ∧ corrected_lines.length = 1 ∧
      5 * c3.length > 4 * original.length then
    let mid := c3.length / 2
    pyStrip (c3.take mid) ++ '\n' :: pyStrip (c3.drop mid)
  else c3

/-- Main retry loop of `correct_text_with_context`: `attempt` is the Python
loop index, the second argument counts the remaining iterations (initially
`retry_count`, so that `attempt` ranges over `range(retry_count)`).  Returns
the function result together with the list of backoff delays slept.  The
oracle gives the outcome of the POST performed on each attempt. -/
def ctwc_go (oracle : Nat → ApiOutcome) (text : Str) (retry_count : Nat) :
    Nat → Nat → Option Str × List Nat
  | _, 0 => (none, [])
  | attempt, k + 1 =>
    match oracle attempt with
    | ApiOutcome.ok s => (some (clean_corrected_text (pyStrip s) text), [])
    | ApiOutcome.transportError =>
      if attempt < retry_count - 1 then
        let r := ctwc_go oracle text retry_count (attempt + 1) k
        (r.1, min (2 ^ attempt) MAX_BACKOFF_SECONDS :: r.2)
      else (none, [])
    | ApiOutcome.formatError => (none, [])

/-- Model of `CorrectionAPI.correct_text_with_context` (the context entries
only influence the prompt text, which does not affect the result shape):
result value and backoff delays slept, for a given outcome oracle. -/
def correct_text_with_context (oracle : Nat → ApiOutcome) (text : Str)
    (retry_count : Nat) : Option Str × List Nat :=
  ctwc_go oracle text retry_count 0 retry_count

/-- Model of `CorrectionAPI._parse_batch_result`: split the raw response on
the indexed separators, pair each piece with its original entry, clean
non-empty pieces and fall back to the original content for empty ones, then
pad with original contents up to the batch length. -/
def parse_batch_result (corrected_batch : Str) (original_entries : List SRTEntry) : List Str :=
  let sepFor := fun (i : Nat) =>
    '\n' :: "===SUBTITLE_SEPARATOR_".toList ++ natDigits i ++ "===\n".toList
  let n := original_entries.length
  let contents := pbrSplit corrected_batch 0 n sepFor
  let results := (original_entries.zip contents).map fun (e, ct) =>
    if ct ≠ [] then clean_corrected_text ct e.content else e.content
  results ++ (original_entries.drop results.length).map (fun e => e.content)
where
  /-- The splitting loop (`for i in range(len(original_entries))`), carrying
  the `remaining` string; produces the `corrected_contents` list. -/
  pbrSplit (remaining : Str) (i n : Nat) (sepFor : Nat → Str) : List Str :=
    if _h : i < n then
      if i + 1 < n then
        let parts := pySplitOnce (sepFor (i + 1)) remaining
        pyStrip parts.1 :: pbrSplit (parts.2.getD []) (i + 1) n sepFor
      else [pyStrip remaining]
    else []
  termination_by n - i

/-- Main retry loop of `correct_batch_texts`, in the style of `ctwc_go`.
The first component is `none` only when the loop body never returns
(Python's implicit `None` return, unreachable for a positive retry count). -/
def cbt_go (oracle : Nat → ApiOutcome) (batch : List SRTEntry) (retry_count : Nat) :
    Nat → Nat → Option (List (Option Str)) × List Nat
  | _, 0 => (none, [])
  | attempt, k + 1 =>
    match oracle attempt with
    | ApiOutcome.ok s =>
      (some ((parse_batch_result (pyStrip s) batch).map some), [])
    | ApiOutcome.transportError =>
      if attempt < retry_count - 1 then
        let r := cbt_go oracle batch retry_count (attempt + 1) k
        (r.1, min (2 ^ attempt) MAX_BACKOFF_SECONDS :: r.2)
      else (some (List.replicate batch.length none), [])
    | ApiOutcome.formatError => (some (List.replicate batch.length none), [])

/-- Model of `CorrectionAPI.correct_batch_texts` (context parameters only
influence the prompt): result value and backoff delays slept. -/
def correct_batch_texts (oracle : Nat → ApiOutcome) (batch : List SRTEntry)
    (retry_count : Nat) : Option (List (Option Str)) × List Nat :=
  if batch.isEmpty then (some [], []) else cbt_go oracle batch retry_count 0 retry_count

theorem ctwc_go_all_transport (oracle : Nat → ApiOutcome) (text : Str) (rc : Nat)
    (hfail : ∀ a, a < rc → oracle a = ApiOutcome.transportError) :
    ∀ k attempt, attempt + k = rc →
      ctwc_go oracle text rc attempt k =
        (none, (List.range' attempt (rc - 1 - attempt)).map
          fun a => min (2 ^ a) MAX_BACKOFF_SECONDS) := by
  intro k
  induction k with
  | zero =>
    intro attempt h
    have h0 : rc - 1 - attempt = 0 := by omega
    rw [h0]
    rfl
  | succ k ih =>
    intro attempt h
    have ha : attempt < rc := by omega
    unfold ctwc_go
    rw [hfail attempt ha]
    by_cases hlast : attempt < rc - 1
    · rw [if_pos hlast, ih (attempt + 1) (by omega)]
      have h1 : rc - 1 - attempt = (rc - 1 - (attempt + 1)) + 1 := by omega
      rw [h1, List.range'_succ]
      rfl
    · rw [if_neg hlast]
      have h0 : rc - 1 - attempt = 0 := by omega
      rw [h0]
      rfl

theorem cbt_go_all_transport (oracle : Nat → ApiOutcome) (batch : List SRTEntry) (rc : Nat)
    (hfail : ∀ a, a < rc → oracle a = ApiOutcome.transportError) :
    ∀ k attempt, attempt + k = rc → 0 < k →
      cbt_go oracle batch rc attempt k =
        (some (List.replicate batch.length none),
         (List.range' attempt (rc - 1 - attempt)).map
           fun a => min (2 ^ a) MAX_BACKOFF_SECONDS) := by
  intro k
  induction k with
  | zero => intro attempt _ h0; omega
  | succ k ih =>
    intro attempt h _
    have ha : attempt < rc := by omega
    unfold cbt_go
    rw [hfail attempt ha]
    by_cases hlast : attempt < rc - 1
    · have hk : 0 < k := by omega
      rw [if_pos hlast, ih (attempt + 1) (by omega) hk]
      have h1 : rc - 1 - attempt = (rc - 1 - (attempt + 1)) + 1 := by omega
      rw [h1, List.range'_succ]
      rfl
    · rw [if_neg hlast]
      have h0 : rc - 1 - attempt = 0 := by omega
      rw [h0]
      rfl

/-- C6: on transport-level failure of every attempt, the client performs the
fixed maximum number of attempts (`MAX_API_RETRIES = 5`), sleeping
`min(2 ^ attempt, CAP)` seconds between consecutive attempts with
`CAP = MAX_BACKOFF_SECONDS = 10`, and on exhaustion returns the no-result
sentinel (`None` for a single call, a list of `None` per entry for a batch
call) instead of raising. -/
theorem C6_transport_retry_exhaustion (oracle : Nat → ApiOutcome) (text : Str)
    (batch : List SRTEntry)
    (hfail : ∀ a, a < MAX_API_RETRIES → oracle a = ApiOutcome.transportError)
    (hb : batch ≠ []) :
    MAX_API_RETRIES = 5 ∧ MAX_BACKOFF_SECONDS = 10 ∧
    correct_text_with_context oracle text MAX_API_RETRIES =
      (none, (List.range (MAX_API_RETRIES - 1)).map
        fun a => min (2 ^ a) MAX_BACKOFF_SECONDS) ∧
    correct_batch_texts oracle batch MAX_API_RETRIES =
      (some (List.replicate batch.length none),
       (List.range (MAX_API_RETRIES - 1)).map
         fun a => min (2 ^ a) MAX_BACKOFF_SECONDS) := by
  refine ⟨rfl, rfl, ?_, ?_⟩
  · unfold correct_text_with_context
    rw [ctwc_go_all_transport oracle text MAX_API_RETRIES hfail MAX_API_RETRIES 0 rfl]
    rw [List.range_eq_range']
    rfl
  · unfold correct_batch_texts
    rw [if_neg (by simpa using hb)]
    rw [cbt_go_all_transport oracle batch MAX_API_RETRIES hfail MAX_API_RETRIES 0 rfl
      (by decide)]
    rw [List.range_eq_range']
    rfl

/-- Witness for C6: a constantly failing oracle and a one-entry batch. -/
theorem C6_transport_retry_exhaustion_witness :
    (∀ a, a < MAX_API_RETRIES →
        (fun _ => ApiOutcome.transportError) a = ApiOutcome.transportError) ∧
    ([mkEntry 1 [] [] []] ≠ ([] : List SRTEntry)) ∧
    (MAX_API_RETRIES = 5 ∧ MAX_BACKOFF_SECONDS = 10 ∧
     correct_text_with_context (fun _ => ApiOutcome.transportError) [] MAX_API_RETRIES =
       (none, (List.range (MAX_API_RETRIES - 1)).map
         fun a => min (2 ^ a) MAX_BACKOFF_SECONDS) ∧
     correct_batch_texts (fun _ => ApiOutcome.transportError) [mkEntry 1 [] [] []]
         MAX_API_RETRIES =
       (some (List.replicate [mkEntry 1 [] [] []].length none),
        (List.range (MAX_API_RETRIES - 1)).map
          fun a => min (2 ^ a) MAX_BACKOFF_SECONDS)) :=
  ⟨fun a _ => rfl, by decide,
   C6_transport_retry_exhaustion (fun _ => ApiOutcome.transportError) [] [mkEntry 1 [] [] []]
     (fun a _ => rfl) (by decide)⟩

/-! ## Record model: rendering and parsing (claim C5)

From `SRTEntry.to_string`, `SRTCorrector._write_srt_file`,
`SRTCorrector.parse_srt_file` and the module-level `SRT_PATTERN` regex.
The regex match attempt at a given position is implemented directly,
following the backtracking engine's preference order for this pattern. -/

/-- Numeric value of a digit string (Python `int()` on the regex group). -/
def digitsToNat (ds : Str) : Nat := ds.foldl (fun a c => 10 * a + (c.toNat - 48)) 0

/-- Canonical rendering of one entry (`SRTEntry.to_string`):
number line, time-code line, content, one trailing newline. -/
def to_string (e : SRTEntry) : Str :=
  natDigits e.number ++ '\n' ::
    (e.start_time ++ ' ' :: '-' :: '-' :: '>' :: ' ' :: e.end_time) ++ '\n' ::
    e.content ++ ['\n']

/-- Rendering of a record sequence (`_write_srt_file`): each entry's
`to_string`, with one separating newline between entries. -/
def write_srt : List SRTEntry → Str
  | [] => []
  | [e] => to_string e
  | e :: rest => to_string e ++ '\n' :: write_srt rest

/-- Consumed length of the lazy content group's continuation together with
the pattern's final `\n`-or-end alternative, starting after at least one
completed repetition.  The closing alternative is tried before each further
repetition, matching the lazy quantifier's preference order. -/
def g4Rest : Nat → Str → Nat
  | _, [] => 0
  | 0, ch :: _ => if ch = '\n' then 1 else 0
  | fuel + 1, ch :: r =>
    if ch = '\n' then 1
    else
      match (ch :: r).drop ((ch :: r).takeWhile (fun c => !(c == '\n'))).length with
      | [] => ((ch :: r).takeWhile (fun c => !(c == '\n'))).length
      | _ :: rest =>
        ((ch :: r).takeWhile (fun c => !(c == '\n'))).length + 1 + g4Rest fuel rest

/-- Consumed length of the content group (at least one repetition) plus the
pattern's final `\n`-or-end alternative, or `none` when no repetition can
start (empty first line). -/
def g4Match : Str → Option Nat
  | [] => none
  | ch :: r =>
    if ch = '\n' then none
    else
      match (ch :: r).drop ((ch :: r).takeWhile (fun c => !(c == '\n'))).length with
      | [] => some ((ch :: r).takeWhile (fun c => !(c == '\n'))).length
      | _ :: rest =>
        some (((ch :: r).takeWhile (fun c => !(c == '\n'))).length + 1 +
          g4Rest rest.length rest)

/-- First defined value of `f` over the list, in order. -/
def firstSome {α β : Type} (f : α → Option β) : List α → Option β
  | [] => none
  | a :: r =>
    match f a with
    | some b => some b
    | none => firstSome f r

/-- Newline positions inside a whitespace run, in the descending order the
engine backtracks the `\s*` before the mandatory `\n`. -/
def nlCandidates (run : Str) : List Nat :=
  ((List.range run.length).filter (fun j => run.getD j ' ' == '\n')).reverse

/-- Match the pattern's `\s*\n` followed by the content group at `t`:
returns the offset where the content starts and the consumed length of
content group plus closing. -/
def matchTail4 (t : Str) : Option (Nat × Nat) :=
  let run := t.takeWhile pyIsSpace
  firstSome (fun j => (g4Match (t.drop (j + 1))).map (fun k => (j + 1, k)))
    (nlCandidates run)

/-- Parse an exactly 12-character timestamp at the head. -/
def tryTs (t : Str) : Option (Str × Str) :=
  if isTs (t.take 12) then some (t.take 12, t.drop 12) else none

/-- Attempt one `SRT_PATTERN` match at the head of `t0`: the produced entry
and the consumed length.  The whitespace runs after the number and around
the arrow admit a single viable backtracking choice (their continuations
start with non-whitespace characters), so they are consumed maximally; the
run before the content keeps the engine's descending newline candidates. -/
def matchEntryAt (t0 : Str) : Option (SRTEntry × Nat) :=
  let ds := t0.takeWhile Char.isDigit
  if ds.isEmpty then none
  else
    let t1 := t0.drop ds.length
    let run1 := t1.takeWhile pyIsSpace
    if !(run1.getLast? == some '\n') then none
    else
      (tryTs (t1.drop run1.length)).bind fun (st, t3) =>
        let run2 := t3.takeWhile pyIsSpace
        match t3.drop run2.length with
        | '-' :: '-' :: '>' :: t5 =>
          let run3 := t5.takeWhile pyIsSpace
          (tryTs (t5.drop run3.length)).bind fun (et, t7) =>
            (matchTail4 t7).map fun (off, k) =>
              (mkEntry (digitsToNat ds) st et ((t7.drop off).take k),
               ds.length + run1.length + 12 + run2.length + 3 + run3.length + 12 + off + k)
        | _ => none

/-- The `finditer` scan: try a match at every position, left to right,
skipping over consumed matches. -/
def parseLoop : Nat → Str → List SRTEntry
  | 0, _ => []
  | _ + 1, [] => []
  | fuel + 1, s@(_ :: rest) =>
    match matchEntryAt s with
    | some (e, consumed) => e :: parseLoop fuel (s.drop consumed)
    | none => parseLoop fuel rest

/-- Model of `SRTCorrector.parse_srt_file` applied to a file's text. -/
def parse_srt (s : Str) : List SRTEntry := parseLoop s.length s

/-- Model of `SRTPolisher.parse_srt_file` applied to a file's text: the
polisher first appends a newline when the text does not end with one. -/
def parse_srt_polisher (s : Str) : List SRTEntry :=
  parse_srt (if s.getLast? == some '\n' then s else s ++ ['\n'])

/-! ### List and string helper lemmas -/

theorem takeWhile_append_eq (p : Char → Bool) (l r : Str) (hl : ∀ x ∈ l, p x = true)
    (hr : r.takeWhile p = []) : (l ++ r).takeWhile p = l := by
  induction l with
  | nil => simpa using hr
  | cons c t ih =>
    have hc : p c = true := hl c (List.mem_cons_self c t)
    simp only [List.cons_append, List.takeWhile_cons, hc, if_true]
    rw [ih (fun x hx => hl x (List.mem_cons_of_mem c hx))]

theorem takeWhile_nil_of_head (p : Char → Bool) (c : Char) (r : Str) (hc : p c = false) :
    (c :: r).takeWhile p = [] := by
  simp [List.takeWhile_cons, hc]

theorem dropWhile_cons_of_neg (p : Char → Bool) (c : Char) (r : Str) (hc : p c = false) :
    (c :: r).dropWhile p = c :: r := by
  simp [List.dropWhile_cons, hc]

theorem pyLStrip_eq_self_of_head (c : Char) (r : Str) (hc : pyIsSpace c = false) :
    pyLStrip (c :: r) = c :: r := dropWhile_cons_of_neg pyIsSpace c r hc

theorem dropWhile_append_all (p : Char → Bool) (a b : Str) (ha : ∀ x ∈ a, p x = true) :
    (a ++ b).dropWhile p = b.dropWhile p := by
  induction a with
  | nil => simp
  | cons c t ih =>
    have hc : p c = true := ha c (List.mem_cons_self c t)
    simp only [List.cons_append, List.dropWhile_cons, hc, if_true]
    exact ih (fun x hx => ha x (List.mem_cons_of_mem c hx))

theorem pyRStrip_append_ws (c w : Str) (hw : ∀ x ∈ w, pyIsSpace x = true) :
    pyRStrip (c ++ w) = pyRStrip c := by
  unfold pyRStrip
  rw [List.reverse_append, dropWhile_append_all pyIsSpace w.reverse c.reverse
    (fun x hx => hw x (List.mem_reverse.mp hx))]

theorem pyRStrip_length_le (x : Str) : (pyRStrip x).length ≤ x.length := by
  unfold pyRStrip
  have h := (List.dropWhile_suffix (l := x.reverse) pyIsSpace).length_le
  simpa using h

theorem pyStrip_fixed_parts (c : Str) (h : pyStrip c = c) :
    pyLStrip c = c ∧ pyRStrip c = c := by
  have h1 : pyLStrip c <:+ c := List.dropWhile_suffix pyIsSpace
  have hlen : c.length ≤ (pyLStrip c).length := by
    have h2 := pyRStrip_length_le (pyLStrip c)
    have h3 : (pyRStrip (pyLStrip c)).length = c.length := by
      unfold pyStrip at h
      rw [h]
    omega
  have hll : (pyLStrip c).length = c.length := le_antisymm h1.length_le hlen
  have heq : pyLStrip c = c := h1.eq_of_length hll
  refine ⟨heq, ?_⟩
  unfold pyStrip at h
  rw [heq] at h
  exact h

theorem pyStrip_append_ws (c w : Str) (hc : pyStrip c = c) (hne : c ≠ [])
    (hw : ∀ x ∈ w, pyIsSpace x = true) : pyStrip (c ++ w) = c := by
  obtain ⟨hl, hr⟩ := pyStrip_fixed_parts c hc
  obtain ⟨ch, ct, rfl⟩ : ∃ ch ct, c = ch :: ct := by
    cases c with
    | nil => exact absurd rfl hne
    | cons ch ct => exact ⟨ch, ct, rfl⟩
  have hch : pyIsSpace ch = false := by
    by_contra hcontra
    have hch2 : pyIsSpace ch = true := by
      cases hq : pyIsSpace ch with
      | true => rfl
      | false => exact absurd hq hcontra
    unfold pyLStrip at hl
    rw [List.dropWhile_cons, hch2] at hl
    have := congrArg List.length hl
    have h2 := (List.dropWhile_suffix (l := ct) pyIsSpace).length_le
    simp at this
    omega
  unfold pyStrip
  rw [List.cons_append, pyLStrip_eq_self_of_head ch (ct ++ w) hch, ← List.cons_append,
    pyRStrip_append_ws (ch :: ct) w hw, hr]

theorem natDigitsAux_spec (fuel : Nat) : ∀ n, n < fuel →
    (∀ c ∈ natDigitsAux fuel n, c.isDigit = true) ∧ natDigitsAux fuel n ≠ [] ∧
      digitsToNat (natDigitsAux fuel n) = n := by
  induction fuel with
  | zero => intro n h; omega
  | succ fuel ih =>
    intro n h
    by_cases h10 : n < 10
    · unfold natDigitsAux
      rw [if_pos h10]
      have hd : (digitChar n).isDigit = true := by
        unfold digitChar
        interval_cases n <;> decide
      have ht : (digitChar n).toNat = 48 + n := by
        unfold digitChar
        interval_cases n <;> decide
      refine ⟨fun c hc => ?_, by simp, ?_⟩
      · rw [List.mem_singleton] at hc
        rw [hc]; exact hd
      · unfold digitsToNat
        simp only [List.foldl_cons, List.foldl_nil, Nat.mul_zero, Nat.zero_add]
        omega
    · unfold natDigitsAux
      rw [if_neg h10]
      have hrec : n / 10 < fuel := by
        have := Nat.div_lt_self (by omega : 0 < n) (by omega : 1 < 10)
        omega
      obtain ⟨ha, hb, hc⟩ := ih (n / 10) hrec
      have hd : (digitChar (n % 10)).isDigit = true := by
        have hm : n % 10 < 10 := Nat.mod_lt n (by omega)
        unfold digitChar
        interval_cases h : (n % 10) <;> decide
      have ht : (digitChar (n % 10)).toNat = 48 + n % 10 := by
        have hm : n % 10 < 10 := Nat.mod_lt n (by omega)
        unfold digitChar
        interval_cases h : (n % 10) <;> decide
      refine ⟨fun c hcm => ?_, by simp, ?_⟩
      · rcases List.mem_append.mp hcm with h1 | h1
        · exact ha c h1
        · rw [List.mem_singleton] at h1
          rw [h1]; exact hd
      · unfold digitsToNat
        rw [List.foldl_append]
        unfold digitsToNat at hc
        rw [hc]
        simp only [List.foldl_cons, List.foldl_nil]
        have := Nat.div_add_mod n 10
        omega

theorem natDigits_spec (n : Nat) :
    (∀ c ∈ natDigits n, c.isDigit = true) ∧ natDigits n ≠ [] ∧
      digitsToNat (natDigits n) = n :=
  natDigitsAux_spec (n + 1) n (by omega)

theorem splitNl_no_nl (c : Str) (h : ∀ x ∈ c, x ≠ '\n') : splitNl c = [c] := by
  induction c with
  | nil => rfl
  | cons a t ih =>
    have ha : a ≠ '\n' := h a (List.mem_cons_self a t)
    unfold splitNl
    rw [ih (fun x hx => h x (List.mem_cons_of_mem a hx))]
    simp [ha]

theorem splitNl_cons_nl (r : Str) : splitNl ('\n' :: r) = [] :: splitNl r := by
  simp [splitNl]

theorem splitNl_cons_of_ne (c : Char) (r : Str) (hc : c ≠ '\n') (h0 : Str)
    (t0 : List Str) (hr : splitNl r = h0 :: t0) :
    splitNl (c :: r) = (c :: h0) :: t0 := by
  unfold splitNl
  rw [hr]
  have hcb : (c == '\n') = false := by
    rw [beq_eq_false_iff_ne]
    exact hc
  simp [hcb]

theorem splitNl_ne_nil (s : Str) : splitNl s ≠ [] := by
  cases s with
  | nil => simp [splitNl]
  | cons c r =>
    unfold splitNl
    by_cases hc : (c == '\n') = true
    · simp [hc]
    · simp only [Bool.not_eq_true] at hc
      simp only [hc]
      cases splitNl r with
      | nil => simp
      | cons h t => simp

theorem splitNl_append_nl (l1 : Str) (r : Str) (h : ∀ x ∈ l1, x ≠ '\n') :
    splitNl (l1 ++ '\n' :: r) = l1 :: splitNl r := by
  induction l1 with
  | nil => simp [splitNl_cons_nl]
  | cons a t ih =>
    have ha : a ≠ '\n' := h a (List.mem_cons_self a t)
    have iht := ih (fun x hx => h x (List.mem_cons_of_mem a hx))
    rw [List.cons_append]
    exact splitNl_cons_of_ne a (t ++ '\n' :: r) ha t (splitNl r) iht

/-- All lines of a string (as split on newlines) are non-empty. -/
def linesOk (c : Str) : Bool := (splitNl c).all (fun l => !l.isEmpty)

theorem linesOk_ne_nil (c : Str) (h : linesOk c = true) : c ≠ [] := by
  rintro rfl
  simp [linesOk, splitNl] at h

theorem linesOk_head_ne_nl (c : Str) (h : linesOk c = true) :
    ∀ r, c ≠ '\n' :: r := by
  rintro r rfl
  rw [linesOk, splitNl_cons_nl, List.all_cons] at h
  simp at h

theorem linesOk_decompose (l1 c2 : Str) (hl1 : ∀ x ∈ l1, x ≠ '\n')
    (h : linesOk (l1 ++ '\n' :: c2) = true) :
    l1 ≠ [] ∧ linesOk c2 = true := by
  rw [linesOk, splitNl_append_nl l1 c2 hl1, List.all_cons, Bool.and_eq_true] at h
  refine ⟨?_, h.2⟩
  have h2 := h.1
  simp only [Bool.not_eq_true'] at h2
  intro hnil
  rw [hnil] at h2
  simp at h2

theorem g4Rest_nil (fuel : Nat) : g4Rest fuel [] = 0 := by
  cases fuel <;> rfl

theorem g4Rest_nl (fuel : Nat) (r : Str) : g4Rest fuel ('\n' :: r) = 1 := by
  cases fuel <;> simp [g4Rest]

theorem g4Rest_step (fuel : Nat) (ch : Char) (r : Str) (h : ch ≠ '\n') :
    g4Rest (fuel + 1) (ch :: r) =
      match (ch :: r).drop ((ch :: r).takeWhile (fun c => !(c == '\n'))).length with
      | [] => ((ch :: r).takeWhile (fun c => !(c == '\n'))).length
      | _ :: rest =>
        ((ch :: r).takeWhile (fun c => !(c == '\n'))).length + 1 + g4Rest fuel rest := by
  simp [g4Rest, h]

theorem takeWhile_nonNl_full (l1 rest : Str) (hall : ∀ x ∈ l1, x ≠ '\n') :
    (l1 ++ '\n' :: rest).takeWhile (fun c => !(c == '\n')) = l1 := by
  apply takeWhile_append_eq
  · intro x hx
    simpa using hall x hx
  · apply takeWhile_nil_of_head
    simp

theorem g4Rest_step_line (fuel : Nat) (l1 rest : Str) (hne : l1 ≠ [])
    (hall : ∀ x ∈ l1, x ≠ '\n') :
    g4Rest (fuel + 1) (l1 ++ '\n' :: rest) = l1.length + 1 + g4Rest fuel rest := by
  obtain ⟨ch, ct, rfl⟩ : ∃ ch ct, l1 = ch :: ct := by
    cases l1 with
    | nil => exact absurd rfl hne
    | cons ch ct => exact ⟨ch, ct, rfl⟩
  have hch : ch ≠ '\n' := hall ch (List.mem_cons_self ch ct)
  rw [List.cons_append, g4Rest_step fuel ch (ct ++ '\n' :: rest) hch]
  have e1 : ch :: (ct ++ '\n' :: rest) = (ch :: ct) ++ '\n' :: rest := by simp
  rw [e1, takeWhile_nonNl_full (ch :: ct) rest hall, List.drop_left]

theorem takeWhile_nonNl_self (l1 : Str) (hall : ∀ x ∈ l1, x ≠ '\n') :
    l1.takeWhile (fun c => !(c == '\n')) = l1 := by
  induction l1 with
  | nil => rfl
  | cons c t ih =>
    have hc : c ≠ '\n' := hall c (List.mem_cons_self c t)
    rw [List.takeWhile_cons]
    have : (!(c == '\n')) = true := by simpa using hc
    rw [this, if_pos rfl, ih (fun x hx => hall x (List.mem_cons_of_mem c hx))]

theorem g4Rest_step_last (fuel : Nat) (l1 : Str) (hne : l1 ≠ [])
    (hall : ∀ x ∈ l1, x ≠ '\n') :
    g4Rest (fuel + 1) l1 = l1.length := by
  obtain ⟨ch, ct, rfl⟩ : ∃ ch ct, l1 = ch :: ct := by
    cases l1 with
    | nil => exact absurd rfl hne
    | cons ch ct => exact ⟨ch, ct, rfl⟩
  have hch : ch ≠ '\n' := hall ch (List.mem_cons_self ch ct)
  rw [g4Rest_step fuel ch ct hch, takeWhile_nonNl_self (ch :: ct) hall, List.drop_length]

theorem g4Match_line (l1 rest : Str) (hne : l1 ≠ []) (hall : ∀ x ∈ l1, x ≠ '\n') :
    g4Match (l1 ++ '\n' :: rest) = some (l1.length + 1 + g4Rest rest.length rest) := by
  obtain ⟨ch, ct, rfl⟩ : ∃ ch ct, l1 = ch :: ct := by
    cases l1 with
    | nil => exact absurd rfl hne
    | cons ch ct => exact ⟨ch, ct, rfl⟩
  have hch : ch ≠ '\n' := hall ch (List.mem_cons_self ch ct)
  rw [List.cons_append, g4Match]
  rw [if_neg hch]
  have e1 : ch :: (ct ++ '\n' :: rest) = (ch :: ct) ++ '\n' :: rest := by simp
  rw [e1, takeWhile_nonNl_full (ch :: ct) rest hall, List.drop_left]

theorem g4Match_last (l1 : Str) (hne : l1 ≠ []) (hall : ∀ x ∈ l1, x ≠ '\n') :
    g4Match l1 = some l1.length := by
  obtain ⟨ch, ct, rfl⟩ : ∃ ch ct, l1 = ch :: ct := by
    cases l1 with
    | nil => exact absurd rfl hne
    | cons ch ct => exact ⟨ch, ct, rfl⟩
  have hch : ch ≠ '\n' := hall ch (List.mem_cons_self ch ct)
  rw [g4Match, if_neg hch, takeWhile_nonNl_self (ch :: ct) hall, List.drop_length]

/-- Decompose a `linesOk` string into its first line and the remainder. -/
theorem lines_decompose (c : Str) (h : linesOk c = true) :
    (c ≠ [] ∧ (∀ x ∈ c, x ≠ '\n')) ∨
    (∃ l1 c2, c = l1 ++ '\n' :: c2 ∧ l1 ≠ [] ∧ (∀ x ∈ l1, x ≠ '\n') ∧
      linesOk c2 = true) := by
  set p : Char → Bool := fun c => !(c == '\n') with hp
  have hsplit : c.takeWhile p ++ c.dropWhile p = c := List.takeWhile_append_dropWhile p c
  have htw : ∀ x ∈ c.takeWhile p, x ≠ '\n' := by
    intro x hx
    have h2 := List.mem_takeWhile_imp hx
    rw [hp] at h2
    simpa using h2
  cases hdw : c.dropWhile p with
  | nil =>
    left
    refine ⟨linesOk_ne_nil c h, ?_⟩
    rw [hdw, List.append_nil] at hsplit
    intro x hx
    rw [← hsplit] at hx
    exact htw x hx
  | cons d c2 =>
    right
    have hd : d = '\n' := by
      have hne : c.dropWhile p ≠ [] := by rw [hdw]; simp
      have h2 := List.head_dropWhile_not p c hne
      have h4 : (c.dropWhile p).head? = some d := by rw [hdw]; rfl
      have h5 : (c.dropWhile p).head? = some ((c.dropWhile p).head hne) :=
        List.head?_eq_head hne
      have h6 : (c.dropWhile p).head hne = d := by
        rw [h4] at h5
        exact (Option.some_injective _ h5).symm
      rw [h6, hp] at h2
      simpa using h2
    subst hd
    rw [hdw] at hsplit
    refine ⟨c.takeWhile p, c2, hsplit.symm, ?_, htw, ?_⟩
    · obtain ⟨h1, _⟩ := linesOk_decompose (c.takeWhile p) c2 htw (by rw [hsplit]; exact h)
      exact h1
    · obtain ⟨_, h2⟩ := linesOk_decompose (c.takeWhile p) c2 htw (by rw [hsplit]; exact h)
      exact h2

theorem g4Rest_spec : ∀ fuel c tail, (c ++ '\n' :: tail).length ≤ fuel →
    linesOk c = true → (tail = [] ∨ ∃ w, tail = '\n' :: w) →
    g4Rest fuel (c ++ '\n' :: tail) = c.length + 1 + (if tail.isEmpty then 0 else 1) := by
  intro fuel
  induction fuel using Nat.strong_induction_on with
  | _ fuel ih =>
    intro c tail hfuel hlines htail
    obtain ⟨fuel', rfl⟩ : ∃ f, fuel = f + 1 := by
      cases fuel with
      | zero =>
        exfalso
        have := linesOk_ne_nil c hlines
        cases c with
        | nil => exact this rfl
        | cons a b => simp at hfuel
      | succ f => exact ⟨f, rfl⟩
    rcases lines_decompose c hlines with ⟨hne, hall⟩ | ⟨l1, c2, rfl, hl1ne, hl1, hlines2⟩
    · rw [g4Rest_step_line fuel' c tail hne hall]
      rcases htail with rfl | ⟨w, rfl⟩
      · simp [g4Rest_nil]
      · simp [g4Rest_nl]
    · have hassoc : (l1 ++ '\n' :: c2) ++ '\n' :: tail = l1 ++ '\n' :: (c2 ++ '\n' :: tail) := by
        simp
      rw [hassoc, g4Rest_step_line fuel' l1 (c2 ++ '\n' :: tail) hl1ne hl1]
      have hfuel2 : (c2 ++ '\n' :: tail).length ≤ fuel' := by
        have h1 := congrArg List.length hassoc
        simp only [List.length_append, List.length_cons] at h1 hfuel ⊢
        have : 1 ≤ l1.length := by
          cases l1 with
          | nil => exact absurd rfl hl1ne
          | cons _ _ => simp
        omega
      rw [ih fuel' (by omega) c2 tail hfuel2 hlines2 htail]
      simp only [List.length_append, List.length_cons]
      omega

theorem g4Match_spec (c tail : Str) (hlines : linesOk c = true)
    (htail : tail = [] ∨ ∃ w, tail = '\n' :: w) :
    g4Match (c ++ '\n' :: tail) =
      some (c.length + 1 + (if tail.isEmpty then 0 else 1)) := by
  rcases lines_decompose c hlines with ⟨hne, hall⟩ | ⟨l1, c2, rfl, hl1ne, hl1, hlines2⟩
  · rw [g4Match_line c tail hne hall]
    rcases htail with rfl | ⟨w, rfl⟩
    · simp [g4Rest_nil]
    · simp [g4Rest_nl]
  · have hassoc : (l1 ++ '\n' :: c2) ++ '\n' :: tail = l1 ++ '\n' :: (c2 ++ '\n' :: tail) := by
      simp
    rw [hassoc, g4Match_line l1 (c2 ++ '\n' :: tail) hl1ne hl1]
    rw [g4Rest_spec (c2 ++ '\n' :: tail).length c2 tail (le_refl _) hlines2 htail]
    simp only [List.length_append, List.length_cons]
    congr 1
    omega

theorem isDigit_not_space (c : Char) (h : c.isDigit = true) : pyIsSpace c = false := by
  unfold Char.isDigit at h
  unfold pyIsSpace
  simp only [Bool.and_eq_true, decide_eq_true_eq] at h
  obtain ⟨h1, h2⟩ := h
  have hv : 48 ≤ c.val ∧ c.val ≤ 57 := ⟨h1, h2⟩
  simp only [Bool.or_eq_false_iff, beq_eq_false_iff_ne]
  refine ⟨⟨⟨⟨⟨?_, ?_⟩, ?_⟩, ?_⟩, ?_⟩, ?_⟩ <;>
    (intro he; subst he; revert hv; decide)

theorem isTs_length (l : Str) (h : isTs l = true) : l.length = 12 := by
  unfold isTs at h
  match l with
  | [a, b, c, d, e, f, g, h2, i, j, k, m] => rfl

theorem isTs_head_digit (l : Str) (h : isTs l = true) :
    ∃ c r, l = c :: r ∧ c.isDigit = true := by
  unfold isTs at h
  match l, h with
  | [a, b, c, d, e, f, g, h2, i, j, k, m], h =>
    simp only [Bool.and_eq_true] at h
    exact ⟨a, _, rfl, h.1.1.1.1.1.1.1.1.1.1.1⟩

/-- Well-formedness of one entry for the round-trip property: positive
number, timestamp-shaped time codes, strip-fixed content, and all content
lines non-empty. -/
def wfEntry (e : SRTEntry) : Bool :=
  (1 ≤ e.number : Bool) && isTs e.start_time && isTs e.end_time &&
    (pyStrip e.content == e.content) && linesOk e.content

theorem strip_fixed_head (c : Str) (hne : c ≠ []) (h : pyStrip c = c) :
    ∃ ch ct, c = ch :: ct ∧ pyIsSpace ch = false := by
  obtain ⟨hl, _⟩ := pyStrip_fixed_parts c h
  obtain ⟨ch, ct, rfl⟩ : ∃ ch ct, c = ch :: ct := by
    cases c with
    | nil => exact absurd rfl hne
    | cons ch ct => exact ⟨ch, ct, rfl⟩
  refine ⟨ch, ct, rfl, ?_⟩
  cases hq : pyIsSpace ch with
  | false => rfl
  | true =>
    exfalso
    unfold pyLStrip at hl
    rw [List.dropWhile_cons, hq] at hl
    have h2 := congrArg List.length hl
    have h3 := (List.dropWhile_suffix (l := ct) pyIsSpace).length_le
    simp at h2
    omega

theorem matchTail4_spec (c tail : Str) (hlines : linesOk c = true)
    (hhead : pyStrip c = c) (htail : tail = [] ∨ ∃ w, tail = '\n' :: w) :
    matchTail4 ('\n' :: (c ++ '\n' :: tail)) =
      some (1, c.length + 1 + (if tail.isEmpty then 0 else 1)) := by
  obtain ⟨ch, ct, rfl, hch⟩ := strip_fixed_head c (linesOk_ne_nil c hlines) hhead
  unfold matchTail4
  have hrun : (('\n' : Char) :: ((ch :: ct) ++ '\n' :: tail)).takeWhile pyIsSpace = ['\n'] := by
    rw [List.takeWhile_cons]
    have h1 : pyIsSpace '\n' = true := by decide
    rw [h1, if_pos rfl, List.cons_append, List.takeWhile_cons, hch]
    simp
  rw [hrun]
  have hcand : nlCandidates ['\n'] = [0] := by decide
  simp only [hcand, firstSome, List.drop_succ_cons, List.drop_zero]
  rw [g4Match_spec (ch :: ct) tail hlines htail]
  rfl


theorem matchEntryAt_block (e : SRTEntry) (tail : Str) (hwf : wfEntry e = true)
    (htail : tail = [] ∨ ∃ w, tail = '\n' :: w) :
    matchEntryAt (to_string e ++ tail) =
      some (e, (to_string e).length + (if tail.isEmpty then 0 else 1)) := by
  unfold wfEntry at hwf
  simp only [Bool.and_eq_true, beq_iff_eq, decide_eq_true_eq] at hwf
  obtain ⟨⟨⟨⟨hnum, hst⟩, het⟩, hstrip⟩, hlines⟩ := hwf
  obtain ⟨hdig, hdne, hdval⟩ := natDigits_spec e.number
  obtain ⟨a0, A1, hA, ha0⟩ := isTs_head_digit e.start_time hst
  obtain ⟨b0, B1, hB, hb0⟩ := isTs_head_digit e.end_time het
  have hlenA : e.start_time.length = 12 := isTs_length _ hst
  have hlenB : e.end_time.length = 12 := isTs_length _ het
  have hshape : to_string e ++ tail =
      natDigits e.number ++ '\n' ::
        (e.start_time ++ ' ' :: '-' :: '-' :: '>' :: ' ' ::
          (e.end_time ++ '\n' :: (e.content ++ '\n' :: tail))) := by
    unfold to_string
    simp
  have hlen_ts : (to_string e).length =
      (natDigits e.number).length + 32 + e.content.length := by
    unfold to_string
    simp only [List.length_append, List.length_cons, List.length_nil]
    omega
  rw [hshape]
  simp only [matchEntryAt]
  have h1 : (natDigits e.number ++ '\n' ::
      (e.start_time ++ ' ' :: '-' :: '-' :: '>' :: ' ' ::
        (e.end_time ++ '\n' :: (e.content ++ '\n' :: tail)))).takeWhile
          Char.isDigit = natDigits e.number := by
    apply takeWhile_append_eq _ _ _ hdig
    apply takeWhile_nil_of_head
    decide
  rw [h1]
  have h2 : (natDigits e.number).isEmpty = false := by
    cases hq : natDigits e.number with
    | nil => exact absurd hq hdne
    | cons _ _ => rfl
  rw [h2]
  simp only [Bool.false_eq_true, if_false]
  rw [List.drop_left]
  have h4 : (('\n' : Char) :: (e.start_time ++ ' ' :: '-' :: '-' :: '>' :: ' ' ::
      (e.end_time ++ '\n' :: (e.content ++ '\n' :: tail)))).takeWhile pyIsSpace =
      ['\n'] := by
    rw [List.takeWhile_cons]
    have hnl : pyIsSpace '\n' = true := by decide
    rw [hnl, if_pos rfl, hA, List.cons_append, List.takeWhile_cons,
      isDigit_not_space a0 ha0]
    simp
  rw [h4]
  have h5 : (!((['\n'] : Str).getLast? == some '\n')) = false := by decide
  rw [h5]
  simp only [Bool.false_eq_true, if_false, List.length_singleton, List.drop_succ_cons,
    List.drop_zero]
  have h6 : tryTs (e.start_time ++ ' ' :: '-' :: '-' :: '>' :: ' ' ::
      (e.end_time ++ '\n' :: (e.content ++ '\n' :: tail))) =
      some (e.start_time, ' ' :: '-' :: '-' :: '>' :: ' ' ::
        (e.end_time ++ '\n' :: (e.content ++ '\n' :: tail))) := by
    unfold tryTs
    rw [List.take_left' hlenA, List.drop_left' hlenA, if_pos hst]
  rw [h6]
  simp only [Option.some_bind]
  have h7 : ((' ' : Char) :: '-' :: '-' :: '>' :: ' ' ::
      (e.end_time ++ '\n' :: (e.content ++ '\n' :: tail))).takeWhile pyIsSpace =
      [' '] := by
    rw [List.takeWhile_cons]
    have hsp : pyIsSpace ' ' = true := by decide
    rw [hsp, if_pos rfl, List.takeWhile_cons]
    have hdash : pyIsSpace '-' = false := by decide
    rw [hdash]
    simp
  rw [h7]
  simp only [List.length_singleton, List.drop_succ_cons, List.drop_zero]
  have h8 : ((' ' : Char) :: (e.end_time ++ '\n' :: (e.content ++ '\n' :: tail))).takeWhile
      pyIsSpace = [' '] := by
    rw [List.takeWhile_cons]
    have hsp : pyIsSpace ' ' = true := by decide
    rw [hsp, if_pos rfl, hB, List.cons_append, List.takeWhile_cons,
      isDigit_not_space b0 hb0]
    simp
  rw [h8]
  simp only [List.length_singleton, List.drop_succ_cons, List.drop_zero]
  have h9 : tryTs (e.end_time ++ '\n' :: (e.content ++ '\n' :: tail)) =
      some (e.end_time, '\n' :: (e.content ++ '\n' :: tail)) := by
    unfold tryTs
    rw [List.take_left' hlenB, List.drop_left' hlenB, if_pos het]
  rw [h9]
  simp only [Option.some_bind]
  rw [matchTail4_spec e.content tail hlines hstrip htail]
  simp only [Option.map_some', List.drop_succ_cons, List.drop_zero]
  have hE : mkEntry (digitsToNat (natDigits e.number)) e.start_time e.end_time
      ((e.content ++ '\n' :: tail).take
        (e.content.length + 1 + (if tail.isEmpty then 0 else 1))) = e := by
    have h10 : (e.content ++ '\n' :: tail).take
        (e.content.length + 1 + (if tail.isEmpty then 0 else 1)) =
        e.content ++ ('\n' :: tail).take (1 + (if tail.isEmpty then 0 else 1)) := by
      rw [Nat.add_assoc, List.take_append]
    unfold mkEntry
    rw [hdval, h10]
    have h11 : pyStrip (e.content ++ ('\n' :: tail).take
        (1 + (if tail.isEmpty then 0 else 1))) = e.content := by
      apply pyStrip_append_ws _ _ hstrip (linesOk_ne_nil _ hlines)
      intro x hx
      have hx3 : x ∈ ('\n' :: tail) := List.mem_of_mem_take hx
      rcases htail with h0 | ⟨w, hw⟩
      · subst h0
        have : x = '\n' := by simpa using hx3
        rw [this]; decide
      · subst hw
        have hx4 : x ∈ ('\n' :: '\n' :: w).take (1 + 1) := by
          simpa using hx
        have : x = '\n' := by
          simp only [List.take_succ_cons] at hx4
          simp only [List.mem_cons] at hx4
          rcases hx4 with h | h | h
          · exact h
          · exact h
          · simp at h
        rw [this]; decide
    rw [h11]
  rw [hE]
  refine congrArg some (congrArg (Prod.mk e) ?_)
  rw [hlen_ts]
  rcases htail with h0 | ⟨w, hw⟩
  · subst h0
    simp only [List.isEmpty_nil, if_true]
    omega
  · subst hw
    simp only [List.isEmpty_cons, if_false]
    omega

theorem parseLoop_nil (fuel : Nat) : parseLoop fuel [] = [] := by
  cases fuel <;> rfl

theorem parseLoop_cons_match (fuel : Nat) (s : Str) (hne : s ≠ []) (e : SRTEntry) (n : Nat)
    (hm : matchEntryAt s = some (e, n)) :
    parseLoop (fuel + 1) s = e :: parseLoop fuel (s.drop n) := by
  obtain ⟨c, s2, rfl⟩ : ∃ c s2, s = c :: s2 := by
    cases s with
    | nil => exact absurd rfl hne
    | cons c s2 => exact ⟨c, s2, rfl⟩
  simp only [parseLoop, hm]

theorem to_string_ne_nil (e : SRTEntry) : to_string e ≠ [] := by
  unfold to_string
  obtain ⟨_, hdne, _⟩ := natDigits_spec e.number
  cases hq : natDigits e.number with
  | nil => exact absurd hq hdne
  | cons c r => simp [hq]

theorem parseLoop_write (es : List SRTEntry) (h : ∀ e ∈ es, wfEntry e = true) :
    ∀ fuel, (write_srt es).length ≤ fuel → parseLoop fuel (write_srt es) = es := by
  induction es with
  | nil => intro fuel _; exact parseLoop_nil fuel
  | cons e rest ih =>
    intro fuel hfuel
    have hwe : wfEntry e = true := h e (List.mem_cons_self e rest)
    rcases rest with _ | ⟨r0, r1⟩
    case nil =>
      have hw : write_srt [e] = to_string e := rfl
      rw [hw] at hfuel ⊢
      obtain ⟨fuel', rfl⟩ : ∃ f, fuel = f + 1 := by
        cases fuel with
        | zero =>
          exfalso
          have := to_string_ne_nil e
          cases hq : to_string e with
          | nil => exact this hq
          | cons a b => rw [hq] at hfuel; simp at hfuel
        | succ f => exact ⟨f, rfl⟩
      have hm : matchEntryAt (to_string e) = some (e, (to_string e).length) := by
        have := matchEntryAt_block e [] hwe (Or.inl rfl)
        simpa using this
      rw [parseLoop_cons_match fuel' (to_string e) (to_string_ne_nil e) e
        (to_string e).length hm]
      rw [List.drop_length, parseLoop_nil]
    case cons =>
      have hw : write_srt (e :: r0 :: r1) = to_string e ++ '\n' :: write_srt (r0 :: r1) := rfl
      rw [hw] at hfuel ⊢
      obtain ⟨fuel', rfl⟩ : ∃ f, fuel = f + 1 := by
        cases fuel with
        | zero =>
          exfalso
          have := to_string_ne_nil e
          cases hq : to_string e with
          | nil => exact this hq
          | cons a b => rw [hq] at hfuel; simp at hfuel
        | succ f => exact ⟨f, rfl⟩
      have hm : matchEntryAt (to_string e ++ '\n' :: write_srt (r0 :: r1)) =
          some (e, (to_string e).length + 1) := by
        have := matchEntryAt_block e ('\n' :: write_srt (r0 :: r1)) hwe
          (Or.inr ⟨write_srt (r0 :: r1), rfl⟩)
        simpa using this
      have hne2 : to_string e ++ '\n' :: write_srt (r0 :: r1) ≠ [] := by
        cases hq : to_string e with
        | nil => exact absurd hq (to_string_ne_nil e)
        | cons a b => simp [hq]
      rw [parseLoop_cons_match fuel' _ hne2 e ((to_string e).length + 1) hm]
      have hdrop : (to_string e ++ '\n' :: write_srt (r0 :: r1)).drop
          ((to_string e).length + 1) = write_srt (r0 :: r1) := by
        have he : to_string e ++ '\n' :: write_srt (r0 :: r1) =
            (to_string e ++ ['\n']) ++ write_srt (r0 :: r1) := by simp
        have hl : (to_string e ++ ['\n']).length = (to_string e).length + 1 := by simp
        rw [he, List.drop_left' hl]
      rw [hdrop]
      have hlen1 : 1 ≤ (to_string e).length := by
        cases hq : to_string e with
        | nil => exact absurd hq (to_string_ne_nil e)
        | cons a b => simp [hq]
      have hfuel2 : (write_srt (r0 :: r1)).length ≤ fuel' := by
        simp only [List.length_append, List.length_cons] at hfuel
        omega
      rw [ih (fun x hx => h x (List.mem_cons_of_mem e hx)) fuel' hfuel2]

/-- C5 (amended): the render-parse round-trip holds for every record
sequence whose entries are well-formed in the strengthened sense: positive
number, timestamp-shaped time codes, strip-fixed content, and every content
line non-empty (an empty interior content line breaks the regex-based
parse, see the counterexample). -/
theorem C5_round_trip_amended (es : List SRTEntry) (h : ∀ e ∈ es, wfEntry e = true) :
    parse_srt (write_srt es) = es ∧
    write_srt (parse_srt (write_srt es)) = write_srt es := by
  have h1 : parse_srt (write_srt es) = es :=
    parseLoop_write es h (write_srt es).length (le_refl _)
  exact ⟨h1, by rw [h1]⟩

/-- Witness for C5 (amended) on a two-entry sequence with multi-line content. -/
theorem C5_round_trip_amended_witness :
    (∀ e ∈ [mkEntry 1 "00:00:00,000".toList "00:00:01,000".toList "a\nb".toList,
            mkEntry 2 "00:00:01,000".toList "00:00:02,000".toList "hello".toList],
        wfEntry e = true) ∧
    (parse_srt (write_srt [mkEntry 1 "00:00:00,000".toList "00:00:01,000".toList "a\nb".toList,
            mkEntry 2 "00:00:01,000".toList "00:00:02,000".toList "hello".toList]) =
        [mkEntry 1 "00:00:00,000".toList "00:00:01,000".toList "a\nb".toList,
         mkEntry 2 "00:00:01,000".toList "00:00:02,000".toList "hello".toList] ∧
     write_srt (parse_srt (write_srt
        [mkEntry 1 "00:00:00,000".toList "00:00:01,000".toList "a\nb".toList,
         mkEntry 2 "00:00:01,000".toList "00:00:02,000".toList "hello".toList])) =
       write_srt [mkEntry 1 "00:00:00,000".toList "00:00:01,000".toList "a\nb".toList,
         mkEntry 2 "00:00:01,000".toList "00:00:02,000".toList "hello".toList]) :=
  ⟨by decide,
   C5_round_trip_amended _ (by decide)⟩

/-- C5 counterexample: a record that satisfies the claim's well-formedness
conditions (positive number, valid timestamps, non-empty stripped content)
but whose content has an empty interior line; rendering, parsing and
rendering again loses the text after the blank line, so the round-trip
equation fails. -/
theorem C5_counterexample :
    (1 ≤ (mkEntry 1 "00:00:00,000".toList "00:00:01,000".toList "a\n\nb".toList).number ∧
     isTs (mkEntry 1 "00:00:00,000".toList "00:00:01,000".toList "a\n\nb".toList).start_time = true ∧
     isTs (mkEntry 1 "00:00:00,000".toList "00:00:01,000".toList "a\n\nb".toList).end_time = true ∧
     pyStrip (mkEntry 1 "00:00:00,000".toList "00:00:01,000".toList "a\n\nb".toList).content =
       (mkEntry 1 "00:00:00,000".toList "00:00:01,000".toList "a\n\nb".toList).content ∧
     (mkEntry 1 "00:00:00,000".toList "00:00:01,000".toList "a\n\nb".toList).content ≠ []) ∧
    write_srt (parse_srt (write_srt
        [mkEntry 1 "00:00:00,000".toList "00:00:01,000".toList "a\n\nb".toList])) ≠
      write_srt [mkEntry 1 "00:00:00,000".toList "00:00:01,000".toList "a\n\nb".toList] := by
  decide

/-! ## The polish cleanup pipeline (claim C1)

From `SRTPolisher.clean_polished_content`, `SRTPolisher.convert_quotes_to_corner`,
`SRTPolisher._strip_terminal_chinese_periods` and the second cleanup pass of
`SRTPolisher.write_srt_entries`.  Each `re.sub` call of the source is embedded
as a token matcher (a function deciding whether the regex matches at the
current position, with the leftmost, non-overlapping, greedy-with-backtracking
semantics of the concrete pattern worked out case by case) driven by the
generic scanner `subScan`.  Character classes `\s`, `\d` and `\w` are taken at
their ASCII core (`\w` additionally covers CJK ideographs, which is the range
the surrounding code targets). -/

/-- Length of the maximal prefix of `s` whose characters satisfy `p`. -/
def classTake (p : Char → Bool) (s : Str) : Nat := (s.takeWhile p).length

/-- Length of the maximal whitespace prefix (what a greedy `\s*` consumes when
its continuation cannot start with whitespace). -/
def wsTake (s : Str) : Nat := classTake pyIsSpace s

/-- The literal `lit` occurs at the head of `s`. -/
def litAt (lit s : Str) : Bool := s.take lit.length == lit

/-- The literal `lit` occurs at the head of `s` up to ASCII case
(`re.IGNORECASE`). -/
def litAtCI (lit s : Str) : Bool :=
  (s.take lit.length).map Char.toLower == lit.map Char.toLower

/-- Greatest index `j < bound` with `s[j] = '\n'`, if any. -/
def lastNlWithin (s : Str) (bound : Nat) : Option Nat :=
  ((List.range bound).filter (fun j => s.getD j ' ' == '\n')).getLast?

/-- Number of characters a greedy `\s*$` (`re.MULTILINE`) consumes from the
head of `s`: the whole whitespace run when it reaches the end of the string,
otherwise back off to the last newline inside the run (the `$` position);
`none` when no backtracking target exists. -/
def dollarAfterWS (s : Str) : Option Nat :=
  let run := wsTake s
  if run = s.length then some run
  else lastNlWithin s run

/-- A full timestamp at the head of `s`. -/
def tsHead (s : Str) : Bool := isTs (s.take 12)

/-- Generic model of `re.sub(pattern, repl, text)`: scan left to right; at
each position ask the token matcher `tm` for a match (the flag tells whether
the position is a line start, i.e. the string start or right after a newline);
on a match emit the replacement and resume after the consumed characters,
otherwise keep the character.  All patterns embedded below only produce
matches of positive length, so the fuel `s.length` of `runSub` suffices. -/
def subScan (tm : Bool → Str → Option (Nat × Str)) : Nat → Bool → Str → Str
  | 0, _, _ => []
  | fuel + 1, atStart, s =>
    match s with
    | [] => []
    | c :: rest =>
      match tm atStart (c :: rest) with
      | some (len, repl) =>
        repl ++ subScan tm fuel (((c :: rest).take (max len 1)).getLast? == some '\n')
            ((c :: rest).drop (max len 1))
      | none => c :: subScan tm fuel (c == '\n') rest

/-- Run a substitution over the whole string (`pattern.sub(repl, s)`). -/
def runSub (tm : Bool → Str → Option (Nat × Str)) (s : Str) : Str :=
  subScan tm s.length true s

/-- The separator literal `===SUBTITLE_SEPARATOR` as a character list. -/
def sepLit : Str := "===SUBTITLE_SEPARATOR".data

/-- Matcher for `===SUBTITLE_SEPARATOR[_\d]*===` (ignorecase), replaced by
nothing: the literal, then a maximal run of `_`/digits (its characters cannot
begin the mandatory `===`, so no backtracking succeeds), then `===`. -/
def m_sep_token (_ : Bool) (s : Str) : Option (Nat × Str) :=
  if litAtCI sepLit s then
    let k := classTake (fun c => c == '_' || c.isDigit) (s.drop sepLit.length)
    if litAt "===".data (s.drop (sepLit.length + k)) then
      some (sepLit.length + k + 3, [])
    else none
  else none

/-- Matcher for `^[=\-\s]*SUBTITLE_SEPARATOR[^\n]*$` (multiline, ignorecase),
replaced by nothing: at a line start, a maximal run over the class (disjoint
from `S`/`s`), the literal, then the rest of the line (after which `$`
holds). -/
def m_sep_line (atStart : Bool) (s : Str) : Option (Nat × Str) :=
  if !atStart then none else
  let k := classTake (fun c => c == '=' || c == '-' || pyIsSpace c) s
  if litAtCI ("SUBTITLE_SEPARATOR".data) (s.drop k) then
    let r := classTake (fun c => c != '\n') (s.drop (k + 18))
    some (k + 18 + r, [])
  else none

/-- Matcher for `^---\s*` (multiline), replaced by nothing. -/
def m_dashes_start (atStart : Bool) (s : Str) : Option (Nat × Str) :=
  if atStart && litAt ("---".data) s then
    some (3 + wsTake (s.drop 3), [])
  else none

/-- Matcher for `\s*---$` (multiline), replaced by nothing: a maximal
whitespace run (its characters cannot begin `---`), the literal, and the
line must end there. -/
def m_dashes_end (_ : Bool) (s : Str) : Option (Nat × Str) :=
  let r := wsTake s
  if litAt ("---".data) (s.drop r) then
    let after := s.drop (r + 3)
    if after.isEmpty || after.headD ' ' == '\n' then some (r + 3, []) else none
  else none

/-- Matcher for the explanatory-label patterns `^LIT[:：]?\s*` (multiline),
replaced by nothing (`LIT` one of 润色后/润色结果/优化后/修改后). -/
def m_label_head (lit : Str) (atStart : Bool) (s : Str) : Option (Nat × Str) :=
  if atStart && litAt lit s then
    let rest := s.drop lit.length
    let c := if rest.headD ' ' == ':' || rest.headD ' ' == '：' then 1 else 0
    some (lit.length + c + wsTake (s.drop (lit.length + c)), [])
  else none

/-- Length consumed by the optional group `(?:\([^\n\)]*\))?`: an opening
parenthesis, a maximal run without newline or closing parenthesis, and the
closing parenthesis; zero when the group does not match. -/
def parenOptLen (s : Str) : Nat :=
  match s with
  | '(' :: r =>
    let inner := classTake (fun c => c != '\n' && c != ')') r
    if (r.drop inner).headD ' ' == ')' then 1 + inner + 1 else 0
  | _ => 0

/-- Length consumed by the common label tail `\s*(?:\([^\n\)]*\))?\s*[:：]\s*`
(with a final `$` when `dollar` is set), or `none` when it does not match.
Shrinking any of the greedy parts cannot rescue a failed colon test (the
freed characters are whitespace or a parenthesis, never `[:：]`), so the
maximal-munch computation is exact. -/
def labelTailLen (dollar : Bool) (s : Str) : Option Nat :=
  let w1 := wsTake s
  let g := parenOptLen (s.drop w1)
  let w2 := wsTake (s.drop (w1 + g))
  let cstart := w1 + g + w2
  let c := (s.drop cstart).headD ' '
  if c == ':' || c == '：' then
    let rest := s.drop (cstart + 1)
    if dollar then
      match dollarAfterWS rest with
      | some k => some (cstart + 1 + k)
      | none => none
    else some (cstart + 1 + wsTake rest)
  else none

/-- Matcher for `^\s*字幕\s*#?\s*\d+\s*(?:\([^\n\)]*\))?\s*[:：]\s*`
(multiline), replaced by nothing. -/
def m_subtitle_label (atStart : Bool) (s : Str) : Option (Nat × Str) :=
  if !atStart then none else
  let w0 := wsTake s
  if litAt ("字幕".data) (s.drop w0) then
    let p1 := w0 + 2
    let w1 := wsTake (s.drop p1)
    let h := if (s.drop (p1 + w1)).headD ' ' == '#' then 1 else 0
    let p2 := p1 + w1 + h
    let w2 := wsTake (s.drop p2)
    let d := classTake Char.isDigit (s.drop (p2 + w2))
    if d == 0 then none else
      match labelTailLen false (s.drop (p2 + w2 + d)) with
      | some t => some (p2 + w2 + d + t, [])
      | none => none
  else none

/-- Matcher for `^\s*#\s*\d+\s*(?:\([^\n\)]*\))?\s*[:：]\s*` (multiline; with
a final `$` when `dollar` is set), replaced by nothing. -/
def m_hash_label (dollar : Bool) (atStart : Bool) (s : Str) : Option (Nat × Str) :=
  if !atStart then none else
  let w0 := wsTake s
  if (s.drop w0).headD ' ' == '#' then
    let w1 := wsTake (s.drop (w0 + 1))
    let d := classTake Char.isDigit (s.drop (w0 + 1 + w1))
    if d == 0 then none else
      match labelTailLen dollar (s.drop (w0 + 1 + w1 + d)) with
      | some t => some (w0 + 1 + w1 + d + t, [])
      | none => none
  else none

/-- Matcher for the write-pass junk-head pattern
`^\s*(?:字幕\s*#?\s*\d+|#\s*\d+)\s*(?:\([^\n\)]*\))?\s*[:：]\s*` (multiline),
replaced by nothing.  The two alternatives start with distinct characters
(`字` or `#`), so the alternation is deterministic. -/
def m_junk_head (atStart : Bool) (s : Str) : Option (Nat × Str) :=
  if !atStart then none else
  let w0 := wsTake s
  let core : Option Nat :=
    if litAt ("字幕".data) (s.drop w0) then
      let w1 := wsTake (s.drop (w0 + 2))
      let h := if (s.drop (w0 + 2 + w1)).headD ' ' == '#' then 1 else 0
      let w2 := wsTake (s.drop (w0 + 2 + w1 + h))
      let d := classTake Char.isDigit (s.drop (w0 + 2 + w1 + h + w2))
      if d == 0 then none else some (2 + w1 + h + w2 + d)
    else if (s.drop w0).headD ' ' == '#' then
      let w1 := wsTake (s.drop (w0 + 1))
      let d := classTake Char.isDigit (s.drop (w0 + 1 + w1))
      if d == 0 then none else some (1 + w1 + d)
    else none
  match core with
  | some k =>
    match labelTailLen false (s.drop (w0 + k)) with
    | some t => some (w0 + k + t, [])
    | none => none
  | none => none

/-- Matcher for the full timecode line
`^\s*\d{2}:\d{2}:\d{2},\d{3}\s*-->\s*\d{2}:\d{2}:\d{2},\d{3}\s*$`
(multiline), replaced by nothing. -/
def m_timecode_line (atStart : Bool) (s : Str) : Option (Nat × Str) :=
  if !atStart then none else
  let w0 := wsTake s
  if tsHead (s.drop w0) then
    let w1 := wsTake (s.drop (w0 + 12))
    if litAt ("-->".data) (s.drop (w0 + 12 + w1)) then
      let p := w0 + 12 + w1 + 3
      let w2 := wsTake (s.drop p)
      if tsHead (s.drop (p + w2)) then
        match dollarAfterWS (s.drop (p + w2 + 12)) with
        | some k => some (p + w2 + 12 + k, [])
        | none => none
      else none
    else none
  else none

/-- Matcher for the lone timestamp line `^\s*\d{2}:\d{2}:\d{2},\d{3}\s*$`
(multiline), replaced by nothing. -/
def m_single_time_line (atStart : Bool) (s : Str) : Option (Nat × Str) :=
  if !atStart then none else
  let w0 := wsTake s
  if tsHead (s.drop w0) then
    match dollarAfterWS (s.drop (w0 + 12)) with
    | some k => some (w0 + 12 + k, [])
    | none => none
  else none

/-- Matcher for the inline timecode
`\s*\d{2}:\d{2}:\d{2},\d{3}\s*-->\s*\d{2}:\d{2}:\d{2},\d{3}\s*`,
replaced by a single space. -/
def m_inline_timecode (_ : Bool) (s : Str) : Option (Nat × Str) :=
  let w0 := wsTake s
  if tsHead (s.drop w0) then
    let w1 := wsTake (s.drop (w0 + 12))
    if litAt ("-->".data) (s.drop (w0 + 12 + w1)) then
      let p := w0 + 12 + w1 + 3
      let w2 := wsTake (s.drop p)
      if tsHead (s.drop (p + w2)) then
        some (p + w2 + 12 + wsTake (s.drop (p + w2 + 12)), [' '])
      else none
    else none
  else none

/-- Matcher for the inline lone timestamp `\s*\d{2}:\d{2}:\d{2},\d{3}\s*`,
replaced by a single space. -/
def m_inline_single (_ : Bool) (s : Str) : Option (Nat × Str) :=
  let w0 := wsTake s
  if tsHead (s.drop w0) then
    some (w0 + 12 + wsTake (s.drop (w0 + 12)), [' '])
  else none

/-- Matcher for the pure digit line `^\s*\d+\s*$` (multiline), replaced by
nothing. -/
def m_digit_line (atStart : Bool) (s : Str) : Option (Nat × Str) :=
  if !atStart then none else
  let w0 := wsTake s
  let d := classTake Char.isDigit (s.drop w0)
  if d == 0 then none else
    match dollarAfterWS (s.drop (w0 + d)) with
    | some k => some (w0 + d + k, [])
    | none => none

/-- Matcher for `\n\s*\n`, replaced by one newline: a newline, then the
greedy inner `\s*` backs off to the last newline of the following whitespace
run (the literal second `\n`). -/
def m_nl_ws_nl (_ : Bool) (s : Str) : Option (Nat × Str) :=
  match s with
  | '\n' :: r =>
    let run := wsTake r
    match lastNlWithin r run with
    | some j => some (1 + j + 1, ['\n'])
    | none => none
  | _ => none

/-- Matcher for `^\s+|\s+$` (multiline), replaced by nothing: at a line start
the first branch takes the whole whitespace run; elsewhere the second branch
consumes up to the last line end inside the run, requiring at least one
character. -/
def m_line_trim (atStart : Bool) (s : Str) : Option (Nat × Str) :=
  let run := wsTake s
  if run == 0 then none
  else if atStart then some (run, [])
  else
    match dollarAfterWS s with
    | some k => if k == 0 then none else some (k, [])
    | none => none

/-- Matcher for `\n{3,}` (write pass), replaced by two newlines. -/
def m_nl3 (_ : Bool) (s : Str) : Option (Nat × Str) :=
  let r := classTake (fun c => c == '\n') s
  if r ≥ 3 then some (r, ['\n', '\n']) else none

/-- Python line-break characters (`str.splitlines`). -/
def pyIsLineBreak (c : Char) : Bool :=
  c == '\n' || c == '\r' || c == '\x0b' || c == '\x0c' ||
  c == '\x1c' || c == '\x1d' || c == '\x1e' || c == '\x85' ||
  c == ' ' || c == ' '

/-- Python `str.splitlines()` (fuelled; each step consumes at least one
character, so fuel `s.length` suffices): a trailing terminator produces no
empty final line, and `\r\n` counts as one break. -/
def pySplitlinesGo : Nat → Str → List Str
  | 0, _ => []
  | fuel + 1, s =>
    if s.isEmpty then []
    else
      let line := s.takeWhile (fun c => !pyIsLineBreak c)
      let rest := s.drop line.length
      if rest.isEmpty then [line]
      else if rest.take 2 == ['\r', '\n'] then line :: pySplitlinesGo fuel (rest.drop 2)
      else line :: pySplitlinesGo fuel (rest.drop 1)

/-- Python `str.splitlines()`. -/
def pySplitlines (s : Str) : List Str := pySplitlinesGo s.length s

/-- The per-line helper `_strip_wrapping_ascii_quotes` of
`clean_polished_content`: strip the line; when it is wrapped in a matching
pair of ASCII double or single quotes, drop the pair and strip again. -/
def strip_wrapping_ascii_quotes (line : Str) : Str :=
  let s := pyStrip line
  if decide (2 ≤ s.length) &&
      ((s.headD ' ' == '"' && s.getLastD ' ' == '"') ||
       (s.headD ' ' == '\x27' && s.getLastD ' ' == '\x27')) then
    pyStrip (s.drop 1).dropLast
  else s

/-- The closing characters skipped by `_strip_terminal_chinese_periods`. -/
def isCloser (c : Char) : Bool :=
  c == '”' || c == '"' || c == '’' || c == '\x27' || c == '」' || c == '』' ||
  c == '）' || c == ')' || c == '】' || c == ']' || c == '〕' || c == '》' ||
  c == '〉' || c == '>'

/-- A character of the class `[\w一-鿿]` (ASCII core of `\w` plus
CJK ideographs). -/
def isWordish (c : Char) : Bool :=
  c.isAlphanum || c == '_' || (decide (0x4e00 ≤ c.toNat) && decide (c.toNat ≤ 0x9fff))

/-- The per-line helper `strip_one_line` of `_strip_terminal_chinese_periods`:
right-strip; skip closing punctuation from the end; when the character before
it is a Chinese full stop and removing it still leaves a word character, drop
the full stop (right-stripping again). -/
def strip_one_line (line : Str) : Str :=
  let s := pyRStrip line
  if s.isEmpty then line
  else
    let keep := (s.reverse.takeWhile isCloser).length
    let i := s.length - keep
    if decide (0 < i) && s.getD (i - 1) ' ' == '。' then
      let candidate := pyRStrip (s.take (i - 1) ++ s.drop i)
      if candidate.any isWordish then candidate else s
    else s

/-- The method `_strip_terminal_chinese_periods`. -/
def strip_terminal_chinese_periods (text : Str) : Str :=
  if text.isEmpty then text
  else joinNl ((pySplitlines text).map strip_one_line)

/-- Opening corner quote for a nesting depth (`_pair_for_depth`): odd depths
use `「」`, even depths `『』`. -/
def pairOpen (depth : Nat) : Char :=
  if (max depth 1 - 1) % 2 == 0 then '「' else '『'

/-- Closing corner quote for a nesting depth (`_pair_for_depth`). -/
def pairClose (depth : Nat) : Char :=
  if (max depth 1 - 1) % 2 == 0 then '」' else '』'

/-- The helper `_looks_like_inch_mark` of `convert_quotes_to_corner`
(`isspace`/`isalpha` at their ASCII core, `isalpha` additionally covering CJK
ideographs). -/
def looks_like_inch_mark (prev next : Option Char) : Bool :=
  match prev with
  | none => false
  | some p =>
    if !p.isDigit then false
    else
      match next with
      | none => true
      | some n =>
        pyIsSpace n || n.isAlpha ||
          (decide (0x4e00 ≤ n.toNat) && decide (n.toNat ≤ 0x9fff)) || n.isDigit

/-- One iteration of the character loop of `convert_quotes_to_corner`: the
emitted character and the new stack (`true` marks a curly double quote,
`false` a straight one). -/
def convStep (prev : Option Char) (stack : List Bool) (c : Char) (nx : Option Char) :
    Char × List Bool :=
  if c == '“' then (pairOpen (stack.length + 1), true :: stack)
  else if c == '”' then
    match stack with
    | true :: st => (pairClose (st.length + 1), st)
    | _ => (c, stack)
  else if c == '"' then
    if looks_like_inch_mark prev nx || prev == some '\\' then (c, stack)
    else
      match stack with
      | false :: st => (pairClose (st.length + 1), st)
      | _ => (pairOpen (stack.length + 1), false :: stack)
  else (c, stack)

/-- The character loop of `convert_quotes_to_corner`. -/
def convGo (prev : Option Char) (stack : List Bool) : Str → Str
  | [] => []
  | c :: rest =>
    (convStep prev stack c rest.head?).1 ::
      convGo (some c) (convStep prev stack c rest.head?).2 rest

/-- The method `convert_quotes_to_corner`. -/
def convert_quotes_to_corner (text : Str) : Str :=
  if text.isEmpty then [] else convGo none [] text

/-- The method `clean_polished_content`, with the `corner_quotes` attribute
as an explicit flag: the twenty cleanup stages of the source, in order. -/
def clean_polished_content (corner_quotes : Bool) (content : Str) : Str :=
  if content.isEmpty then [] else
  let r0 := pyStrip content
  let r1 := runSub m_sep_token r0
  let r2 := runSub m_sep_line r1
  let r3 := runSub m_dashes_start r2
  let r4 := runSub m_dashes_end r3
  let r5 := runSub (m_label_head ("润色后".data)) r4
  let r6 := runSub (m_label_head ("润色结果".data)) r5
  let r7 := runSub (m_label_head ("优化后".data)) r6
  let r8 := runSub (m_label_head ("修改后".data)) r7
  let r9 := runSub m_subtitle_label r8
  let r10 := runSub (m_hash_label false) r9
  let r11 := runSub (m_hash_label true) r10
  let r12 := runSub m_timecode_line r11
  let r13 := runSub m_single_time_line r12
  let r14 := runSub m_inline_timecode r13
  let r15 := runSub m_inline_single r14
  let r16 := joinNl ((pySplitlines r15).map strip_wrapping_ascii_quotes)
  let r17 := runSub m_digit_line r16
  let r18 := runSub m_nl_ws_nl r17
  let r19 := runSub m_line_trim r18
  let r20 := if corner_quotes then convert_quotes_to_corner r19 else r19
  let r21 := strip_terminal_chinese_periods r20
  pyStrip r21

/-- The per-entry second cleanup pass of `write_srt_entries`. -/
def write_clean_content (text : Str) : Str :=
  let t1 := runSub m_junk_head text
  let t2 := runSub m_inline_timecode t1
  let t3 := runSub m_inline_single t2
  let t4 := runSub m_sep_line t3
  let t5 := runSub m_sep_token t4
  let t6 := runSub m_digit_line t5
  let t7 := runSub m_nl3 t6
  pyStrip t7

/-- The method `write_srt_entries`: apply the second cleanup pass to every
content and render the entries with blank-line separators (the file text the
`f.write` loop produces). -/
def write_srt_entries (entries : List SRTEntry) : Str :=
  write_srt (entries.map fun e => { e with content := write_clean_content e.content })

/-- The characters a timestamp is made of. -/
def isTsChar (c : Char) : Bool := c.isDigit || c == ':' || c == ','

theorem isTs_all_tsChar (l : Str) (h : isTs l = true) : ∀ c ∈ l, isTsChar c = true := by
  unfold isTs at h
  match l, h with
  | [a, b, c, d, e, f, g, h2, i, j, k, m], h =>
    simp only [Bool.and_eq_true, beq_iff_eq] at h
    obtain ⟨⟨⟨⟨⟨⟨⟨⟨⟨⟨⟨q1, q2⟩, q3⟩, q4⟩, q5⟩, q6⟩, q7⟩, q8⟩, q9⟩, q10⟩, q11⟩, q12⟩ := h
    intro x hx
    simp only [List.mem_cons, List.not_mem_nil, or_false] at hx
    rcases hx with rfl | rfl | rfl | rfl | rfl | rfl | rfl | rfl | rfl | rfl | rfl | rfl <;>
      simp_all [isTsChar]

theorem isTsChar_not_space (c : Char) (h : isTsChar c = true) : pyIsSpace c = false := by
  unfold isTsChar at h
  rcases Bool.or_eq_true_iff.mp h with h' | h'
  · rcases Bool.or_eq_true_iff.mp h' with h2 | h2
    · exact isDigit_not_space c h2
    · rw [beq_iff_eq] at h2; subst h2; rfl
  · rw [beq_iff_eq] at h'; subst h'; rfl

theorem isTsChar_ne_nl (c : Char) (h : isTsChar c = true) : c ≠ '\n' := by
  intro he
  subst he
  have hf : isTsChar '\n' = false := by decide
  rw [hf] at h
  exact absurd h (by simp)

/-- A timestamp window at a later position of a cons. -/
theorem tsAt_cons_succ (c : Char) (s : Str) (j : Nat) :
    tsAt (c :: s) (j + 1) = tsAt s j := rfl

/-- A timestamp window inside a dropped suffix. -/
theorem tsAt_drop (s : Str) (m j : Nat) : tsAt (s.drop m) j = tsAt s (m + j) := by
  unfold tsAt
  rw [List.drop_drop]

/-- A window beyond the end of the string is no timestamp. -/
theorem tsAt_ge_length (s : Str) (i : Nat) (h : s.length ≤ i) : tsAt s i = false := by
  unfold tsAt
  rw [List.drop_eq_nil_of_le h]
  rfl

/-- A single position with a timestamp window makes `containsTs` true. -/
theorem ts_mem (s : Str) (i : Nat) (h : tsAt s i = true) : containsTs s = true := by
  have hlen : ((s.drop i).take 12).length = 12 := isTs_length _ h
  have hi : i < s.length := by
    simp only [List.length_take, List.length_drop] at hlen
    omega
  unfold containsTs
  rw [List.any_eq_true]
  exact ⟨i, List.mem_range.mpr hi, h⟩

/-- Absence of timestamps, position by position. -/
theorem containsTs_eq_false_iff (s : Str) :
    containsTs s = false ↔ ∀ i, tsAt s i = false := by
  constructor
  · intro h i
    by_cases hi : i < s.length
    · cases ht : tsAt s i with
      | false => rfl
      | true => rw [ts_mem s i ht] at h; exact absurd h (by simp)
    · exact tsAt_ge_length s i (by omega)
  · intro h
    cases hc : containsTs s with
    | false => rfl
    | true =>
      unfold containsTs at hc
      rw [List.any_eq_true] at hc
      obtain ⟨i, _, ht⟩ := hc
      rw [h i] at ht
      exact absurd ht (by simp)

/-- A timestamp window starting inside the left part of an append whose
characters are all non-timestamp characters is impossible; hence the window
lives in the right part. -/
theorem tsAt_append_left_nonTs (x y : Str) (hx : ∀ c ∈ x, isTsChar c = false)
    (i : Nat) (h : tsAt (x ++ y) i = true) :
    x.length ≤ i ∧ tsAt y (i - x.length) = true := by
  by_cases hi : x.length ≤ i
  · refine ⟨hi, ?_⟩
    unfold tsAt at h ⊢
    rwa [List.drop_append_eq_append_drop, List.drop_eq_nil_of_le hi,
      List.nil_append] at h
  · exfalso
    push_neg at hi
    unfold tsAt at h
    rw [List.drop_append_eq_append_drop] at h
    have hxd : x.drop i ≠ [] := by
      intro he
      have := congrArg List.length he
      simp at this
      omega
    obtain ⟨c, t, hct⟩ := List.exists_cons_of_ne_nil hxd
    rw [hct, List.cons_append] at h
    have h12 : (12 : Nat) = 11 + 1 := rfl
    rw [h12, List.take_succ_cons] at h
    have hc : isTsChar c = true :=
      isTs_all_tsChar _ h c (List.mem_cons_self c _)
    have hcx : c ∈ x := by
      have : c ∈ x.drop i := by rw [hct]; exact List.mem_cons_self c t
      exact List.mem_of_mem_drop this
    rw [hx c hcx] at hc
    exact absurd hc (by simp)

/-- Replacing strings by all-non-timestamp-character material on the left of
an append cannot create a timestamp beyond those of the right part. -/
theorem containsTs_append_left_nonTs (x y : Str) (hx : ∀ c ∈ x, isTsChar c = false)
    (hy : containsTs y = false) : containsTs (x ++ y) = false := by
  rw [containsTs_eq_false_iff]
  intro i
  cases ht : tsAt (x ++ y) i with
  | false => rfl
  | true =>
    obtain ⟨_, hty⟩ := tsAt_append_left_nonTs x y hx i ht
    rw [containsTs_eq_false_iff] at hy
    rw [hy] at hty
    exact absurd hty (by simp)

theorem tsAt_infix (u t v : Str) (i : Nat) (h : tsAt t i = true) :
    tsAt (u ++ (t ++ v)) (u.length + i) = true := by
  have hlen : ((t.drop i).take 12).length = 12 := isTs_length _ h
  have h12 : 12 ≤ (t.drop i).length := by
    simp only [List.length_take] at hlen
    omega
  have hit : i ≤ t.length := by
    simp only [List.length_drop] at h12
    omega
  unfold tsAt at h ⊢
  rw [List.drop_append_eq_append_drop, List.drop_eq_nil_of_le (by omega),
    List.nil_append, Nat.add_sub_cancel_left, List.drop_append_eq_append_drop,
    Nat.sub_eq_zero_of_le hit, List.drop_zero,
    List.take_append_of_le_length h12]
  exact h

theorem containsTs_within (t s : Str) (hinf : t.IsInfix s) (h : containsTs t = true) :
    containsTs s = true := by
  obtain ⟨u, v, huv⟩ := hinf
  unfold containsTs at h
  rw [List.any_eq_true] at h
  obtain ⟨i, _, ht⟩ := h
  have := tsAt_infix u t v i ht
  apply ts_mem _ (u.length + i)
  rwa [← List.append_assoc, huv] at this

/-- Contrapositive form: an infix of a timestamp-free string is
timestamp-free. -/
theorem containsTs_within_false (t s : Str) (hinf : t.IsInfix s)
    (h : containsTs s = false) : containsTs t = false := by
  cases hc : containsTs t with
  | false => rfl
  | true => rw [containsTs_within t s hinf hc] at h; exact absurd h (by simp)

/-- A timestamp window cannot straddle a newline separator. -/
theorem tsAt_append_nl (a b : Str) (i : Nat) (h : tsAt (a ++ '\n' :: b) i = true) :
    tsAt a i = true ∨ ∃ j, tsAt b j = true := by
  by_cases h1 : i + 12 ≤ a.length
  · left
    unfold tsAt at h ⊢
    rw [List.drop_append_eq_append_drop, Nat.sub_eq_zero_of_le (by omega),
      List.drop_zero] at h
    have h12 : 12 ≤ (a.drop i).length := by
      simp only [List.length_drop]
      omega
    rwa [List.take_append_of_le_length h12] at h
  · by_cases h2 : a.length < i
    · right
      unfold tsAt at h
      rw [List.drop_append_eq_append_drop, List.drop_eq_nil_of_le (le_of_lt h2),
        List.nil_append] at h
      have hd : ('\n' :: b).drop (i - a.length) = b.drop (i - a.length - 1) := by
        have hk : i - a.length = (i - a.length - 1) + 1 := by omega
        rw [hk]
        rfl
      rw [hd] at h
      exact ⟨_, h⟩
    · exfalso
      push_neg at h1 h2
      unfold tsAt at h
      rw [List.drop_append_eq_append_drop, Nat.sub_eq_zero_of_le h2,
        List.drop_zero, List.take_append_eq_append_take] at h
      have hlen : (a.drop i).length < 12 := by
        simp only [List.length_drop]
        omega
      have hnl : '\n' ∈ (a.drop i).take 12 ++ ('\n' :: b).take (12 - (a.drop i).length) := by
        apply List.mem_append_right
        have hk : 12 - (a.drop i).length = (12 - (a.drop i).length - 1) + 1 := by omega
        rw [hk, List.take_succ_cons]
        exact List.mem_cons_self _ _
      have hch := isTs_all_tsChar _ h '\n' hnl
      have hf : isTsChar '\n' = false := by decide
      rw [hf] at hch
      exact absurd hch (by simp)

theorem containsTs_append_nl_false (a b : Str) (ha : containsTs a = false)
    (hb : containsTs b = false) : containsTs (a ++ '\n' :: b) = false := by
  rw [containsTs_eq_false_iff]
  intro i
  cases ht : tsAt (a ++ '\n' :: b) i with
  | false => rfl
  | true =>
    rcases tsAt_append_nl a b i ht with hta | ⟨j, htb⟩
    · rw [containsTs_eq_false_iff] at ha
      rw [ha i] at hta
      exact absurd hta (by simp)
    · rw [containsTs_eq_false_iff] at hb
      rw [hb j] at htb
      exact absurd htb (by simp)

theorem containsTs_joinNl (ls : List Str) (h : ∀ l ∈ ls, containsTs l = false) :
    containsTs (joinNl ls) = false := by
  induction ls with
  | nil => rfl
  | cons l r ih =>
    rcases r with _ | ⟨r0, r1⟩
    · simpa [joinNl] using h l (List.mem_cons_self _ _)
    · have hj : joinNl (l :: r0 :: r1) = l ++ '\n' :: joinNl (r0 :: r1) := by
        simp [joinNl]
      rw [hj]
      refine containsTs_append_nl_false _ _ (h l (List.mem_cons_self _ _)) ?_
      exact ih fun x hx => h x (List.mem_cons_of_mem _ hx)

theorem pyRStrip_front (s : Str) : (pyRStrip s).IsPrefix s := by
  unfold pyRStrip
  have hsuf : (s.reverse.dropWhile pyIsSpace).IsSuffix s.reverse :=
    List.dropWhile_suffix pyIsSpace
  obtain ⟨u, hu⟩ := hsuf
  refine ⟨u.reverse, ?_⟩
  have := congrArg List.reverse hu
  simpa using this

theorem pyStrip_within (s : Str) : (pyStrip s).IsInfix s := by
  unfold pyStrip
  have h1 : (pyRStrip (pyLStrip s)).IsPrefix (pyLStrip s) := pyRStrip_front _
  have h2 : (pyLStrip s).IsSuffix s := List.dropWhile_suffix pyIsSpace
  exact h1.isInfix.trans h2.isInfix

theorem subScan_zero (tm : Bool → Str → Option (Nat × Str)) (b : Bool) (s : Str) :
    subScan tm 0 b s = [] := rfl

theorem subScan_nil (tm : Bool → Str → Option (Nat × Str)) (fuel : Nat) (b : Bool) :
    subScan tm fuel b [] = [] := by
  cases fuel <;> rfl

theorem subScan_cons_none (tm : Bool → Str → Option (Nat × Str)) (fuel : Nat)
    (b : Bool) (c : Char) (rest : Str) (h : tm b (c :: rest) = none) :
    subScan tm (fuel + 1) b (c :: rest) = c :: subScan tm fuel (c == '\n') rest := by
  simp [subScan, h]

theorem subScan_cons_some (tm : Bool → Str → Option (Nat × Str)) (fuel : Nat)
    (b : Bool) (c : Char) (rest : Str) (len : Nat) (repl : Str)
    (h : tm b (c :: rest) = some (len, repl)) :
    subScan tm (fuel + 1) b (c :: rest) =
      repl ++ subScan tm fuel (((c :: rest).take (max len 1)).getLast? == some '\n')
        ((c :: rest).drop (max len 1)) := by
  simp [subScan, h]

theorem m_inline_single_some (b : Bool) (s : Str) (len : Nat) (repl : Str)
    (h : m_inline_single b s = some (len, repl)) : repl = [' '] := by
  simp only [m_inline_single] at h
  by_cases h' : tsHead (s.drop (wsTake s)) = true
  · rw [if_pos h'] at h
    simp only [Option.some.injEq, Prod.mk.injEq] at h
    exact h.2.symm
  · rw [if_neg h'] at h
    exact absurd h (by simp)

/-- While the output of the lone-timestamp substitution pass stays free of
whitespace, it copies the input verbatim. -/
theorem inline_single_take (fuel : Nat) : ∀ b s n,
    n ≤ (subScan m_inline_single fuel b s).length →
    (∀ c ∈ (subScan m_inline_single fuel b s).take n, pyIsSpace c = false) →
    (subScan m_inline_single fuel b s).take n = s.take n := by
  induction fuel with
  | zero =>
    intro b s n hn _
    rw [subScan_zero] at hn ⊢
    have hn0 : n = 0 := by simpa using hn
    subst hn0
    simp
  | succ fuel IH =>
    intro b s n hn hall
    rcases s with _ | ⟨c, r⟩
    · rw [subScan_nil] at hn ⊢
    · rcases htm : m_inline_single b (c :: r) with _ | ⟨len, repl⟩
      · rw [subScan_cons_none _ _ _ _ _ htm] at hn hall ⊢
        rcases n with _ | n
        · simp
        · rw [List.take_succ_cons] at hall ⊢
          congr 1
          refine IH (c == '\n') r n ?_ ?_
          · simpa using hn
          · exact fun x hx => hall x (List.mem_cons_of_mem _ hx)
      · have hrepl := m_inline_single_some b (c :: r) len repl htm
        subst hrepl
        rw [subScan_cons_some _ _ _ _ _ _ _ htm] at hn hall ⊢
        rcases n with _ | n
        · simp
        · exfalso
          have hsp : pyIsSpace ' ' = false := by
            refine hall ' ' ?_
            rw [List.singleton_append, List.take_succ_cons]
            exact List.mem_cons_self _ _
          exact absurd hsp (by simp [pyIsSpace])

/-- The lone-timestamp substitution pass leaves no timestamp anywhere in its
output: any timestamp-shaped window would have been copied from the input,
where the matcher would have fired on it. -/
theorem inline_single_kill (fuel : Nat) : ∀ b s,
    containsTs (subScan m_inline_single fuel b s) = false := by
  induction fuel with
  | zero =>
    intro b s
    rw [subScan_zero]
    rfl
  | succ fuel IH =>
    intro b s
    rcases s with _ | ⟨c, r⟩
    · rw [subScan_nil]
      rfl
    · rcases htm : m_inline_single b (c :: r) with _ | ⟨len, repl⟩
      · rw [subScan_cons_none _ _ _ _ _ htm]
        rw [containsTs_eq_false_iff]
        intro i
        rcases i with _ | j
        · cases h0 : tsAt (c :: subScan m_inline_single fuel (c == '\n') r) 0 with
          | false => rfl
          | true =>
            exfalso
            have hwin : isTs ((c :: subScan m_inline_single fuel (c == '\n') r).take 12) = true := h0
            have h12 : ((c :: subScan m_inline_single fuel (c == '\n') r).take 12).length = 12 :=
              isTs_length _ hwin
            have hall : ∀ x ∈ (c :: subScan m_inline_single fuel (c == '\n') r).take 12,
                pyIsSpace x = false := fun x hx =>
              isTsChar_not_space x (isTs_all_tsChar _ hwin x hx)
            have htake : (c :: subScan m_inline_single fuel (c == '\n') r).take 12 =
                (c :: r).take 12 := by
              have heq : subScan m_inline_single (fuel + 1) b (c :: r) =
                  c :: subScan m_inline_single fuel (c == '\n') r :=
                subScan_cons_none _ _ _ _ _ htm
              rw [← heq] at h12 hall ⊢
              refine inline_single_take (fuel + 1) b (c :: r) 12 ?_ hall
              simp only [List.length_take] at h12
              omega
            rw [htake] at hwin
            have hd : wsTake (c :: r) = 0 := by
              obtain ⟨ch, rt, hcr, hdig⟩ := isTs_head_digit _ hwin
              have hc : c = ch := by
                rcases r with _ | ⟨r0, r1⟩ <;> simpa using congrArg (fun l => l.headD ' ') hcr
              unfold wsTake classTake
              rw [takeWhile_nil_of_head pyIsSpace c r (by rw [hc]; exact isDigit_not_space ch hdig)]
              rfl
            have : m_inline_single b (c :: r) ≠ none := by
              simp only [m_inline_single, hd, List.drop_zero, tsHead]
              rw [if_pos hwin]
              simp
            exact this htm
        · rw [tsAt_cons_succ]
          have := IH (c == '\n') r
          rw [containsTs_eq_false_iff] at this
          exact this j
      · have hrepl := m_inline_single_some b (c :: r) len repl htm
        subst hrepl
        rw [subScan_cons_some _ _ _ _ _ _ _ htm]
        refine containsTs_append_left_nonTs _ _ ?_ (IH _ _)
        intro x hx
        have hx' : x = ' ' := by simpa using hx
        subst hx'
        decide

theorem tsAt_zero (s : Str) : tsAt s 0 = isTs (s.take 12) := by
  unfold tsAt
  rw [List.drop_zero]

theorem containsTs_drop_false (s : Str) (m : Nat) (h : containsTs s = false) :
    containsTs (s.drop m) = false := by
  rw [containsTs_eq_false_iff] at h ⊢
  intro j
  rw [tsAt_drop]
  exact h (m + j)

theorem m_digit_line_none_of_false (s : Str) : m_digit_line false s = none := by
  simp [m_digit_line]

theorem m_digit_line_some (b : Bool) (s : Str) (len : Nat) (repl : Str)
    (h : m_digit_line b s = some (len, repl)) : repl = [] := by
  simp only [m_digit_line] at h
  by_cases hb : (!b) = true
  · rw [if_pos hb] at h
    exact absurd h (by simp)
  · rw [if_neg hb] at h
    by_cases hd : (classTake Char.isDigit (s.drop (wsTake s)) == 0) = true
    · rw [if_pos hd] at h
      exact absurd h (by simp)
    · rw [if_neg hd] at h
      rcases hk : dollarAfterWS (s.drop (wsTake s + classTake Char.isDigit (s.drop (wsTake s)))) with _ | k
      · rw [hk] at h
        exact absurd h (by simp)
      · rw [hk] at h
        simp only [Option.some.injEq, Prod.mk.injEq] at h
        exact h.2.symm

/-- Away from line starts the digit-line pass copies its input. -/
theorem digit_line_take (fuel : Nat) : ∀ s n,
    n ≤ (subScan m_digit_line fuel false s).length →
    (∀ c ∈ (subScan m_digit_line fuel false s).take n, c ≠ '\n') →
    (subScan m_digit_line fuel false s).take n = s.take n := by
  induction fuel with
  | zero =>
    intro s n hn _
    rw [subScan_zero] at hn ⊢
    have hn0 : n = 0 := by simpa using hn
    subst hn0
    simp
  | succ fuel IH =>
    intro s n hn hall
    rcases s with _ | ⟨c, r⟩
    · rw [subScan_nil] at hn ⊢
    · have htm := m_digit_line_none_of_false (c :: r)
      rw [subScan_cons_none _ _ _ _ _ htm] at hn hall ⊢
      rcases n with _ | n
      · simp
      · rw [List.take_succ_cons] at hall ⊢
        have hc : c ≠ '\n' := hall c (List.mem_cons_self _ _)
        have hflag : (c == '\n') = false := by simpa using hc
        rw [hflag] at hn hall ⊢
        congr 1
        refine IH r n ?_ ?_
        · simpa using hn
        · exact fun x hx => hall x (List.mem_cons_of_mem _ hx)

/-- The digit-line removal pass creates no timestamp. -/
theorem digit_line_preserve (fuel : Nat) : ∀ b s, containsTs s = false →
    containsTs (subScan m_digit_line fuel b s) = false := by
  induction fuel with
  | zero =>
    intro b s _
    rw [subScan_zero]
    rfl
  | succ fuel IH =>
    intro b s hs
    rcases s with _ | ⟨c, r⟩
    · rw [subScan_nil]
      rfl
    · rcases htm : m_digit_line b (c :: r) with _ | ⟨len, repl⟩
      · rw [subScan_cons_none _ _ _ _ _ htm]
        rw [containsTs_eq_false_iff]
        intro i
        rcases i with _ | j
        · cases h0 : tsAt (c :: subScan m_digit_line fuel (c == '\n') r) 0 with
          | false => rfl
          | true =>
            exfalso
            rw [tsAt_zero] at h0
            have h12 : ((c :: subScan m_digit_line fuel (c == '\n') r).take 12).length = 12 :=
              isTs_length _ h0
            have hwin : (c :: subScan m_digit_line fuel (c == '\n') r).take 12 =
                c :: (subScan m_digit_line fuel (c == '\n') r).take 11 := by
              have : (12 : Nat) = 11 + 1 := rfl
              rw [this, List.take_succ_cons]
            rw [hwin] at h0 h12
            have hallnl : ∀ x ∈ c :: (subScan m_digit_line fuel (c == '\n') r).take 11,
                x ≠ '\n' := fun x hx => isTsChar_ne_nl x (isTs_all_tsChar _ h0 x hx)
            have hflag : (c == '\n') = false := by
              simpa using hallnl c (List.mem_cons_self _ _)
            rw [hflag] at h0 h12 hallnl
            have htake : (subScan m_digit_line fuel false r).take 11 = r.take 11 := by
              refine digit_line_take fuel r 11 ?_ ?_
              · simp only [List.length_cons, List.length_take] at h12
                omega
              · intro x hx
                exact hallnl x (List.mem_cons_of_mem _ hx)
            rw [htake] at h0
            have hts0 : tsAt (c :: r) 0 = true := by
              rw [tsAt_zero]
              have : (12 : Nat) = 11 + 1 := rfl
              rw [this, List.take_succ_cons]
              exact h0
            rw [containsTs_eq_false_iff] at hs
            rw [hs 0] at hts0
            exact absurd hts0 (by simp)
        · rw [tsAt_cons_succ]
          have hr : containsTs r = false := by
            have := containsTs_drop_false (c :: r) 1 hs
            simpa using this
          have := IH (c == '\n') r hr
          rw [containsTs_eq_false_iff] at this
          exact this j
      · have hrepl := m_digit_line_some b (c :: r) len repl htm
        subst hrepl
        rw [subScan_cons_some _ _ _ _ _ _ _ htm, List.nil_append]
        exact IH _ _ (containsTs_drop_false _ _ hs)

theorem getD_drop (s : Str) (m t : Nat) (d : Char) :
    (s.drop m).getD t d = s.getD (m + t) d := by
  rw [List.getD_eq_getElem?_getD, List.getD_eq_getElem?_getD, List.getElem?_drop]

theorem getD_takeWhile (p : Char → Bool) (s : Str) (j : Nat) (d : Char)
    (hj : j < (s.takeWhile p).length) :
    (s.takeWhile p).getD j d = s.getD j d := by
  obtain ⟨t, ht⟩ := List.takeWhile_prefix (l := s) p
  conv_rhs => rw [← ht]
  exact (List.getD_append _ t d j hj).symm

theorem wsTake_spec (s : Str) (j : Nat) (hj : j < wsTake s) :
    pyIsSpace (s.getD j ' ') = true := by
  unfold wsTake classTake at hj
  have hmem : (s.takeWhile pyIsSpace).getD j ' ' ∈ s.takeWhile pyIsSpace := by
    rw [List.getD_eq_getElem?_getD, List.getElem?_eq_getElem hj]
    exact List.getElem_mem _
  have := List.mem_takeWhile_imp hmem
  rwa [getD_takeWhile pyIsSpace s j ' ' hj] at this

theorem wsTake_le_length (s : Str) : wsTake s ≤ s.length := by
  unfold wsTake classTake
  exact (List.takeWhile_prefix pyIsSpace).length_le

theorem wsTake_boundary (s : Str) (h : wsTake s < s.length) :
    pyIsSpace (s.getD (wsTake s) ' ') = false := by
  have hsplit : s.takeWhile pyIsSpace ++ s.dropWhile pyIsSpace = s :=
    List.takeWhile_append_dropWhile pyIsSpace s
  have hlen : (s.takeWhile pyIsSpace).length = wsTake s := rfl
  have hdne : s.dropWhile pyIsSpace ≠ [] := by
    intro he
    have := congrArg List.length hsplit
    rw [he] at this
    simp only [List.append_nil, List.length_append, List.length_nil] at this
    omega
  have hhead := List.head_dropWhile_not pyIsSpace s hdne
  have hgd : s.getD (wsTake s) ' ' = (s.dropWhile pyIsSpace).head hdne := by
    have h1 : s.getD (wsTake s) ' ' =
        (s.takeWhile pyIsSpace ++ s.dropWhile pyIsSpace).getD (wsTake s) ' ' := by
      rw [hsplit]
    rw [h1, List.getD_eq_getElem?_getD, List.getElem?_append_right hlen.le, hlen,
      Nat.sub_self]
    rw [← List.head?_eq_getElem?, List.head?_eq_head hdne]
    rfl
  rw [hgd]
  simpa using hhead

theorem getD_ge_length (s : Str) (n : Nat) (d : Char) (h : s.length ≤ n) :
    s.getD n d = d := by
  rw [List.getD_eq_getElem?_getD, List.getElem?_eq_none h]
  rfl

theorem lastNlWithin_none_iff (s : Str) (bound : Nat) :
    lastNlWithin s bound = none ↔ ∀ j < bound, s.getD j ' ' ≠ '\n' := by
  unfold lastNlWithin
  rw [List.getLast?_eq_none_iff, List.filter_eq_nil_iff]
  constructor
  · intro h j hj he
    exact h j (List.mem_range.mpr hj) (by simpa using he)
  · intro h j hj hbe
    exact h j (List.mem_range.mp hj) (by simpa using hbe)

theorem lastNlWithin_some_spec (s : Str) : ∀ bound j,
    lastNlWithin s bound = some j →
    s.getD j ' ' = '\n' ∧ j < bound ∧ ∀ t, j < t → t < bound → s.getD t ' ' ≠ '\n' := by
  intro bound
  induction bound with
  | zero =>
    intro j h
    exact absurd h (by simp [lastNlWithin])
  | succ n IH =>
    intro j h
    unfold lastNlWithin at h
    rw [List.range_succ, List.filter_append] at h
    by_cases hp : (s.getD n ' ' == '\n') = true
    · have hone : List.filter (fun j => s.getD j ' ' == '\n') [n] = [n] := by
        rw [List.filter_cons, if_pos hp]
        rfl
      rw [hone, List.getLast?_concat] at h
      have hj : j = n := by
        injection h with h'
        exact h'.symm
      subst hj
      refine ⟨?_, Nat.lt_succ_self _, ?_⟩
      · rwa [beq_iff_eq] at hp
      · intro t ht1 ht2 _
        omega
    · have hze : List.filter (fun j => s.getD j ' ' == '\n') [n] = [] := by
        rw [List.filter_cons, if_neg hp]
        rfl
      rw [hze, List.append_nil] at h
      have h' : lastNlWithin s n = some j := h
      obtain ⟨h1, h2, h3⟩ := IH j h'
      refine ⟨h1, by omega, ?_⟩
      intro t ht1 ht2
      by_cases htn : t = n
      · subst htn
        intro he
        exact hp (by simpa using he)
      · exact h3 t ht1 (by omega)

theorem wsrun_all_ne_nl (s : Str) (h : ∀ j < wsTake s, s.getD j ' ' ≠ '\n') :
    ((s.takeWhile pyIsSpace).all fun x => x != '\n') = true := by
  rw [List.all_eq_true]
  intro x hx
  rw [List.mem_iff_getElem] at hx
  obtain ⟨i, hi, hix⟩ := hx
  have hiw : i < wsTake s := hi
  have hgd : (s.takeWhile pyIsSpace).getD i ' ' = x := by
    rw [List.getD_eq_getElem?_getD, List.getElem?_eq_getElem hi, hix]
    rfl
  rw [getD_takeWhile pyIsSpace s i ' ' hi] at hgd
  have := h i hiw
  rw [hgd] at this
  simpa using this

/-- Invariant established by the blank-line collapse: the whitespace run
following any newline contains no further newline. -/
def nlGapOk : Str → Bool
  | [] => true
  | c :: r =>
    (if c == '\n' then (r.takeWhile pyIsSpace).all (fun x => x != '\n') else true) &&
      nlGapOk r

theorem nlGapOk_tail (c : Char) (r : Str) (h : nlGapOk (c :: r) = true) :
    nlGapOk r = true := by
  simp only [nlGapOk, Bool.and_eq_true] at h
  exact h.2

theorem nlGapOk_head_nl (r : Str) (h : nlGapOk ('\n' :: r) = true) :
    ((r.takeWhile pyIsSpace).all fun x => x != '\n') = true := by
  simp only [nlGapOk, Bool.and_eq_true] at h
  simpa using h.1

theorem nlGapOk_cons_of_ne (c : Char) (r : Str) (hc : c ≠ '\n')
    (h : nlGapOk r = true) : nlGapOk (c :: r) = true := by
  simp [nlGapOk, hc, h]

theorem nlGapOk_cons_nl (r : Str)
    (hws : ((r.takeWhile pyIsSpace).all fun x => x != '\n') = true)
    (h : nlGapOk r = true) : nlGapOk ('\n' :: r) = true := by
  simp [nlGapOk, hws, h]

theorem nlGapOk_drop (m : Nat) : ∀ s : Str, nlGapOk s = true →
    nlGapOk (s.drop m) = true := by
  induction m with
  | zero => intro s h; simpa using h
  | succ m IH =>
    intro s h
    rcases s with _ | ⟨c, r⟩
    · rfl
    · exact IH r (nlGapOk_tail c r h)

theorem m_nl_ws_nl_ne (b : Bool) (c : Char) (r : Str) (hc : c ≠ '\n') :
    m_nl_ws_nl b (c :: r) = none := by
  unfold m_nl_ws_nl
  split
  · next r' heq =>
      injection heq with h1 h2
      exact absurd h1 hc
  · rfl

theorem m_nl_ws_nl_nl_none (b : Bool) (r : Str)
    (hk : lastNlWithin r (wsTake r) = none) : m_nl_ws_nl b ('\n' :: r) = none := by
  simp [m_nl_ws_nl, hk]

theorem m_nl_ws_nl_nl_some (b : Bool) (r : Str) (j : Nat)
    (hk : lastNlWithin r (wsTake r) = some j) :
    m_nl_ws_nl b ('\n' :: r) = some (1 + j + 1, ['\n']) := by
  simp [m_nl_ws_nl, hk]

theorem m_nl_ws_nl_some (b : Bool) (s : Str) (len : Nat) (repl : Str)
    (h : m_nl_ws_nl b s = some (len, repl)) : repl = ['\n'] := by
  rcases s with _ | ⟨c, r⟩
  · exact absurd h (by simp [m_nl_ws_nl])
  · by_cases hc : c = '\n'
    · subst hc
      rcases hk : lastNlWithin r (wsTake r) with _ | j
      · rw [m_nl_ws_nl_nl_none b r hk] at h
        exact absurd h (by simp)
      · rw [m_nl_ws_nl_nl_some b r j hk] at h
        simp only [Option.some.injEq, Prod.mk.injEq] at h
        exact h.2.symm
    · rw [m_nl_ws_nl_ne b c r hc] at h
      exact absurd h (by simp)

/-- The blank-line collapse keeps the no-newline property of a leading
whitespace run. -/
theorem nl_ws_nl_wshead (fuel : Nat) : ∀ b s,
    ((s.takeWhile pyIsSpace).all fun x => x != '\n') = true →
    (((subScan m_nl_ws_nl fuel b s).takeWhile pyIsSpace).all fun x => x != '\n') = true := by
  induction fuel with
  | zero => intro b s _; rw [subScan_zero]; rfl
  | succ fuel IH =>
    intro b s hin
    rcases s with _ | ⟨c, r⟩
    · rw [subScan_nil]; rfl
    · by_cases hc : c = '\n'
      · subst hc
        exfalso
        rw [List.takeWhile_cons_of_pos (by decide : pyIsSpace '\n' = true),
          List.all_cons] at hin
        simp at hin
      · rw [subScan_cons_none _ _ _ _ _ (m_nl_ws_nl_ne b c r hc)]
        by_cases hws : pyIsSpace c = true
        · rw [List.takeWhile_cons_of_pos hws, List.all_cons, Bool.and_eq_true] at hin
          rw [List.takeWhile_cons_of_pos hws, List.all_cons, Bool.and_eq_true]
          exact ⟨hin.1, IH _ r hin.2⟩
        · rw [List.takeWhile_cons_of_neg (by simpa using hws)]
          rfl

/-- While its output avoids newlines the blank-line collapse copies its
input. -/
theorem nl_ws_nl_take (fuel : Nat) : ∀ b s n,
    n ≤ (subScan m_nl_ws_nl fuel b s).length →
    (∀ c ∈ (subScan m_nl_ws_nl fuel b s).take n, c ≠ '\n') →
    (subScan m_nl_ws_nl fuel b s).take n = s.take n := by
  induction fuel with
  | zero =>
    intro b s n hn _
    rw [subScan_zero] at hn ⊢
    have hn0 : n = 0 := by simpa using hn
    subst hn0
    simp
  | succ fuel IH =>
    intro b s n hn hall
    rcases s with _ | ⟨c, r⟩
    · rw [subScan_nil] at hn ⊢
    · by_cases hc : c = '\n'
      · subst hc
        rcases n with _ | n
        · simp
        · exfalso
          rcases htm : m_nl_ws_nl b ('\n' :: r) with _ | ⟨len, repl⟩
          · rw [subScan_cons_none _ _ _ _ _ htm, List.take_succ_cons] at hall
            exact hall '\n' (List.mem_cons_self _ _) rfl
          · have hrepl := m_nl_ws_nl_some b ('\n' :: r) len repl htm
            subst hrepl
            rw [subScan_cons_some _ _ _ _ _ _ _ htm, List.singleton_append,
              List.take_succ_cons] at hall
            exact hall '\n' (List.mem_cons_self _ _) rfl
      · rw [subScan_cons_none _ _ _ _ _ (m_nl_ws_nl_ne b c r hc)] at hn hall ⊢
        rcases n with _ | n
        · simp
        · rw [List.take_succ_cons] at hall ⊢
          congr 1
          refine IH (c == '\n') r n (by simpa using hn) ?_
          exact fun x hx => hall x (List.mem_cons_of_mem _ hx)

/-- The blank-line collapse establishes the gap invariant. -/
theorem nl_ws_nl_gapOk (fuel : Nat) : ∀ b s,
    nlGapOk (subScan m_nl_ws_nl fuel b s) = true := by
  induction fuel with
  | zero => intro b s; rw [subScan_zero]; rfl
  | succ fuel IH =>
    intro b s
    rcases s with _ | ⟨c, r⟩
    · rw [subScan_nil]; rfl
    · by_cases hc : c = '\n'
      · subst hc
        rcases hk : lastNlWithin r (wsTake r) with _ | j
        · rw [subScan_cons_none _ _ _ _ _ (m_nl_ws_nl_nl_none b r hk)]
          refine nlGapOk_cons_nl _ ?_ (IH _ _)
          refine nl_ws_nl_wshead fuel true r ?_
          exact wsrun_all_ne_nl r ((lastNlWithin_none_iff r (wsTake r)).mp hk)
        · rw [subScan_cons_some _ _ _ _ _ _ _ (m_nl_ws_nl_nl_some b r j hk)]
          rw [List.singleton_append]
          have hmax : max (1 + j + 1) 1 = j + 2 := by omega
          have hdrop : (('\n' : Char) :: r).drop (max (1 + j + 1) 1) = r.drop (j + 1) := by
            rw [hmax]
            rfl
          rw [hdrop]
          refine nlGapOk_cons_nl _ ?_ (IH _ _)
          refine nl_ws_nl_wshead fuel _ _ ?_
          refine wsrun_all_ne_nl _ ?_
          intro t ht
          rw [getD_drop]
          obtain ⟨h1, h2, h3⟩ := lastNlWithin_some_spec r (wsTake r) j hk
          have hbound : j + 1 + t < wsTake r := by
            by_cases hrun : wsTake r = r.length
            · have hlen := wsTake_le_length (r.drop (j + 1))
              rw [List.length_drop] at hlen
              omega
            · have hlt : wsTake r < r.length := lt_of_le_of_ne (wsTake_le_length r) hrun
              have hnws := wsTake_boundary r hlt
              by_contra hge
              push_neg at hge
              have hws := wsTake_spec (r.drop (j + 1)) (wsTake r - (j + 1)) (by omega)
              rw [getD_drop] at hws
              have harith : j + 1 + (wsTake r - (j + 1)) = wsTake r := by omega
              rw [harith, hnws] at hws
              exact absurd hws (by simp)
          exact h3 (j + 1 + t) (by omega) hbound
      · rw [subScan_cons_none _ _ _ _ _ (m_nl_ws_nl_ne b c r hc)]
        exact nlGapOk_cons_of_ne c _ hc (IH _ _)

/-- The blank-line collapse creates no timestamp. -/
theorem nl_ws_nl_preserve (fuel : Nat) : ∀ b s, containsTs s = false →
    containsTs (subScan m_nl_ws_nl fuel b s) = false := by
  induction fuel with
  | zero => intro b s _; rw [subScan_zero]; rfl
  | succ fuel IH =>
    intro b s hs
    rcases s with _ | ⟨c, r⟩
    · rw [subScan_nil]; rfl
    · rcases htm : m_nl_ws_nl b (c :: r) with _ | ⟨len, repl⟩
      · rw [subScan_cons_none _ _ _ _ _ htm]
        rw [containsTs_eq_false_iff]
        intro i
        rcases i with _ | j
        · cases h0 : tsAt (c :: subScan m_nl_ws_nl fuel (c == '\n') r) 0 with
          | false => rfl
          | true =>
            exfalso
            rw [tsAt_zero] at h0
            have h12 : ((c :: subScan m_nl_ws_nl fuel (c == '\n') r).take 12).length = 12 :=
              isTs_length _ h0
            have hwin : (c :: subScan m_nl_ws_nl fuel (c == '\n') r).take 12 =
                c :: (subScan m_nl_ws_nl fuel (c == '\n') r).take 11 := by
              have h1211 : (12 : Nat) = 11 + 1 := rfl
              rw [h1211, List.take_succ_cons]
            rw [hwin] at h0 h12
            have hallnl : ∀ x ∈ c :: (subScan m_nl_ws_nl fuel (c == '\n') r).take 11,
                x ≠ '\n' := fun x hx => isTsChar_ne_nl x (isTs_all_tsChar _ h0 x hx)
            have htake : (subScan m_nl_ws_nl fuel (c == '\n') r).take 11 = r.take 11 := by
              refine nl_ws_nl_take fuel _ r 11 ?_ ?_
              · simp only [List.length_cons, List.length_take] at h12
                omega
              · exact fun x hx => hallnl x (List.mem_cons_of_mem _ hx)
            rw [htake] at h0
            have hts0 : tsAt (c :: r) 0 = true := by
              rw [tsAt_zero]
              have h1211 : (12 : Nat) = 11 + 1 := rfl
              rw [h1211, List.take_succ_cons]
              exact h0
            rw [containsTs_eq_false_iff] at hs
            rw [hs 0] at hts0
            exact absurd hts0 (by simp)
        · rw [tsAt_cons_succ]
          have hr : containsTs r = false := by
            have := containsTs_drop_false (c :: r) 1 hs
            simpa using this
          have := IH (c == '\n') r hr
          rw [containsTs_eq_false_iff] at this
          exact this j
      · have hrepl := m_nl_ws_nl_some b (c :: r) len repl htm
        subst hrepl
        rw [subScan_cons_some _ _ _ _ _ _ _ htm]
        refine containsTs_append_left_nonTs _ _ ?_ (IH _ _ (containsTs_drop_false _ _ hs))
        intro x hx
        have hx' : x = '\n' := by simpa using hx
        subst hx'
        decide

theorem wsTake_cons_pos (c : Char) (r : Str) (h : pyIsSpace c = true) :
    wsTake (c :: r) = wsTake r + 1 := by
  unfold wsTake classTake
  rw [List.takeWhile_cons_of_pos h]
  simp [Nat.add_comm]

theorem wsTake_cons_neg (c : Char) (r : Str) (h : pyIsSpace c = false) :
    wsTake (c :: r) = 0 := by
  unfold wsTake classTake
  rw [List.takeWhile_cons_of_neg (by simp [h])]
  rfl

theorem wsrun_positional (s : Str)
    (h : ((s.takeWhile pyIsSpace).all fun x => x != '\n') = true) :
    ∀ j < wsTake s, s.getD j ' ' ≠ '\n' := by
  intro j hj
  rw [List.all_eq_true] at h
  have hjl : j < (s.takeWhile pyIsSpace).length := hj
  have hmem : (s.takeWhile pyIsSpace).getD j ' ' ∈ s.takeWhile pyIsSpace := by
    rw [List.getD_eq_getElem?_getD, List.getElem?_eq_getElem hjl]
    exact List.getElem_mem _
  have := h _ hmem
  rw [getD_takeWhile pyIsSpace s j ' ' hjl] at this
  simpa using this

/-- Extraction of the gap invariant at an arbitrary newline position. -/
theorem nlGapOk_at (s : Str) (i : Nat) (hgap : nlGapOk s = true)
    (hi : i < s.length) (hnl : s.getD i ' ' = '\n') :
    (((s.drop (i + 1)).takeWhile pyIsSpace).all fun x => x != '\n') = true := by
  have hdrop := nlGapOk_drop i s hgap
  have hcons : s.drop i = s.getD i ' ' :: s.drop (i + 1) := by
    rw [List.drop_eq_getElem_cons hi, List.getD_eq_getElem?_getD,
      List.getElem?_eq_getElem hi]
    rfl
  rw [hcons, hnl] at hdrop
  exact nlGapOk_head_nl _ hdrop

theorem getLast?_take_getD (s : Str) (len : Nat) (h1 : 1 ≤ len)
    (h2 : len ≤ s.length) : (s.take len).getLast? = some (s.getD (len - 1) ' ') := by
  rw [List.getLast?_eq_getElem?, List.length_take, List.getElem?_take_of_lt
    (by omega), List.getD_eq_getElem?_getD]
  have hidx : min len s.length - 1 = len - 1 := by omega
  rw [hidx, List.getElem?_eq_getElem (by omega)]
  rfl

theorem dollarAfterWS_some_spec (s : Str) (k : Nat) (h : dollarAfterWS s = some k) :
    (wsTake s = s.length ∧ k = wsTake s) ∨
    (wsTake s < s.length ∧ s.getD k ' ' = '\n' ∧ k < wsTake s ∧
      ∀ t, k < t → t < wsTake s → s.getD t ' ' ≠ '\n') := by
  unfold dollarAfterWS at h
  by_cases hr : wsTake s = s.length
  · left
    rw [if_pos hr] at h
    refine ⟨hr, ?_⟩
    injection h with h'
    exact h'.symm
  · right
    rw [if_neg hr] at h
    obtain ⟨h1, h2, h3⟩ := lastNlWithin_some_spec s (wsTake s) k h
    exact ⟨lt_of_le_of_ne (wsTake_le_length s) hr, h1, h2, h3⟩

theorem m_line_trim_some_repl (b : Bool) (s : Str) (len : Nat) (repl : Str)
    (h : m_line_trim b s = some (len, repl)) : repl = [] := by
  simp only [m_line_trim] at h
  by_cases h0 : (wsTake s == 0) = true
  · rw [if_pos h0] at h
    exact absurd h (by simp)
  · rw [if_neg h0] at h
    by_cases hb : b = true
    · rw [if_pos hb] at h
      simp only [Option.some.injEq, Prod.mk.injEq] at h
      exact h.2.symm
    · rw [if_neg hb] at h
      rcases hk : dollarAfterWS s with _ | k
      · rw [hk] at h
        exact absurd h (by simp)
      · rw [hk] at h
        replace h : (if (k == 0) = true then none else some (k, ([] : Str))) =
            some (len, repl) := h
        by_cases hk0 : (k == 0) = true
        · rw [if_pos hk0] at h
          exact absurd h (by simp)
        · rw [if_neg hk0] at h
          simp only [Option.some.injEq, Prod.mk.injEq] at h
          exact h.2.symm

theorem m_line_trim_false_some (s : Str) (len : Nat) (repl : Str)
    (h : m_line_trim false s = some (len, repl)) :
    dollarAfterWS s = some len ∧ len ≠ 0 ∧ wsTake s ≠ 0 := by
  simp only [m_line_trim] at h
  by_cases h0 : (wsTake s == 0) = true
  · rw [if_pos h0] at h
    exact absurd h (by simp)
  · rw [if_neg h0] at h
    rw [if_neg (by simp)] at h
    rcases hk : dollarAfterWS s with _ | k
    · rw [hk] at h
      exact absurd h (by simp)
    · rw [hk] at h
      replace h : (if (k == 0) = true then none else some (k, ([] : Str))) =
          some (len, repl) := h
      by_cases hk0 : (k == 0) = true
      · rw [if_pos hk0] at h
        exact absurd h (by simp)
      · rw [if_neg hk0] at h
        simp only [Option.some.injEq, Prod.mk.injEq] at h
        refine ⟨?_, ?_, by simpa using h0⟩
        · rw [h.1]
        · rw [← h.1]
          simpa using hk0

theorem m_line_trim_all_ws (b : Bool) (t : Str) (hne : t ≠ [])
    (hw : wsTake t = t.length) : m_line_trim b t = some (wsTake t, []) := by
  simp only [m_line_trim]
  have hlen : t.length ≠ 0 := by
    intro he
    exact hne (List.length_eq_zero.mp he)
  rw [if_neg (by simp; omega)]
  cases b with
  | true => rw [if_pos rfl]
  | false =>
    rw [if_neg (by simp)]
    have hd : dollarAfterWS t = some (wsTake t) := by
      unfold dollarAfterWS
      rw [if_pos hw]
    rw [hd]
    have hgoal : (if (wsTake t == 0) = true then none else some (wsTake t, ([] : Str))) =
        some (wsTake t, []) := by
      rw [if_neg (by simp; omega)]
    exact hgoal

/-- Away from line starts and under the gap invariant, the line-trim pass
copies its input while the output stays free of whitespace: a trim deletion
always leaves the anchoring newline as the next output character. -/
theorem line_trim_take (fuel : Nat) : ∀ s n, nlGapOk s = true →
    n ≤ (subScan m_line_trim fuel false s).length →
    (∀ c ∈ (subScan m_line_trim fuel false s).take n, pyIsSpace c = false) →
    (subScan m_line_trim fuel false s).take n = s.take n := by
  induction fuel with
  | zero =>
    intro s n _ hn _
    rw [subScan_zero] at hn ⊢
    have hn0 : n = 0 := by simpa using hn
    subst hn0
    simp
  | succ fuel IH =>
    intro s n hgap hn hall
    rcases s with _ | ⟨c, r⟩
    · rw [subScan_nil] at hn ⊢
    · rcases htm : m_line_trim false (c :: r) with _ | ⟨len, repl⟩
      · rw [subScan_cons_none _ _ _ _ _ htm] at hn hall ⊢
        rcases n with _ | n
        · simp
        · rw [List.take_succ_cons] at hall ⊢
          have hcw : pyIsSpace c = false := hall c (List.mem_cons_self _ _)
          have hcnl : (c == '\n') = false := by
            cases hq : (c == '\n') with
            | false => rfl
            | true =>
              exfalso
              rw [beq_iff_eq] at hq
              subst hq
              exact absurd hcw (by simp [pyIsSpace])
          rw [hcnl] at hn hall ⊢
          congr 1
          refine IH r n (nlGapOk_tail c r hgap) (by simpa using hn) ?_
          exact fun x hx => hall x (List.mem_cons_of_mem _ hx)
      · have hrepl := m_line_trim_some_repl _ _ _ _ htm
        subst hrepl
        obtain ⟨hdw, hlen0, hws0⟩ := m_line_trim_false_some _ _ _ htm
        rw [subScan_cons_some _ _ _ _ _ _ _ htm, List.nil_append] at hn hall ⊢
        have hmax : max len 1 = len := by omega
        rw [hmax] at hn hall ⊢
        rcases dollarAfterWS_some_spec _ _ hdw with ⟨hrun, hkeq⟩ | ⟨hrun, hnl, hklt, hgr⟩
        · have hdropnil : (c :: r).drop len = [] := by
            apply List.drop_eq_nil_of_le
            rw [hkeq, hrun]
          rw [hdropnil, subScan_nil] at hn ⊢
          have hn0 : n = 0 := by simpa using hn
          subst hn0
          simp
        · have hwle := wsTake_le_length (c :: r)
          have hlt : len < (c :: r).length := by omega
          have hcons : (c :: r).drop len = (c :: r).getD len ' ' :: (c :: r).drop (len + 1) := by
            rw [List.drop_eq_getElem_cons hlt, List.getD_eq_getElem?_getD,
              List.getElem?_eq_getElem hlt]
            rfl
          rw [hcons, hnl] at hn hall ⊢
          have hflag : (((c :: r).take len).getLast? == some '\n') = false := by
            have hlast := getLast?_take_getD (c :: r) len (by omega) (by omega)
            rw [hlast]
            by_cases hprev : (c :: r).getD (len - 1) ' ' = '\n'
            · exfalso
              have hga := nlGapOk_at (c :: r) (len - 1) hgap (by omega) hprev
              have hidx : (c :: r).drop (len - 1 + 1) = (c :: r).drop len := by
                congr 1
                omega
              rw [hidx, hcons, hnl] at hga
              rw [List.takeWhile_cons_of_pos (by decide : pyIsSpace '\n' = true),
                List.all_cons] at hga
              simp at hga
            · simp only [beq_eq_false_iff_ne, ne_eq, Option.some.injEq]
              exact hprev
          rw [hflag] at hn hall ⊢
          have hrestrun : ∀ t < wsTake ((c :: r).drop (len + 1)),
              ((c :: r).drop (len + 1)).getD t ' ' ≠ '\n' := by
            have hga := nlGapOk_at (c :: r) len hgap hlt hnl
            exact wsrun_positional _ hga
          rcases fuel with _ | fuel'
          · rw [subScan_zero] at hn ⊢
            have hn0 : n = 0 := by simpa using hn
            subst hn0
            simp
          · have hrunpos : wsTake ('\n' :: (c :: r).drop (len + 1)) =
                wsTake ((c :: r).drop (len + 1)) + 1 := wsTake_cons_pos _ _ (by decide)
            by_cases hallws : wsTake ('\n' :: (c :: r).drop (len + 1)) =
                ('\n' :: (c :: r).drop (len + 1)).length
            · have htm2 := m_line_trim_all_ws false ('\n' :: (c :: r).drop (len + 1))
                (by simp) hallws
              rw [subScan_cons_some _ _ _ _ _ _ _ htm2, List.nil_append] at hn ⊢
              have hm2 : max (wsTake ('\n' :: (c :: r).drop (len + 1))) 1 =
                  wsTake ('\n' :: (c :: r).drop (len + 1)) := by
                rw [hrunpos]
                omega
              rw [hm2] at hn ⊢
              have hdrop2 : ('\n' :: (c :: r).drop (len + 1)).drop
                  (wsTake ('\n' :: (c :: r).drop (len + 1))) = [] := by
                apply List.drop_eq_nil_of_le
                rw [hallws]
              rw [hdrop2, subScan_nil] at hn ⊢
              have hn0 : n = 0 := by simpa using hn
              subst hn0
              simp
            · have hdollar : dollarAfterWS ('\n' :: (c :: r).drop (len + 1)) = some 0 := by
                unfold dollarAfterWS
                rw [if_neg hallws]
                rcases hln : lastNlWithin ('\n' :: (c :: r).drop (len + 1))
                    (wsTake ('\n' :: (c :: r).drop (len + 1))) with _ | j
                · exfalso
                  exact (lastNlWithin_none_iff _ _).mp hln 0 (by rw [hrunpos]; omega) rfl
                · obtain ⟨hj1, hj2, _⟩ := lastNlWithin_some_spec _ _ _ hln
                  rcases j with _ | t
                  · rfl
                  · exfalso
                    rw [hrunpos] at hj2
                    exact hrestrun t (by omega) hj1
              have htm2 : m_line_trim false ('\n' :: (c :: r).drop (len + 1)) = none := by
                simp only [m_line_trim]
                rw [if_neg (by rw [hrunpos]; simp)]
                rw [if_neg (by simp)]
                rw [hdollar]
                rfl
              rw [subScan_cons_none _ _ _ _ _ htm2] at hn hall ⊢
              rcases n with _ | n
              · simp
              · exfalso
                rw [List.take_succ_cons] at hall
                exact absurd (hall '\n' (List.mem_cons_self _ _)) (by simp [pyIsSpace])

/-- Under the gap invariant the line-trim pass creates no timestamp. -/
theorem line_trim_preserve (fuel : Nat) : ∀ b s, containsTs s = false →
    nlGapOk s = true → containsTs (subScan m_line_trim fuel b s) = false := by
  induction fuel with
  | zero => intro b s _ _; rw [subScan_zero]; rfl
  | succ fuel IH =>
    intro b s hs hgap
    rcases s with _ | ⟨c, r⟩
    · rw [subScan_nil]; rfl
    · rcases htm : m_line_trim b (c :: r) with _ | ⟨len, repl⟩
      · rw [subScan_cons_none _ _ _ _ _ htm]
        rw [containsTs_eq_false_iff]
        intro i
        rcases i with _ | j
        · cases h0 : tsAt (c :: subScan m_line_trim fuel (c == '\n') r) 0 with
          | false => rfl
          | true =>
            exfalso
            rw [tsAt_zero] at h0
            have h12 : ((c :: subScan m_line_trim fuel (c == '\n') r).take 12).length = 12 :=
              isTs_length _ h0
            have hwin : (c :: subScan m_line_trim fuel (c == '\n') r).take 12 =
                c :: (subScan m_line_trim fuel (c == '\n') r).take 11 := by
              have h1211 : (12 : Nat) = 11 + 1 := rfl
              rw [h1211, List.take_succ_cons]
            rw [hwin] at h0 h12
            have hallws : ∀ x ∈ c :: (subScan m_line_trim fuel (c == '\n') r).take 11,
                pyIsSpace x = false := fun x hx =>
              isTsChar_not_space x (isTs_all_tsChar _ h0 x hx)
            have hcnl : (c == '\n') = false := by
              cases hq : (c == '\n') with
              | false => rfl
              | true =>
                exfalso
                rw [beq_iff_eq] at hq
                subst hq
                exact absurd (hallws '\n' (List.mem_cons_self _ _)) (by simp [pyIsSpace])
            rw [hcnl] at h0 h12 hallws
            have htake : (subScan m_line_trim fuel false r).take 11 = r.take 11 := by
              refine line_trim_take fuel r 11 (nlGapOk_tail c r hgap) ?_ ?_
              · simp only [List.length_cons, List.length_take] at h12
                omega
              · exact fun x hx => hallws x (List.mem_cons_of_mem _ hx)
            rw [htake] at h0
            have hts0 : tsAt (c :: r) 0 = true := by
              rw [tsAt_zero]
              have h1211 : (12 : Nat) = 11 + 1 := rfl
              rw [h1211, List.take_succ_cons]
              exact h0
            rw [containsTs_eq_false_iff] at hs
            rw [hs 0] at hts0
            exact absurd hts0 (by simp)
        · rw [tsAt_cons_succ]
          have hr : containsTs r = false := by
            have := containsTs_drop_false (c :: r) 1 hs
            simpa using this
          have := IH (c == '\n') r hr (nlGapOk_tail c r hgap)
          rw [containsTs_eq_false_iff] at this
          exact this j
      · have hrepl := m_line_trim_some_repl _ _ _ _ htm
        subst hrepl
        rw [subScan_cons_some _ _ _ _ _ _ _ htm, List.nil_append]
        exact IH _ _ (containsTs_drop_false _ _ hs) (nlGapOk_drop _ _ hgap)

theorem pairOpen_corner (k : Nat) : pairOpen k = '「' ∨ pairOpen k = '『' := by
  unfold pairOpen
  by_cases h : ((max k 1 - 1) % 2 == 0) = true
  · left
    rw [if_pos h]
  · right
    rw [if_neg h]

theorem pairClose_corner (k : Nat) : pairClose k = '」' ∨ pairClose k = '』' := by
  unfold pairClose
  by_cases h : ((max k 1 - 1) % 2 == 0) = true
  · left
    rw [if_pos h]
  · right
    rw [if_neg h]

/-- Each step of the quote conversion emits the input character or a corner
quote. -/
theorem convStep_fst (prev : Option Char) (stack : List Bool) (c : Char) (nx : Option Char) :
    (convStep prev stack c nx).1 = c ∨ (convStep prev stack c nx).1 = '「' ∨
    (convStep prev stack c nx).1 = '」' ∨ (convStep prev stack c nx).1 = '『' ∨
    (convStep prev stack c nx).1 = '』' := by
  unfold convStep
  by_cases h1 : (c == '“') = true
  · rw [if_pos h1]
    rcases pairOpen_corner (stack.length + 1) with h | h <;> simp [h]
  · rw [if_neg h1]
    by_cases h2 : (c == '”') = true
    · rw [if_pos h2]
      rcases stack with _ | ⟨top, st⟩
      · exact Or.inl rfl
      · cases top with
        | false => exact Or.inl rfl
        | true => rcases pairClose_corner (st.length + 1) with h | h <;> simp [h]
    · rw [if_neg h2]
      by_cases h3 : (c == '"') = true
      · rw [if_pos h3]
        by_cases h4 : (looks_like_inch_mark prev nx || prev == some '\\') = true
        · rw [if_pos h4]
          exact Or.inl rfl
        · rw [if_neg h4]
          rcases stack with _ | ⟨top, st⟩
          · rcases pairOpen_corner 1 with h | h <;> simp [h]
          · cases top with
            | false => rcases pairClose_corner (st.length + 1) with h | h <;> simp [h]
            | true => rcases pairOpen_corner (st.length + 1 + 1) with h | h <;> simp [h]
      · rw [if_neg h3]
        exact Or.inl rfl

theorem convGo_cons_eq (prev : Option Char) (stack : List Bool) (c : Char) (rest : Str) :
    convGo prev stack (c :: rest) = (convStep prev stack c rest.head?).1 ::
      convGo (some c) (convStep prev stack c rest.head?).2 rest := rfl

/-- While its output consists of timestamp characters, the quote conversion
copies its input. -/
theorem convGo_take : ∀ (s : Str) (prev : Option Char) (stack : List Bool) (n : Nat),
    (∀ x ∈ (convGo prev stack s).take n, isTsChar x = true) →
    (convGo prev stack s).take n = s.take n := by
  intro s
  induction s with
  | nil => intro prev stack n _; rfl
  | cons c rest IH =>
    intro prev stack n hall
    rw [convGo_cons_eq] at hall ⊢
    rcases n with _ | n
    · simp
    · rw [List.take_succ_cons] at hall ⊢
      have hd := hall _ (List.mem_cons_self _ _)
      have hdc : (convStep prev stack c rest.head?).1 = c := by
        rcases convStep_fst prev stack c rest.head? with h | h | h | h | h
        · exact h
        all_goals (rw [h] at hd; exact absurd hd (by decide))
      rw [hdc] at hall ⊢
      congr 1
      refine IH (some c) _ n ?_
      exact fun x hx => hall x (List.mem_cons_of_mem _ hx)

/-- The quote conversion creates no timestamp. -/
theorem convGo_preserve : ∀ (s : Str) (prev : Option Char) (stack : List Bool),
    containsTs s = false → containsTs (convGo prev stack s) = false := by
  intro s
  induction s with
  | nil => intro prev stack _; rfl
  | cons c rest IH =>
    intro prev stack hs
    rw [convGo_cons_eq]
    rw [containsTs_eq_false_iff]
    intro i
    rcases i with _ | j
    · cases h0 : tsAt ((convStep prev stack c rest.head?).1 ::
          convGo (some c) (convStep prev stack c rest.head?).2 rest) 0 with
      | false => rfl
      | true =>
        exfalso
        rw [tsAt_zero] at h0
        have hwin : ((convStep prev stack c rest.head?).1 ::
            convGo (some c) (convStep prev stack c rest.head?).2 rest).take 12 =
            (convStep prev stack c rest.head?).1 ::
            (convGo (some c) (convStep prev stack c rest.head?).2 rest).take 11 := by
          have h1211 : (12 : Nat) = 11 + 1 := rfl
          rw [h1211, List.take_succ_cons]
        rw [hwin] at h0
        have hallts : ∀ x ∈ (convStep prev stack c rest.head?).1 ::
            (convGo (some c) (convStep prev stack c rest.head?).2 rest).take 11,
            isTsChar x = true := fun x hx => isTs_all_tsChar _ h0 x hx
        have hdc : (convStep prev stack c rest.head?).1 = c := by
          have hd := hallts _ (List.mem_cons_self _ _)
          rcases convStep_fst prev stack c rest.head? with h | h | h | h | h
          · exact h
          all_goals (rw [h] at hd; exact absurd hd (by decide))
        rw [hdc] at h0 hallts
        have htake : (convGo (some c) (convStep prev stack c rest.head?).2 rest).take 11 =
            rest.take 11 := by
          refine convGo_take rest (some c) _ 11 ?_
          exact fun x hx => hallts x (List.mem_cons_of_mem _ hx)
        rw [htake] at h0
        have hts0 : tsAt (c :: rest) 0 = true := by
          rw [tsAt_zero]
          have h1211 : (12 : Nat) = 11 + 1 := rfl
          rw [h1211, List.take_succ_cons]
          exact h0
        rw [containsTs_eq_false_iff] at hs
        rw [hs 0] at hts0
        exact absurd hts0 (by simp)
    · rw [tsAt_cons_succ]
      have hr : containsTs rest = false := by
        have := containsTs_drop_false (c :: rest) 1 hs
        simpa using this
      have := IH (some c) (convStep prev stack c rest.head?).2 hr
      rw [containsTs_eq_false_iff] at this
      exact this j

theorem convert_quotes_to_corner_preserve (text : Str) (h : containsTs text = false) :
    containsTs (convert_quotes_to_corner text) = false := by
  unfold convert_quotes_to_corner
  by_cases he : text.isEmpty
  · rw [if_pos he]
    rfl
  · rw [if_neg he]
    exact convGo_preserve text none [] h

/-- Every line `splitlines` produces is an infix of the input. -/
theorem pySplitlinesGo_within : ∀ fuel s l, l ∈ pySplitlinesGo fuel s → l.IsInfix s := by
  intro fuel
  induction fuel with
  | zero =>
    intro s l hl
    exact absurd hl (by simp [pySplitlinesGo])
  | succ fuel IH =>
    intro s l hl
    by_cases hse : s.isEmpty = true
    · rw [show pySplitlinesGo (fuel + 1) s = [] from by
        simp only [pySplitlinesGo]; rw [if_pos hse]] at hl
      exact absurd hl (by simp)
    · by_cases hre : (s.drop (s.takeWhile (fun c => !pyIsLineBreak c)).length).isEmpty = true
      · rw [show pySplitlinesGo (fuel + 1) s =
            [s.takeWhile (fun c => !pyIsLineBreak c)] from by
          simp only [pySplitlinesGo]; rw [if_neg hse, if_pos hre]] at hl
        have hleq : l = s.takeWhile (fun c => !pyIsLineBreak c) := by simpa using hl
        subst hleq
        exact (List.takeWhile_prefix _).isInfix
      · by_cases hcr : ((s.drop (s.takeWhile (fun c => !pyIsLineBreak c)).length).take 2 ==
            ['\r', '\n']) = true
        · rw [show pySplitlinesGo (fuel + 1) s =
              s.takeWhile (fun c => !pyIsLineBreak c) ::
              pySplitlinesGo fuel
                ((s.drop (s.takeWhile (fun c => !pyIsLineBreak c)).length).drop 2) from by
            simp only [pySplitlinesGo]; rw [if_neg hse, if_neg hre, if_pos hcr]] at hl
          rcases List.mem_cons.mp hl with hleq | hmem
          · subst hleq
            exact (List.takeWhile_prefix _).isInfix
          · refine (IH _ l hmem).trans ?_
            refine (List.drop_suffix 2 _).isInfix.trans ?_
            exact (List.drop_suffix _ s).isInfix
        · rw [show pySplitlinesGo (fuel + 1) s =
              s.takeWhile (fun c => !pyIsLineBreak c) ::
              pySplitlinesGo fuel
                ((s.drop (s.takeWhile (fun c => !pyIsLineBreak c)).length).drop 1) from by
            simp only [pySplitlinesGo]; rw [if_neg hse, if_neg hre, if_neg hcr]] at hl
          rcases List.mem_cons.mp hl with hleq | hmem
          · subst hleq
            exact (List.takeWhile_prefix _).isInfix
          · refine (IH _ l hmem).trans ?_
            refine (List.drop_suffix 1 _).isInfix.trans ?_
            exact (List.drop_suffix _ s).isInfix

theorem strip_wrapping_within (line : Str) :
    (strip_wrapping_ascii_quotes line).IsInfix line := by
  simp only [strip_wrapping_ascii_quotes]
  split
  · refine (pyStrip_within _).trans ?_
    refine (List.dropLast_prefix _).isInfix.trans ?_
    refine (List.drop_suffix 1 _).isInfix.trans ?_
    exact pyStrip_within line
  · exact pyStrip_within line

theorem isCloser_not_tsChar (c : Char) (h : isCloser c = true) : isTsChar c = false := by
  unfold isCloser at h
  simp only [Bool.or_eq_true, beq_iff_eq] at h
  rcases h with
    (((((((((((((rfl | rfl) | rfl) | rfl) | rfl) | rfl) | rfl) | rfl) | rfl) | rfl) |
      rfl) | rfl) | rfl) | rfl) <;> decide

theorem tsAt_append_cases (a b : Str) (i : Nat) (h : tsAt (a ++ b) i = true) :
    tsAt a i = true ∨ (a.length ≤ i ∧ tsAt b (i - a.length) = true) ∨
    (∃ c t, b = c :: t ∧ isTsChar c = true) := by
  by_cases h1 : i + 12 ≤ a.length
  · left
    unfold tsAt at h ⊢
    rw [List.drop_append_eq_append_drop, Nat.sub_eq_zero_of_le (by omega),
      List.drop_zero] at h
    have h12 : 12 ≤ (a.drop i).length := by
      simp only [List.length_drop]
      omega
    rwa [List.take_append_of_le_length h12] at h
  · by_cases h2 : a.length ≤ i
    · right
      left
      refine ⟨h2, ?_⟩
      unfold tsAt at h ⊢
      rwa [List.drop_append_eq_append_drop, List.drop_eq_nil_of_le h2,
        List.nil_append] at h
    · right
      right
      push_neg at h1 h2
      unfold tsAt at h
      rw [List.drop_append_eq_append_drop, Nat.sub_eq_zero_of_le (by omega),
        List.drop_zero, List.take_append_eq_append_take] at h
      rcases b with _ | ⟨c, t⟩
      · exfalso
        have hl := isTs_length _ h
        simp only [List.take_nil, List.append_nil, List.length_take,
          List.length_drop] at hl
        omega
      · refine ⟨c, t, rfl, ?_⟩
        refine isTs_all_tsChar _ h c ?_
        apply List.mem_append_right
        have hpos : 12 - (a.drop i).length = (12 - (a.drop i).length - 1) + 1 := by
          simp only [List.length_drop]
          omega
        rw [hpos, List.take_succ_cons]
        exact List.mem_cons_self _ _

theorem containsTs_append_closers (A B : Str) (hB : ∀ c ∈ B, isCloser c = true)
    (h : containsTs A = false) : containsTs (A ++ B) = false := by
  rw [containsTs_eq_false_iff]
  intro i
  cases ht : tsAt (A ++ B) i with
  | false => rfl
  | true =>
    exfalso
    rcases tsAt_append_cases A B i ht with h1 | ⟨h2a, h2⟩ | ⟨c, t, rfl, hc⟩
    · rw [containsTs_eq_false_iff] at h
      rw [h i] at h1
      exact absurd h1 (by simp)
    · obtain ⟨ch, rt, hcr, hd⟩ := isTs_head_digit _ h2
      have hmem : ch ∈ B := by
        have hin : ch ∈ (B.drop (i - A.length)).take 12 := by
          rw [hcr]
          exact List.mem_cons_self _ _
        exact List.mem_of_mem_drop (List.mem_of_mem_take hin)
      have hcl := isCloser_not_tsChar ch (hB ch hmem)
      rw [show isTsChar ch = true from by simp [isTsChar, hd]] at hcl
      exact absurd hcl (by simp)
    · have hcl := isCloser_not_tsChar c (hB c (List.mem_cons_self _ _))
      rw [hc] at hcl
      exact absurd hcl (by simp)

theorem drop_closers (s : Str) :
    ∀ x ∈ s.drop (s.length - (s.reverse.takeWhile isCloser).length), isCloser x = true := by
  intro x hx
  have heq : s.drop (s.length - (s.reverse.takeWhile isCloser).length) =
      (s.reverse.take (s.reverse.takeWhile isCloser).length).reverse := by
    rw [List.reverse_take]
    simp
  have htw : s.reverse.take (s.reverse.takeWhile isCloser).length =
      s.reverse.takeWhile isCloser :=
    ((List.prefix_iff_eq_take).mp (List.takeWhile_prefix _)).symm
  rw [heq, htw, List.mem_reverse] at hx
  exact List.mem_takeWhile_imp hx

theorem strip_one_line_preserve (line : Str) (h : containsTs line = false) :
    containsTs (strip_one_line line) = false := by
  simp only [strip_one_line]
  split
  · exact h
  · split
    · split
      · refine containsTs_within_false _ _ (pyRStrip_front _).isInfix ?_
        refine containsTs_append_closers _ _ (drop_closers _) ?_
        refine containsTs_within_false _ _ ?_ h
        refine (List.take_prefix _ _).isInfix.trans ?_
        exact (pyRStrip_front line).isInfix
      · exact containsTs_within_false _ _ (pyRStrip_front line).isInfix h
    · exact containsTs_within_false _ _ (pyRStrip_front line).isInfix h

theorem lines_map_preserve (f : Str → Str)
    (hf : ∀ l, containsTs l = false → containsTs (f l) = false) (s : Str)
    (hs : containsTs s = false) :
    containsTs (joinNl ((pySplitlines s).map f)) = false := by
  refine containsTs_joinNl _ ?_
  intro l' hl'
  rw [List.mem_map] at hl'
  obtain ⟨l, hl, rfl⟩ := hl'
  refine hf l ?_
  exact containsTs_within_false _ _ (pySplitlinesGo_within s.length s l hl) hs

theorem strip_terminal_periods_preserve (text : Str) (h : containsTs text = false) :
    containsTs (strip_terminal_chinese_periods text) = false := by
  unfold strip_terminal_chinese_periods
  split
  · exact h
  · exact lines_map_preserve strip_one_line strip_one_line_preserve text h

/-- Stages after the lone-timestamp removal preserve timestamp-freeness. -/
theorem stages16to20_noTs (corner_quotes : Bool) (r15 : Str)
    (h15 : containsTs r15 = false) :
    containsTs (if corner_quotes then convert_quotes_to_corner
        (runSub m_line_trim (runSub m_nl_ws_nl (runSub m_digit_line
          (joinNl ((pySplitlines r15).map strip_wrapping_ascii_quotes)))))
      else runSub m_line_trim (runSub m_nl_ws_nl (runSub m_digit_line
          (joinNl ((pySplitlines r15).map strip_wrapping_ascii_quotes))))) = false := by
  have h16 : containsTs (joinNl ((pySplitlines r15).map strip_wrapping_ascii_quotes)) = false :=
    lines_map_preserve strip_wrapping_ascii_quotes
      (fun l hl => containsTs_within_false _ _ (strip_wrapping_within l) hl) r15 h15
  have h17 : containsTs (runSub m_digit_line
      (joinNl ((pySplitlines r15).map strip_wrapping_ascii_quotes))) = false :=
    digit_line_preserve _ true _ h16
  have h18 : containsTs (runSub m_nl_ws_nl (runSub m_digit_line
      (joinNl ((pySplitlines r15).map strip_wrapping_ascii_quotes)))) = false :=
    nl_ws_nl_preserve _ true _ h17
  have h18g : nlGapOk (runSub m_nl_ws_nl (runSub m_digit_line
      (joinNl ((pySplitlines r15).map strip_wrapping_ascii_quotes)))) = true :=
    nl_ws_nl_gapOk _ true _
  have h19 : containsTs (runSub m_line_trim (runSub m_nl_ws_nl (runSub m_digit_line
      (joinNl ((pySplitlines r15).map strip_wrapping_ascii_quotes))))) = false :=
    line_trim_preserve _ true _ h18 h18g
  cases corner_quotes with
  | false => simpa using h19
  | true => simpa using convert_quotes_to_corner_preserve _ h19

/-- The polish cleanup leaves no timestamp in its output: the lone-timestamp
substitution wipes every timestamp, and no later stage can assemble one. -/
theorem clean_polished_content_noTs (corner_quotes : Bool) (content : Str) :
    containsTs (clean_polished_content corner_quotes content) = false := by
  by_cases he : content.isEmpty = true
  · simp only [clean_polished_content, if_pos he]
    rfl
  · simp only [clean_polished_content, if_neg he]
    refine containsTs_within_false _ _ (pyStrip_within _) ?_
    refine strip_terminal_periods_preserve _ ?_
    refine stages16to20_noTs corner_quotes _ ?_
    exact inline_single_kill _ _ _

/-! ## The polisher batch pipeline (claims C1, C2, C7)

From `SRTPolisher.polish_subtitle_batch`: the remote `translate` calls are an
oracle indexed by the call sequence number, returning the response text or
`none` for a call that raises (prompt text has no effect on the oracle
model); exceptions of the try-block are modelled as raised by `translate`.
`_parse_json_array` is embedded with a JSON decoder for arrays of strings
(any other JSON document counts as non-conforming; the exact-length check
governs acceptance either way).  The temperature adjustments around the
strict retry have no observable effect here. -/

instance : Inhabited SRTEntry := ⟨⟨0, [], [], []⟩⟩

/-- Model of `re.search`: does the pattern match at any position? -/
def searchScan (tm : Bool → Str → Option (Nat × Str)) : Nat → Bool → Str → Bool
  | 0, _, _ => false
  | fuel + 1, b, s =>
    match s with
    | [] => false
    | c :: rest =>
      match tm b (c :: rest) with
      | some _ => true
      | none => searchScan tm fuel (c == '\n') rest

/-- Run a search over the whole string. -/
def reSearch (tm : Bool → Str → Option (Nat × Str)) (s : Str) : Bool :=
  searchScan tm s.length true s

/-- Matcher for the `_bad` junk-number line `^\s*#?\s*\d+\s*$` (multiline). -/
def m_hash_digit_line (atStart : Bool) (s : Str) : Option (Nat × Str) :=
  if !atStart then none else
  let w0 := wsTake s
  let h := if (s.drop w0).headD ' ' == '#' then 1 else 0
  let w1 := wsTake (s.drop (w0 + h))
  let d := classTake Char.isDigit (s.drop (w0 + h + w1))
  if d == 0 then none else
    match dollarAfterWS (s.drop (w0 + h + w1 + d)) with
    | some k => some (w0 + h + w1 + d + k, [])
    | none => none

/-- Matcher for the `_bad` label pattern `字幕\s*#?\s*\d+` (unanchored). -/
def m_zimu_num (_ : Bool) (s : Str) : Option (Nat × Str) :=
  if litAt ("字幕".data) s then
    let w1 := wsTake (s.drop 2)
    let h := if (s.drop (2 + w1)).headD ' ' == '#' then 1 else 0
    let w2 := wsTake (s.drop (2 + w1 + h))
    let d := classTake Char.isDigit (s.drop (2 + w1 + h + w2))
    if d == 0 then none else some (2 + w1 + h + w2 + d, [])
  else none

/-- The chunk rejector `_bad` of `polish_subtitle_batch`. -/
def bad_chunk : Option Str → Bool
  | none => true
  | some text =>
    containsTsRange text || reSearch m_hash_digit_line text || reSearch m_zimu_num text

/-- Hexadecimal digit value. -/
def hexVal (c : Char) : Option Nat :=
  if c.isDigit then some (c.toNat - 48)
  else if 97 ≤ c.toNat && c.toNat ≤ 102 then some (c.toNat - 87)
  else if 65 ≤ c.toNat && c.toNat ≤ 70 then some (c.toNat - 55)
  else none

/-- Single-character JSON escapes. -/
def jsonEsc (e : Char) : Option Char :=
  if e == '"' then some '"'
  else if e == '\\' then some '\\'
  else if e == '/' then some '/'
  else if e == 'b' then some '\x08'
  else if e == 'f' then some '\x0c'
  else if e == 'n' then some '\n'
  else if e == 'r' then some '\r'
  else if e == 't' then some '\t'
  else none

/-- JSON whitespace skipping. -/
def jsonWsSkip (s : Str) : Str :=
  s.dropWhile (fun c => c == ' ' || c == '\t' || c == '\n' || c == '\r')

/-- Decode a JSON string body (after the opening quote): the decoded
characters and the remainder after the closing quote.  Unescaped control
characters and lone surrogates are rejected. -/
def jsonStringGo : Nat → Str → Option (Str × Str)
  | 0, _ => none
  | fuel + 1, s =>
    match s with
    | [] => none
    | c :: r =>
      if c == '"' then some ([], r)
      else if c == '\\' then
        match r with
        | [] => none
        | e :: r2 =>
          if e == 'u' then
            match r2 with
            | a :: b :: c2 :: d :: r3 =>
              match hexVal a, hexVal b, hexVal c2, hexVal d with
              | some ha, some hb, some hc, some hd =>
                let code := ((ha * 16 + hb) * 16 + hc) * 16 + hd
                if 0xd800 ≤ code && code ≤ 0xdfff then none
                else
                  match jsonStringGo fuel r3 with
                  | some (t, rest) => some (Char.ofNat code :: t, rest)
                  | none => none
              | _, _, _, _ => none
            | _ => none
          else
            match jsonEsc e with
            | some ec =>
              match jsonStringGo fuel r2 with
              | some (t, rest) => some (ec :: t, rest)
              | none => none
            | none => none
      else if c.toNat < 32 then none
      else
        match jsonStringGo fuel r with
        | some (t, rest) => some (c :: t, rest)
        | none => none

/-- Decode the items of a JSON array of strings, positioned at a value. -/
def jsonItems : Nat → Str → Option (List Str × Str)
  | 0, _ => none
  | fuel + 1, s =>
    match s with
    | '"' :: r =>
      match jsonStringGo (r.length + 1) r with
      | some (item, rest) =>
        match jsonWsSkip rest with
        | ',' :: r2 =>
          match jsonItems fuel (jsonWsSkip r2) with
          | some (more, rest2) => some (item :: more, rest2)
          | none => none
        | ']' :: r2 => some ([item], r2)
        | _ => none
      | none => none
    | _ => none

/-- Decode a whole JSON document as an array of strings (`json.loads`
restricted to the response format the prompt demands). -/
def jsonLoadsArray (text : Str) : Option (List Str) :=
  match jsonWsSkip text with
  | '[' :: r =>
    match jsonWsSkip r with
    | ']' :: r2 => if (jsonWsSkip r2).isEmpty then some [] else none
    | r1 =>
      match jsonItems text.length r1 with
      | some (items, rest) => if (jsonWsSkip rest).isEmpty then some items else none
      | none => none
  | _ => none

/-- The helper `_parse_json_array`: accept only a decoded array of exactly
`expected` elements, stripping each. -/
def parse_json_array (text : Str) (expected : Nat) : Option (List Str) :=
  match jsonLoadsArray text with
  | some arr => if arr.length == expected then some (arr.map pyStrip) else none
  | none => none

/-- The shared continuation of `polish_subtitle_batch` after a response has
been decoded into per-chunk contents (`none` marks a missing chunk): the
`_bad` check with batch-level retry, the original-content fill, the
length self-healing, and the final entry construction.  Recursion back into
`polish_subtitle_batch` is abstracted by `recur` (applied to start, end,
retry count and cursor). -/
def fillChunk (p : Option Str × SRTEntry) : Str :=
  match p.1 with
  | none => p.2.content
  | some t => if t.isEmpty then p.2.content else t

/-- Construction of one polished entry from a record and its cleaned chunk
(the `SRTEntry(...)` call of the source, which strips the content). -/
def buildPolished (cq : Bool) (p : SRTEntry × Str) : SRTEntry :=
  mkEntry p.1.number p.1.start_time p.1.end_time (clean_polished_content cq p.2)

def polishFill (cq : Bool) (recur : Nat → Nat → Nat → Nat → List SRTEntry × Nat)
    (s e retry k2 : Nat) (batch_entries : List SRTEntry)
    (contents : List (Option Str)) : List SRTEntry × Nat :=
  if contents.any bad_chunk && decide (retry < 10) then recur s e (retry + 1) k2
  else
    let filled := (contents.zip batch_entries).map fillChunk
    let filled2 :=
      if batch_entries.length < filled.length then
        filled.take batch_entries.length
      else if filled.length < batch_entries.length then
        filled ++ (batch_entries.drop filled.length).map (fun e => e.content)
      else filled
    if filled2.length != batch_entries.length then
      if 2 < batch_entries.length then
        let mid := (s + e) / 2
        let fh := recur s mid 0 k2
        let sh := recur mid e 0 fh.2
        (fh.1 ++ sh.1, sh.2)
      else
        (pyRange s e 1).foldl
          (fun acc i =>
            let r := recur i (i + 1) 0 acc.2
            (acc.1 ++ r.1, r.2)) ([], k2)
    else
      ((batch_entries.zip filled2).map (buildPolished cq), k2)

/-- The method `polish_subtitle_batch`, threaded with the oracle call cursor
`k`; returns the produced entries and the next cursor.  Fuel-driven; fuel
`12 * (end_idx - start_idx) + 11` always suffices (shown below). -/
def polishBatchGo (cq : Bool) (oracle : Nat → Option Str) (entries : List SRTEntry) :
    Nat → Nat → Nat → Nat → Nat → List SRTEntry × Nat
  | 0, _, _, _, k => ([], k)
  | fuel + 1, start_idx, end_idx, retry_count, k =>
    if end_idx ≤ start_idx || entries.length < end_idx then ([], k)
    else
      let batch_entries := (entries.drop start_idx).take (end_idx - start_idx)
      if batch_entries.length == 1 then
        let entry := batch_entries.headD default
        match oracle k with
        | none => ([entry], k + 1)
        | some txt =>
          ([mkEntry entry.number entry.start_time entry.end_time
            (clean_polished_content cq txt)], k + 1)
      else
        match oracle k with
        | none =>
          if 1 < end_idx - start_idx then
            let mid := (start_idx + end_idx) / 2
            let fh := polishBatchGo cq oracle entries fuel start_idx mid 0 (k + 1)
            let sh := polishBatchGo cq oracle entries fuel mid end_idx 0 fh.2
            (fh.1 ++ sh.1, sh.2)
          else ([entries.getD start_idx default], k + 1)
        | some txt =>
          let afterStrict : Option (Option (List Str)) × Nat :=
            match parse_json_array txt batch_entries.length with
            | some arr => (some (some arr), k + 1)
            | none =>
              match oracle (k + 1) with
              | none => (none, k + 2)
              | some txt2 => (some (parse_json_array txt2 batch_entries.length), k + 2)
          match afterStrict with
          | (none, k2) =>
            if 1 < end_idx - start_idx then
              let mid := (start_idx + end_idx) / 2
              let fh := polishBatchGo cq oracle entries fuel start_idx mid 0 k2
              let sh := polishBatchGo cq oracle entries fuel mid end_idx 0 fh.2
              (fh.1 ++ sh.1, sh.2)
            else ([entries.getD start_idx default], k2)
          | (some dec, k2) =>
            let contents : List (Option Str) :=
              match dec with
              | some arr => arr.map some
              | none => List.replicate batch_entries.length none
            polishFill cq (polishBatchGo cq oracle entries fuel)
              start_idx end_idx retry_count k2 batch_entries contents

/-- The method `polish_subtitle_batch` at its public entry point
(`retry_count = 0`, fresh oracle cursor). -/
def polish_subtitle_batch (cq : Bool) (oracle : Nat → Option Str)
    (entries : List SRTEntry) (start_idx end_idx : Nat) : List SRTEntry × Nat :=
  polishBatchGo cq oracle entries (12 * (end_idx - start_idx) + 11)
    start_idx end_idx 0 0

theorem parse_json_array_length (text : Str) (n : Nat) (arr : List Str)
    (h : parse_json_array text n = some arr) : arr.length = n := by
  unfold parse_json_array at h
  rcases hj : jsonLoadsArray text with _ | raw
  · rw [hj] at h
    exact absurd h (by simp)
  · rw [hj] at h
    replace h : (if (raw.length == n) = true then some (raw.map pyStrip) else none) =
        some arr := h
    by_cases hl : (raw.length == n) = true
    · rw [if_pos hl] at h
      injection h with h'
      rw [← h', List.length_map]
      rwa [beq_iff_eq] at hl
    · rw [if_neg hl] at h
      exact absurd h (by simp)

theorem idFields_mkEntry (n : Nat) (st et c : Str) :
    idFields (mkEntry n st et c) = (n, st, et) := rfl

theorem slice_split (l : List SRTEntry) (s mid e : Nat) (h1 : s ≤ mid) (h2 : mid ≤ e) :
    (l.drop s).take (mid - s) ++ (l.drop mid).take (e - mid) = (l.drop s).take (e - s) := by
  have ha : e - s = (mid - s) + (e - mid) := by omega
  rw [ha, List.take_add]
  congr 1
  rw [List.drop_drop]
  congr 2
  omega

theorem single_slice (l : List SRTEntry) (s : Nat) (h : s < l.length) :
    (l.drop s).take 1 = [l.getD s default] := by
  rw [List.drop_eq_getElem_cons h]
  rw [List.getD_eq_getElem?_getD, List.getElem?_eq_getElem h]
  rfl

theorem zip_mk_idFields (cq : Bool) : ∀ (batch : List SRTEntry) (cs : List Str),
    cs.length = batch.length →
    (((batch.zip cs).map (buildPolished cq)).map idFields) = batch.map idFields := by
  intro batch
  induction batch with
  | nil => intro cs _; rfl
  | cons b bs IH =>
    intro cs hlen
    rcases cs with _ | ⟨c, cs'⟩
    · simp at hlen
    · simp only [List.zip_cons_cons, List.map_cons]
      congr 1
      exact IH cs' (by simpa using hlen)

theorem zip_fill_length (contents : List (Option Str)) (batch : List SRTEntry)
    (h : contents.length = batch.length) :
    ((contents.zip batch).map fillChunk).length = batch.length := by
  rw [List.length_map, List.length_zip, h, Nat.min_self]

/-- The fill continuation preserves identity fields whenever the batch-level
retry does. -/
theorem polishFill_idFields (cq : Bool)
    (recur : Nat → Nat → Nat → Nat → List SRTEntry × Nat)
    (s e retry k2 : Nat) (batch : List SRTEntry) (contents : List (Option Str))
    (hclen : contents.length = batch.length)
    (Hrec : retry < 10 → ∀ k',
      ((recur s e (retry + 1) k').1).map idFields = batch.map idFields) :
    ((polishFill cq recur s e retry k2 batch contents).1).map idFields =
      batch.map idFields := by
  by_cases hb : (contents.any bad_chunk && decide (retry < 10)) = true
  · simp only [polishFill, hb, if_true]
    have hb2 := (Bool.and_eq_true _ _).mp hb
    exact Hrec (of_decide_eq_true hb2.2) k2
  · simp only [polishFill, hb, Bool.false_eq_true, if_false]
    set fl := (contents.zip batch).map fillChunk with hfldef
    have hfl : fl.length = batch.length := zip_fill_length contents batch hclen
    have hf2 : (if batch.length < fl.length then fl.take batch.length
        else if fl.length < batch.length then
          fl ++ (batch.drop fl.length).map (fun e => e.content)
        else fl) = fl := by
      rw [if_neg (by omega), if_neg (by omega)]
    rw [hf2]
    have hcond : (fl.length != batch.length) = false := by
      rw [hfl]
      simp
    rw [hcond]
    simp only [Bool.false_eq_true, if_false]
    exact zip_mk_idFields cq batch fl hfl

/-- On every path (success, strict retry, batch-level retry, exception split,
single fallback), `polish_subtitle_batch` returns one entry per input record,
in order, with the identity fields of the corresponding record. -/
theorem polishBatchGo_idFields (fuel : Nat) :
    ∀ (cq : Bool) (oracle : Nat → Option Str) (entries : List SRTEntry)
      (s e retry k : Nat), retry ≤ 10 → 12 * (e - s) + 11 - retry ≤ fuel →
      e ≤ entries.length →
      ((polishBatchGo cq oracle entries fuel s e retry k).1).map idFields =
        ((entries.drop s).take (e - s)).map idFields := by
  induction fuel with
  | zero =>
    intro cq oracle entries s e retry k hretry hfuel he
    omega
  | succ fuel IH =>
    intro cq oracle entries s e retry k hretry hfuel he
    by_cases hse : e ≤ s
    · have hguard : (decide (e ≤ s) || decide (entries.length < e)) = true := by
        simp [hse]
      simp only [polishBatchGo, hguard, if_true]
      have hz : e - s = 0 := by omega
      rw [hz]
      rfl
    · push_neg at hse
      have hguard : (decide (e ≤ s) || decide (entries.length < e)) = false := by
        simp
        omega
      have hblen : ((entries.drop s).take (e - s)).length = e - s := by
        rw [List.length_take, List.length_drop]
        omega
      simp only [polishBatchGo, hguard, Bool.false_eq_true, if_false]
      by_cases h1 : (((entries.drop s).take (e - s)).length == 1) = true
      · rw [if_pos h1]
        rw [hblen, beq_iff_eq] at h1
        have hslice : (entries.drop s).take (e - s) = [entries.getD s default] := by
          rw [h1]
          exact single_slice entries s (by omega)
        rcases ho : oracle k with _ | txt
        · simp only [ho, hslice]
          rfl
        · simp only [ho, hslice]
          rfl
      · rw [if_neg h1]
        have hlen2 : 2 ≤ e - s := by
          rw [hblen] at h1
          have hne : e - s ≠ 1 := fun hc => h1 (by simp [hc])
          omega
        have hmid1 : s ≤ (s + e) / 2 := by omega
        have hmid2 : (s + e) / 2 ≤ e := by omega
        rcases ho : oracle k with _ | txt
        · simp only [ho]
          rw [if_pos (by omega : 1 < e - s)]
          have hfh := IH cq oracle entries s ((s + e) / 2) 0 (k + 1) (by omega)
            (by omega) (by omega)
          have hsh := IH cq oracle entries ((s + e) / 2) e 0
            (polishBatchGo cq oracle entries fuel s ((s + e) / 2) 0 (k + 1)).2
            (by omega) (by omega) he
          rw [List.map_append, hfh, hsh, ← List.map_append,
            slice_split entries s _ e hmid1 hmid2]
        · simp only [ho]
          rcases hp : parse_json_array txt ((entries.drop s).take (e - s)).length
              with _ | arr
          · rcases ho2 : oracle (k + 1) with _ | txt2
            · simp only [hp, ho2]
              rw [if_pos (by omega : 1 < e - s)]
              have hfh := IH cq oracle entries s ((s + e) / 2) 0 (k + 2) (by omega)
                (by omega) (by omega)
              have hsh := IH cq oracle entries ((s + e) / 2) e 0
                (polishBatchGo cq oracle entries fuel s ((s + e) / 2) 0 (k + 2)).2
                (by omega) (by omega) he
              rw [List.map_append, hfh, hsh, ← List.map_append,
                slice_split entries s _ e hmid1 hmid2]
            · rcases hp2 : parse_json_array txt2 ((entries.drop s).take (e - s)).length
                  with _ | arr2
              · simp only [hp, ho2, hp2]
                refine polishFill_idFields cq _ s e retry (k + 2) _ _
                  (by rw [List.length_replicate]) ?_
                intro hr10 k'
                exact IH cq oracle entries s e (retry + 1) k' (by omega) (by omega) he
              · simp only [hp, ho2, hp2]
                refine polishFill_idFields cq _ s e retry (k + 2) _ _
                  (by rw [List.length_map]; exact parse_json_array_length _ _ _ hp2) ?_
                intro hr10 k'
                exact IH cq oracle entries s e (retry + 1) k' (by omega) (by omega) he
          · simp only [hp]
            refine polishFill_idFields cq _ s e retry (k + 1) _ _
              (by rw [List.length_map]; exact parse_json_array_length _ _ _ hp) ?_
            intro hr10 k'
            exact IH cq oracle entries s e (retry + 1) k' (by omega) (by omega) he

/-- C2: for every batch slice with a valid index range, and however the
oracle behaves, `polish_subtitle_batch` returns exactly one entry per input
record, in order, carrying the record's identity fields: a response that
decodes to the wrong number of elements is strictly retried, rejected, and
after the retry ceiling every missing chunk is filled from the record's
original content, so the final batch result always has exactly `N` entries.
(The claim's further guarantee that no entry content is left empty fails:
see the counterexample.) -/
theorem C2_exact_count_amended (cq : Bool) (oracle : Nat → Option Str)
    (entries : List SRTEntry) (s e : Nat) (he : e ≤ entries.length) :
    ((polish_subtitle_batch cq oracle entries s e).1).length = e - s ∧
    ((polish_subtitle_batch cq oracle entries s e).1).map idFields =
      ((entries.drop s).take (e - s)).map idFields := by
  have h := polishBatchGo_idFields (12 * (e - s) + 11) cq oracle entries s e 0 0
    (by omega) (by omega) he
  refine ⟨?_, h⟩
  show ((polishBatchGo cq oracle entries (12 * (e - s) + 11) s e 0 0).1).length = e - s
  have hlen := congrArg List.length h
  rw [List.length_map, List.length_map, List.length_take, List.length_drop] at hlen
  omega

theorem C2_exact_count_amended_witness :
    ((polish_subtitle_batch false (fun _ => some ("garbage".data))
      [mkEntry 1 ("00:00:01,000".data) ("00:00:02,000".data) ("你好".data),
       mkEntry 2 ("00:00:03,000".data) ("00:00:04,000".data) ("再见".data)] 0 2).1).length =
      2 - 0 ∧
    ((polish_subtitle_batch false (fun _ => some ("garbage".data))
      [mkEntry 1 ("00:00:01,000".data) ("00:00:02,000".data) ("你好".data),
       mkEntry 2 ("00:00:03,000".data) ("00:00:04,000".data) ("再见".data)] 0 2).1).map
        idFields =
      ((([mkEntry 1 ("00:00:01,000".data) ("00:00:02,000".data) ("你好".data),
          mkEntry 2 ("00:00:03,000".data) ("00:00:04,000".data) ("再见".data)]).drop 0).take
        (2 - 0)).map idFields :=
  C2_exact_count_amended false (fun _ => some ("garbage".data))
    [mkEntry 1 ("00:00:01,000".data) ("00:00:02,000".data) ("你好".data),
     mkEntry 2 ("00:00:03,000".data) ("00:00:04,000".data) ("再见".data)] 0 2 (by decide)

set_option maxRecDepth 10000 in
/-- A batch of two records whose response is the JSON array
`["123", "ok"]`: the digit chunk is flagged, the batch retries to the
ceiling (eleven oracle calls), the chunk passes the emptiness fill because
it is non-empty, and the cleanup then erases it completely — the first
entry's content ends up empty, refuting the "never left empty" part of the
claim. -/
theorem C2_counterexample :
    ((polish_subtitle_batch false (fun _ => some ("[\"123\", \"ok\"]".data))
      [mkEntry 1 ("00:00:01,000".data) ("00:00:02,000".data) ("你好".data),
       mkEntry 2 ("00:00:03,000".data) ("00:00:04,000".data) ("再见".data)] 0 2).1).map
      (fun e => e.content) = [[], "ok".data] ∧
    (polish_subtitle_batch false (fun _ => some ("[\"123\", \"ok\"]".data))
      [mkEntry 1 ("00:00:01,000".data) ("00:00:02,000".data) ("你好".data),
       mkEntry 2 ("00:00:03,000".data) ("00:00:04,000".data) ("再见".data)] 0 2).2 = 11 := by
  decide

set_option maxRecDepth 10000 in
/-- C1 (amended): a response chunk containing a timestamp range is flagged by
the `_bad` rejector, so it triggers batch-level reprocessing up to the retry
ceiling (an always-contaminated response costs the initial call plus ten
retries, eleven oracle calls), and the per-entry cleanup
`clean_polished_content` removes every timestamp from the accepted text.
The final write pass does not preserve this guarantee — see the
counterexample — so the original end-to-end claim fails at the output file. -/
theorem C1_contamination_amended :
    (∀ s : Str, containsTsRange s = true → bad_chunk (some s) = true) ∧
    (∀ (flag : Bool) (content : Str),
      containsTs (clean_polished_content flag content) = false) ∧
    (polish_subtitle_batch false
      (fun _ => some ("[\"00:00:00,000 --> 00:00:01,000\", \"x\"]".data))
      [mkEntry 1 ("00:00:05,000".data) ("00:00:06,000".data) ("你好".data),
       mkEntry 2 ("00:00:07,000".data) ("00:00:08,000".data) ("再见".data)] 0 2).2 = 11 := by
  refine ⟨?_, clean_polished_content_noTs, by decide⟩
  intro s h
  have hb : bad_chunk (some s) =
      (containsTsRange s || reSearch m_hash_digit_line s || reSearch m_zimu_num s) := rfl
  rw [hb, h]
  rfl

theorem C1_contamination_amended_witness :
    bad_chunk (some ("before 00:00:00,000 --> 00:00:01,000 after".data)) = true ∧
    containsTs (clean_polished_content false ("x 00:00:07,000 y".data)) = false :=
  ⟨C1_contamination_amended.1 ("before 00:00:00,000 --> 00:00:01,000 after".data)
      (by decide),
    C1_contamination_amended.2.1 false ("x 00:00:07,000 y".data)⟩

set_option maxRecDepth 100000 in
/-- A contaminated chunk whose separator blobs conceal the pieces of a
timestamp range: the batch flags it and retries to the ceiling (eleven
calls), the accepted polished content is timestamp-free, yet the write
pass's separator removal reassembles a full timestamp range in the content
block written to the output file — the end-to-end claim fails. -/
theorem C1_counterexample :
    (polish_subtitle_batch false
      (fun _ => some ("[\"00:00:00,000 --> 00:00:00,000\\n00:00:00,00====SUBTITLE_SEPARATOR=====SUBTITLE_SEPARATOR===0 --> 00:00:00,0====SUBTITLE_SEPARATOR=====SUBTITLE_SEPARATOR===00\", \"x\"]".data))
      [mkEntry 1 ("00:00:05,000".data) ("00:00:06,000".data) ("你好".data),
       mkEntry 2 ("00:00:07,000".data) ("00:00:08,000".data) ("再见".data)] 0 2).2 = 11 ∧
    containsTs ((((polish_subtitle_batch false
      (fun _ => some ("[\"00:00:00,000 --> 00:00:00,000\\n00:00:00,00====SUBTITLE_SEPARATOR=====SUBTITLE_SEPARATOR===0 --> 00:00:00,0====SUBTITLE_SEPARATOR=====SUBTITLE_SEPARATOR===00\", \"x\"]".data))
      [mkEntry 1 ("00:00:05,000".data) ("00:00:06,000".data) ("你好".data),
       mkEntry 2 ("00:00:07,000".data) ("00:00:08,000".data) ("再见".data)] 0 2).1).getD 0
        default).content) = false ∧
    write_clean_content ((((polish_subtitle_batch false
      (fun _ => some ("[\"00:00:00,000 --> 00:00:00,000\\n00:00:00,00====SUBTITLE_SEPARATOR=====SUBTITLE_SEPARATOR===0 --> 00:00:00,0====SUBTITLE_SEPARATOR=====SUBTITLE_SEPARATOR===00\", \"x\"]".data))
      [mkEntry 1 ("00:00:05,000".data) ("00:00:06,000".data) ("你好".data),
       mkEntry 2 ("00:00:07,000".data) ("00:00:08,000".data) ("再见".data)] 0 2).1).getD 0
        default).content) = ("00:00:00,000 --> 00:00:00,000".data) := by
  refine ⟨by decide, by decide, by decide⟩

/-! ## Subtitle formatter and corrector entry flow (claims C3 and C7)

From `SubtitleFormatter` and `SRTCorrector` in `srt_corrector.py`.  The
formatter runs with its default `format_options` (all four stages on), and
`_smart_line_break` with its default `max_line_length = 35`; the float
thresholds `35 * 0.6`, `35 * 0.8` and `35 * 1.2` are exactly the doubles
`21.0`, `28.0` and `42.0`. -/

/-- Join a list of lines with single spaces (`' '.join(...)`). -/
def joinSpace (ls : List Str) : Str :=
  match ls with
  | [] => []
  | [l] => l
  | l :: r => l ++ ' ' :: joinSpace r

/-- `SubtitleFormatter._clean_extra_newlines`: split on newlines, strip each
line, drop the empty ones, rejoin with single spaces. -/
def clean_extra_newlines (text : Str) : Str :=
  joinSpace (((splitNl text).map pyStrip).filter (fun l => !l.isEmpty))

/-- Matcher for `re.sub(r'\s+', ' ', line)`: a whitespace run becomes one
ASCII space. -/
def m_ws_plus : Bool → Str → Option (Nat × Str) :=
  fun _ s => let n := wsTake s; if 0 < n then some (n, [' ']) else none

/-- The CJK classes of `_remove_extra_spaces`
(`一-鿿぀-ゟ゠-ヿ가-힯`). -/
def isCjk (c : Char) : Bool :=
  (0x4e00 ≤ c.toNat && c.toNat ≤ 0x9fff) || (0x3040 ≤ c.toNat && c.toNat ≤ 0x309f) ||
  (0x30a0 ≤ c.toNat && c.toNat ≤ 0x30ff) || (0xac00 ≤ c.toNat && c.toNat ≤ 0xd7af)

/-- Scanner for `re.sub(r'(?<=[cjk]) +(?=[cjk])', '', line)`: a run of ASCII
spaces strictly between two CJK characters is deleted, and scanning resumes
at the trailing CJK character (the backtracking alternatives of the greedy
` +` always fail, since a shorter run is followed by a space). -/
def cjkGapGo : Nat → Str → Str
  | 0, s => s
  | fuel + 1, s =>
    match s with
    | [] => []
    | c :: rest =>
      if isCjk c then
        let n := classTake (fun x => x == ' ') rest
        if 0 < n && (match rest.drop n with | d :: _ => isCjk d | [] => false) then
          c :: cjkGapGo fuel (rest.drop n)
        else c :: cjkGapGo fuel rest
      else c :: cjkGapGo fuel rest

/-- Run the CJK-gap deletion over a whole line. -/
def dropCjkGaps (s : Str) : Str := cjkGapGo s.length s

/-- `SubtitleFormatter._remove_extra_spaces`: per line, strip, collapse
whitespace runs to single spaces, delete spaces between CJK characters, drop
the empty lines, rejoin with newlines. -/
def remove_extra_spaces (text : Str) : Str :=
  joinNl (((splitNl text).map
    (fun line => dropCjkGaps (runSub m_ws_plus (pyStrip line)))).filter
    (fun l => !l.isEmpty))

/-- The CJK punctuation class `[，。！？；：、]`. -/
def isCnPunct (c : Char) : Bool :=
  c == '，' || c == '。' || c == '！' || c == '？' || c == '；' || c == '：' || c == '、'

/-- Matcher for `re.sub(r' +([，。！？；：、])', r'\1', text)`. -/
def m_sp_punct : Bool → Str → Option (Nat × Str) :=
  fun _ s =>
    let n := classTake (fun x => x == ' ') s
    if 0 < n then
      match s.drop n with
      | p :: _ => if isCnPunct p then some (n + 1, [p]) else none
      | [] => none
    else none

/-- ASCII letters and digits (`[A-Za-z0-9]`). -/
def isAsciiAlnum (c : Char) : Bool :=
  ('a' ≤ c && c ≤ 'z') || ('A' ≤ c && c ≤ 'Z') || ('0' ≤ c && c ≤ '9')

/-- Matcher for `re.sub(r'([，。！？；：、])([A-Za-z0-9])', r'\1 \2', text)`. -/
def m_punct_alnum : Bool → Str → Option (Nat × Str) :=
  fun _ s =>
    match s with
    | p :: a :: _ => if isCnPunct p && isAsciiAlnum a then some (2, [p, ' ', a]) else none
    | _ => none

/-- Matcher for `re.sub(r' +"', r'"', text)`. -/
def m_sp_dq : Bool → Str → Option (Nat × Str) :=
  fun _ s =>
    let n := classTake (fun x => x == ' ') s
    if 0 < n && s.getD n ' ' == '"' then some (n + 1, ['"']) else none

/-- Matcher for `re.sub(r'" +', r'"', text)`. -/
def m_dq_sp : Bool → Str → Option (Nat × Str) :=
  fun _ s =>
    match s with
    | '"' :: rest =>
      let n := classTake (fun x => x == ' ') rest
      if 0 < n then some (n + 1, ['"']) else none
    | _ => none

/-- `SubtitleFormatter._normalize_punctuation`: the four substitutions in
source order. -/
def normalize_punctuation (text : Str) : Str :=
  runSub m_dq_sp (runSub m_sp_dq (runSub m_punct_alnum (runSub m_sp_punct text)))

/-- Match starts of the non-overlapping matches of a two-character pattern
`(A)(B)`, in `re.finditer` order. -/
def find2Go (p1 p2 : Char → Bool) : Nat → Nat → Str → List Nat
  | 0, _, _ => []
  | fuel + 1, pos, s =>
    match s with
    | a :: b :: rest =>
      if p1 a && p2 b then pos :: find2Go p1 p2 fuel (pos + 2) rest
      else find2Go p1 p2 fuel (pos + 1) (b :: rest)
    | _ => []

/-- The `break_pos` candidates (`match.start() + len(match.group(1))`, the
first group always one character) of one break-point pattern over a line. -/
def breakCands (p1 p2 : Char → Bool) (s : Str) : List Nat :=
  (find2Go p1 p2 s.length 0 s).map (fun st => st + 1)

/-- The five prioritized break-point patterns of `_break_long_line`, each a
pair of one-character groups. -/
def breakPatterns : List ((Char → Bool) × (Char → Bool)) :=
  [(fun c => c == '。' || c == '！' || c == '？',
    fun b => !(b == '"' || b == '）' || b == '】')),
   (fun c => c == '，' || c == '；' || c == '：',
    fun b => !(b == '"' || b == '）' || b == '】')),
   (fun c => c == '、',
    fun b => !(b == '"' || b == '）' || b == '】')),
   (fun c => c == '"',
    fun b => !(b == '）' || b == '】')),
   (fun c => c == '）' || c == '】',
    fun b => !(b == '，' || b == '。' || b == '！' || b == '？' || b == '；' || b == '：'))]

/-- The best break position: the first candidate of the first pattern whose
position lies in the window `21 ≤ break_pos ≤ 35`
(`max_length * 0.6 <= break_pos <= max_length`). -/
def bestBreak (s : Str) : Option Nat :=
  firstSome
    (fun pr => (breakCands pr.1 pr.2 s).find?
      (fun bp => decide (21 ≤ bp) && decide (bp ≤ 35)))
    breakPatterns

/-- The punctuation set avoided by the forced break
(`'，。！？；：、"（）【】'`). -/
def isAvoidPunct (c : Char) : Bool :=
  isCnPunct c || c == '"' || c == '（' || c == '）' || c == '【' || c == '】'

/-- The backward scan of the forced break: starting at 35, step down while
the position stays above 28 (`break_pos > 35 * 0.8`) and the preceding
character is avoided punctuation. -/
def forcedScan : Nat → Str → Nat → Nat
  | 0, _, bp => bp
  | fuel + 1, s, bp =>
    if 28 < bp then
      if isAvoidPunct (s.getD (bp - 1) ' ') then forcedScan fuel s (bp - 1) else bp
    else bp

/-- The forced break position: the backward scan from 35, falling back to 35
when the scan bottoms out at or below 28 (`break_pos <= 35 * 0.8`). -/
def forcedPos (s : Str) : Nat :=
  let bp := forcedScan 35 s 35
  if bp ≤ 28 then 35 else bp

/-- `result[-1] += ' ' + extra` on a Python list. -/
def appendLast (extra : Str) : List Str → List Str
  | [] => []
  | [x] => [x ++ ' ' :: extra]
  | x :: y :: r => x :: appendLast extra (y :: r)

/-- The `while len(remaining) > max_length` loop of `_break_long_line`:
returns the accumulated `result` list and the final `remaining` text.  A
best break keeps lines of at least 8 characters, merges shorter ones into
the previous line, or — with no previous line — prepends them back onto the
remainder and exits; a forced break does the same except that a short line
with no previous line is discarded on exit. -/
def breakLoop : Nat → List Str → Str → List Str × Str
  | 0, result, remaining => (result, remaining)
  | fuel + 1, result, remaining =>
    if remaining.length ≤ 35 then (result, remaining)
    else
      match bestBreak remaining with
      | some bp =>
        let current := pyStrip (remaining.take bp)
        let rem2 := pyStrip (remaining.drop bp)
        if 8 ≤ current.length then breakLoop fuel (result ++ [current]) rem2
        else if result.isEmpty then (result, current ++ ' ' :: rem2)
        else breakLoop fuel (appendLast current result) rem2
      | none =>
        let bp := forcedPos remaining
        let current := pyStrip (remaining.take bp)
        let rem2 := pyStrip (remaining.drop bp)
        if 8 ≤ current.length then breakLoop fuel (result ++ [current]) rem2
        else if result.isEmpty then (result, rem2)
        else breakLoop fuel (appendLast current result) rem2

/-- `SubtitleFormatter._break_long_line(line, 35)`: run the break loop, then
append the stripped remainder (short remainders merge into the last line
when the merged length stays at most 42, `max_length * 1.2`); an empty
result falls back to the original line. -/
def break_long_line (line : Str) : List Str :=
  if line.length ≤ 35 then [line]
  else
    let lr := breakLoop (line.length + 1) [] line
    let rs := pyStrip lr.2
    let result :=
      if rs.isEmpty then lr.1
      else if decide (rs.length ≤ 6) && !lr.1.isEmpty &&
              decide ((lr.1.getLastD []).length + rs.length ≤ 42) then
        appendLast rs lr.1
      else lr.1 ++ [rs]
    if result.isEmpty then [line] else result

/-- `SubtitleFormatter._smart_line_break(text, 35)`: keep short lines, break
the long ones, rejoin. -/
def smart_line_break (text : Str) : Str :=
  joinNl (((splitNl text).map
    (fun line => if line.length ≤ 35 then [line] else break_long_line line)).flatten)

/-- `SubtitleFormatter.format_subtitle_content` with the default
`format_options` (all four stages enabled): empty content is returned
unchanged, otherwise the four stages run in order and the result is
stripped. -/
def format_subtitle_content (content : Str) : Str :=
  if content.isEmpty then content
  else pyStrip (smart_line_break (normalize_punctuation (remove_extra_spaces
    (clean_extra_newlines content))))

/-- `SRTCorrector._needs_correction`: the text has at least one Chinese,
ASCII-alphabetic, Japanese kana, or Korean character. -/
def needs_correction (text : Str) : Bool :=
  text.any (fun c =>
    (0x4e00 ≤ c.toNat && c.toNat ≤ 0x9fff) ||
    (('a' ≤ c && c ≤ 'z') || ('A' ≤ c && c ≤ 'Z')) ||
    (0x3040 ≤ c.toNat && c.toNat ≤ 0x309f) || (0x30a0 ≤ c.toNat && c.toNat ≤ 0x30ff) ||
    (0xac00 ≤ c.toNat && c.toNat ≤ 0xd7af))

/-- `SRTCorrector.correct_subtitle_entry`: programmatic formatting first;
text that needs no AI correction is returned as formatted (or the untouched
entry when formatting changed nothing); otherwise the correction service is
called (abstracted by `api`, which receives the formatted text and the
context entries) and the formatted text is kept when it returns the
no-result sentinel. -/
def correct_subtitle_entry (api : Str → List SRTEntry → Option Str)
    (entry : SRTEntry) (context_entries : List SRTEntry) : SRTEntry :=
  let formatted := format_subtitle_content entry.content
  if needs_correction formatted = false then
    if formatted == entry.content then entry
    else mkEntry entry.number entry.start_time entry.end_time formatted
  else
    match api formatted context_entries with
    | none => mkEntry entry.number entry.start_time entry.end_time formatted
    | some corrected => mkEntry entry.number entry.start_time entry.end_time corrected

/-- `SRTCorrector._get_context_entries`: the window of `context_window`
entries on each side of index `i`, excluding `i` itself. -/
def get_context_entries (w : Nat) (entries : List SRTEntry) (i : Nat) : List SRTEntry :=
  ((pyRange (i - w) (min entries.length (i + w + 1)) 1).filter (fun j => j != i)).map
    (fun j => entries.getD j default)

/-- Stable insertion before the first entry with a number at least as
large. -/
def insertByNumber (e : SRTEntry) : List SRTEntry → List SRTEntry
  | [] => [e]
  | x :: xs => if e.number ≤ x.number then e :: x :: xs else x :: insertByNumber e xs

/-- The stable sort `corrected_entries.sort(key=lambda x: x.number)`. -/
def sortByNumber : List SRTEntry → List SRTEntry
  | [] => []
  | x :: xs => insertByNumber x (sortByNumber xs)

/-- The context-aware sequential loop of `correct_srt_file`
(`use_true_batch = False`, `context_window > 0`): correct each entry in
order with its context window, then sort the results by entry number. -/
def correct_entries_context (api : Str → List SRTEntry → Option Str) (w : Nat)
    (entries : List SRTEntry) : List SRTEntry :=
  sortByNumber ((List.range entries.length).map (fun i =>
    correct_subtitle_entry api (entries.getD i default) (get_context_entries w entries i)))

/-- `SRTCorrector.correct_srt_file` on the context-aware path: parse the
input text, fail when nothing parses, otherwise correct every entry and
render the output file as `_write_srt_file` does. -/
def correct_srt_file (api : Str → List SRTEntry → Option Str) (w : Nat)
    (input : Str) : Option Str :=
  let entries := parse_srt input
  if entries.isEmpty then none
  else some (write_srt (correct_entries_context api w entries))

theorem dropWhile_idem (p : Char → Bool) (l : Str) :
    (l.dropWhile p).dropWhile p = l.dropWhile p := by
  induction l with
  | nil => rfl
  | cons c r ih =>
    by_cases hp : p c
    · simp [List.dropWhile_cons, hp, ih]
    · simp [List.dropWhile_cons, hp]

theorem getLast_dropWhile (p : Char → Bool) (l : Str) (h : l.dropWhile p ≠ []) :
    (l.dropWhile p).getLast? = l.getLast? := by
  induction l with
  | nil => simp at h
  | cons c r ih =>
    by_cases hp : p c
    · rw [List.dropWhile_cons, if_pos hp] at h ⊢
      have hr : r ≠ [] := by
        intro he; subst he; simp [List.dropWhile] at h
      rw [ih h]
      cases r with
      | nil => exact absurd rfl hr
      | cons b t => simp [List.getLast?_cons_cons]
    · rw [List.dropWhile_cons, if_neg hp]

theorem head_pyRStrip (u : Str) (h : pyRStrip u ≠ []) :
    (pyRStrip u).head? = u.head? := by
  unfold pyRStrip at h ⊢
  rw [List.head?_reverse]
  have hne : u.reverse.dropWhile pyIsSpace ≠ [] := by
    intro he; rw [he] at h; exact h rfl
  rw [getLast_dropWhile _ _ hne, List.getLast?_reverse]

theorem pyLStrip_pyRStrip (u : Str) (hu : pyLStrip u = u) :
    pyLStrip (pyRStrip u) = pyRStrip u := by
  cases hv : pyRStrip u with
  | nil => rfl
  | cons c r =>
    have hh : (pyRStrip u).head? = u.head? :=
      head_pyRStrip u (by rw [hv]; exact List.cons_ne_nil c r)
    rw [hv] at hh
    cases u with
    | nil => simp [pyRStrip] at hv
    | cons a t =>
      have hac : c = a := by simpa using hh
      have hpa : pyIsSpace a = false := by
        by_contra hcon
        have hpa2 : pyIsSpace a = true := by
          cases hx : pyIsSpace a
          · exact absurd hx hcon
          · rfl
        rw [pyLStrip, List.dropWhile_cons, if_pos hpa2] at hu
        have hlen := congrArg List.length hu
        have hle : (t.dropWhile pyIsSpace).length ≤ t.length :=
          (List.dropWhile_suffix pyIsSpace).length_le
        rw [List.length_cons] at hlen
        omega
      subst hac
      exact pyLStrip_eq_self_of_head c r hpa

theorem pyStrip_idem (s : Str) : pyStrip (pyStrip s) = pyStrip s := by
  unfold pyStrip
  rw [pyLStrip_pyRStrip (pyLStrip s) (dropWhile_idem _ _)]
  unfold pyRStrip
  rw [List.reverse_reverse, dropWhile_idem]

theorem format_strip_fixed (c : Str) :
    pyStrip (format_subtitle_content c) = format_subtitle_content c := by
  unfold format_subtitle_content
  by_cases hc : c.isEmpty = true
  · rw [if_pos hc]
    rw [List.isEmpty_iff] at hc
    subst hc
    rfl
  · rw [if_neg hc]
    exact pyStrip_idem _

theorem cse_none (e : SRTEntry) (ctx : List SRTEntry) :
    correct_subtitle_entry (fun _ _ => none) e ctx =
      mkEntry e.number e.start_time e.end_time (format_subtitle_content e.content) := by
  simp only [correct_subtitle_entry]
  by_cases hn : needs_correction (format_subtitle_content e.content) = false
  · rw [if_pos hn]
    by_cases hf : (format_subtitle_content e.content == e.content) = true
    · rw [if_pos hf]
      have hfe : format_subtitle_content e.content = e.content := by rwa [beq_iff_eq] at hf
      unfold mkEntry
      rw [format_strip_fixed, hfe]
    · rw [if_neg hf]
  · rw [if_neg hn]

theorem map_range_getD (F : SRTEntry → SRTEntry) (l : List SRTEntry) :
    (List.range l.length).map (fun i => F (l.getD i default)) = l.map F := by
  induction l with
  | nil => rfl
  | cons x xs ih =>
    rw [List.length_cons, List.range_succ_eq_map, List.map_cons, List.map_map, List.map_cons]
    have htail : (List.range xs.length).map ((fun i => F ((x :: xs).getD i default)) ∘ Nat.succ) =
        (List.range xs.length).map (fun i => F (xs.getD i default)) := by
      apply List.map_congr_left
      intro a _
      rfl
    rw [htail, ih]
    rfl

theorem correct_entries_context_none (w : Nat) (entries : List SRTEntry) :
    correct_entries_context (fun _ _ => none) w entries =
      sortByNumber (entries.map (fun en =>
        mkEntry en.number en.start_time en.end_time (format_subtitle_content en.content))) := by
  unfold correct_entries_context
  congr 1
  have h1 : ∀ i ∈ List.range entries.length,
      correct_subtitle_entry (fun _ _ => none) (entries.getD i default)
        (get_context_entries w entries i) =
      (fun en => mkEntry en.number en.start_time en.end_time
        (format_subtitle_content en.content)) (entries.getD i default) := by
    intro i _
    exact cse_none _ _
  rw [List.map_congr_left h1]
  exact map_range_getD (fun en =>
    mkEntry en.number en.start_time en.end_time (format_subtitle_content en.content)) entries

/-- C3 (amended): when the correction client returns the no-result sentinel
for every call, `correct_srt_file` still rewrites every record: the output
holds exactly the parsed records, sorted by number, with identity fields
kept and the content replaced by the programmatic formatting
`format_subtitle_content` of the original content.  The formatting is not
the identity, so the output file is not in general textually identical to
the input — see the counterexample. -/
theorem C3_all_none_amended (w : Nat) (input : Str) :
    correct_srt_file (fun _ _ => none) w input =
      if (parse_srt input).isEmpty then none
      else some (write_srt (sortByNumber ((parse_srt input).map (fun en =>
        mkEntry en.number en.start_time en.end_time
          (format_subtitle_content en.content))))) := by
  unfold correct_srt_file
  by_cases h : (parse_srt input).isEmpty = true
  · rw [if_pos h, if_pos h]
  · rw [if_neg h, if_neg h, correct_entries_context_none]

/-- A one-record file whose content is "你 好": the all-failing client makes
no change, yet the formatter deletes the space between the CJK characters,
so the written file differs from the input — the "textually identical,
original text unchanged" claim fails. -/
theorem C3_counterexample :
    correct_srt_file (fun _ _ => none) 2
        ("1\n00:00:01,000 --> 00:00:02,000\n你 好\n".data) =
      some ("1\n00:00:01,000 --> 00:00:02,000\n你好\n".data) ∧
    some ("1\n00:00:01,000 --> 00:00:02,000\n你好\n".data) ≠
      some ("1\n00:00:01,000 --> 00:00:02,000\n你 好\n".data) := by
  exact ⟨by decide, by decide⟩

/-! ## True-batch correction (`SRTCorrector._process_single_true_batch`, claim C7) -/

/-- The retry loop of `_process_single_true_batch`: `oracle attempt` is the
outcome of the `correct_batch_texts` call on that attempt (`none` when it
raises, otherwise the returned value, itself `none` for Python `None`).
`acc` carries the current `corrected_results`; a raise on the final attempt
replaces it by the all-`None` list, a returned batch of the right length
with at least one non-`None` element stops the loop. -/
def pstb_results (oracle : Nat → Option (Option (List (Option Str)))) (n : Nat) :
    Nat → Nat → Option (List (Option Str)) → Option (List (Option Str))
  | _, 0, acc => acc
  | attempt, k + 1, acc =>
    match oracle attempt with
    | some r =>
      let stop := match r with
        | none => false
        | some lst => !lst.isEmpty && decide (lst.length = n) && lst.any (fun x => x.isSome)
      if stop then r
      else pstb_results oracle n (attempt + 1) k r
    | none =>
      if k = 0 then some (List.replicate n none)
      else pstb_results oracle n (attempt + 1) k acc

/-- The post-loop normalization: a missing, empty, or wrong-length result
list becomes the all-`None` list
(`if not corrected_results or len(corrected_results) != len(need_correction)`). -/
def pstb_normalize (n : Nat) (r : Option (List (Option Str))) : List (Option Str) :=
  match r with
  | none => List.replicate n none
  | some lst =>
    if lst.isEmpty || decide (lst.length ≠ n) then List.replicate n none else lst

/-- `SRTCorrector._process_single_true_batch`: format every entry of the
batch, split off the entries that need AI correction, run the batch API with
its retry loop on those, keep the formatted entry where the result is
`None`, and append the entries that needed no correction. -/
def process_single_true_batch (oracle : Nat → Option (Option (List (Option Str))))
    (batch : List SRTEntry) : List SRTEntry :=
  let formatted_batch := batch.map (fun en =>
    mkEntry en.number en.start_time en.end_time (format_subtitle_content en.content))
  let need_correction := formatted_batch.filter (fun en => needs_correction en.content)
  let no_correction := formatted_batch.filter (fun en => !(needs_correction en.content))
  if need_correction.isEmpty then no_correction
  else
    let results := pstb_normalize need_correction.length
      (pstb_results oracle need_correction.length 0 MAX_BATCH_RETRIES none)
    ((need_correction.zip results).map (fun p =>
      match p.2 with
      | some txt => mkEntry p.1.number p.1.start_time p.1.end_time txt
      | none => p.1)) ++ no_correction

theorem pstb_zip_idFields : ∀ (l : List SRTEntry) (rs : List (Option Str)),
    rs.length = l.length →
    ((l.zip rs).map (fun p =>
      match p.2 with
      | some txt => mkEntry p.1.number p.1.start_time p.1.end_time txt
      | none => p.1)).map idFields = l.map idFields := by
  intro l
  induction l with
  | nil => intro rs _; rfl
  | cons x xs ih =>
    intro rs hr
    cases rs with
    | nil => simp at hr
    | cons r rt =>
      rw [List.zip_cons_cons, List.map_cons, List.map_cons, List.map_cons]
      have ht := ih rt (by simpa using hr)
      rw [ht]
      congr 1
      cases r with
      | none => rfl
      | some txt => rfl

theorem pstb_normalize_length (n : Nat) (r : Option (List (Option Str))) :
    (pstb_normalize n r).length = n := by
  unfold pstb_normalize
  cases r with
  | none => simp
  | some lst =>
    show (if (lst.isEmpty || decide (lst.length ≠ n)) = true then
      List.replicate n none else lst).length = n
    by_cases hc : (lst.isEmpty || decide (lst.length ≠ n)) = true
    · rw [if_pos hc]; simp
    · rw [if_neg hc]
      simp only [Bool.or_eq_true, decide_eq_true_eq, not_or] at hc
      omega

theorem cse_idFields (api : Str → List SRTEntry → Option Str) (e : SRTEntry)
    (ctx : List SRTEntry) :
    idFields (correct_subtitle_entry api e ctx) = idFields e := by
  simp only [correct_subtitle_entry]
  by_cases hn : needs_correction (format_subtitle_content e.content) = false
  · rw [if_pos hn]
    by_cases hf : (format_subtitle_content e.content == e.content) = true
    · rw [if_pos hf]
    · rw [if_neg hf]; rfl
  · rw [if_neg hn]
    cases api (format_subtitle_content e.content) ctx with
    | none => rfl
    | some c => rfl

theorem true_batch_filter_map (batch : List SRTEntry) (p : Str → Bool) :
    (batch.map (fun en =>
      mkEntry en.number en.start_time en.end_time
        (format_subtitle_content en.content))).filter (fun en => p en.content) =
    (batch.filter (fun en => p (format_subtitle_content en.content))).map (fun en =>
      mkEntry en.number en.start_time en.end_time (format_subtitle_content en.content)) := by
  rw [List.filter_map]
  congr 1
  apply List.filter_congr
  intro x _
  show p (pyStrip (format_subtitle_content x.content)) =
    p (format_subtitle_content x.content)
  rw [format_strip_fixed]

theorem map_idFields_of_map_format (l : List SRTEntry) :
    ((l.map (fun en => mkEntry en.number en.start_time en.end_time
      (format_subtitle_content en.content))).map idFields) = l.map idFields := by
  rw [List.map_map]
  apply List.map_congr_left
  intro x _
  rfl

theorem pstb_idFields (oracle : Nat → Option (Option (List (Option Str))))
    (batch : List SRTEntry) :
    (process_single_true_batch oracle batch).map idFields =
      (batch.filter (fun en =>
        needs_correction (format_subtitle_content en.content))).map idFields ++
      (batch.filter (fun en =>
        !(needs_correction (format_subtitle_content en.content)))).map idFields := by
  simp only [process_single_true_batch]
  rw [true_batch_filter_map batch (fun c => needs_correction c),
    true_batch_filter_map batch (fun c => !(needs_correction c))]
  by_cases hne : (((batch.filter (fun en =>
      needs_correction (format_subtitle_content en.content))).map (fun en =>
        mkEntry en.number en.start_time en.end_time
          (format_subtitle_content en.content))).isEmpty) = true
  · rw [if_pos hne]
    rw [List.isEmpty_iff] at hne
    rw [map_idFields_of_map_format]
    have h0 : (batch.filter (fun en =>
        needs_correction (format_subtitle_content en.content))).map idFields = [] := by
      have := congrArg (List.map idFields) hne
      rw [map_idFields_of_map_format] at this
      exact this
    rw [h0, List.nil_append]
  · rw [if_neg hne, List.map_append]
    rw [pstb_zip_idFields _ _ (pstb_normalize_length _ _)]
    rw [map_idFields_of_map_format, map_idFields_of_map_format]

/-- C7: every transformation path returns records with the input record's
number, start time and end time.  (1) `correct_subtitle_entry` preserves the
identity fields for every service behaviour, including the no-result
fallback.  (2) `_process_single_true_batch` returns exactly the identity
fields of the batch, the records needing AI correction first and the others
after them, for every retry/exception behaviour of the batch service.
(3) `polish_subtitle_batch` returns exactly the identity fields of the
processed slice, in order, on every retry, fallback and error path. -/
theorem C7_identity_preservation (cq : Bool) (oracleP : Nat → Option Str)
    (entries : List SRTEntry) (s e : Nat) (he : e ≤ entries.length) :
    (∀ (api : Str → List SRTEntry → Option Str) (en : SRTEntry) (ctx : List SRTEntry),
      idFields (correct_subtitle_entry api en ctx) = idFields en) ∧
    (∀ (oracleB : Nat → Option (Option (List (Option Str)))) (batch : List SRTEntry),
      (process_single_true_batch oracleB batch).map idFields =
        (batch.filter (fun en =>
          needs_correction (format_subtitle_content en.content))).map idFields ++
        (batch.filter (fun en =>
          !(needs_correction (format_subtitle_content en.content)))).map idFields) ∧
    ((polish_subtitle_batch cq oracleP entries s e).1).map idFields =
      ((entries.drop s).take (e - s)).map idFields := by
  refine ⟨cse_idFields, pstb_idFields, ?_⟩
  exact polishBatchGo_idFields (12 * (e - s) + 11) cq oracleP entries s e 0 0
    (by omega) (by omega) he

theorem C7_identity_preservation_witness :
    ((polish_subtitle_batch false (fun _ => none)
      [mkEntry 1 ("00:00:01,000".data) ("00:00:02,000".data) ("你好".data)] 0 1).1).map
        idFields =
      (([mkEntry 1 ("00:00:01,000".data) ("00:00:02,000".data) ("你好".data)].drop 0).take
        (1 - 0)).map idFields :=
  (C7_identity_preservation false (fun _ => none)
    [mkEntry 1 ("00:00:01,000".data) ("00:00:02,000".data) ("你好".data)] 0 1 (by decide)).2.2

/-! ## Batch-file merging (`SRTPolisher.merge_batch_files`, claim C10)

The filesystem is abstracted by an oracle: for batch number `k`, `none`
means the batch file does not exist (`os.path.exists` is false and the file
is skipped), `some none` means it exists but reading or parsing raises (the
inner `except` logs and skips it), and `some (some content)` means
`parse_srt_file` reads `content`.  On these outcomes the source never
raises: the merge is a total function. -/
def merge_batch_files (fs : Nat → Option (Option Str)) (total : Nat) :
    List SRTEntry × Str :=
  let all_entries := ((pyRange 1 (total + 1) 1).map (fun k =>
    match fs k with
    | none => []
    | some none => []
    | some (some content) => parse_srt_polisher content)).flatten
  let sorted := sortByNumber all_entries
  (sorted, write_srt_entries sorted)

theorem insertByNumber_perm (e : SRTEntry) (l : List SRTEntry) :
    (insertByNumber e l).Perm (e :: l) := by
  induction l with
  | nil => exact List.Perm.refl _
  | cons x xs ih =>
    by_cases h : e.number ≤ x.number
    · rw [insertByNumber, if_pos h]
    · rw [insertByNumber, if_neg h]
      exact (List.Perm.cons x ih).trans (List.Perm.swap e x xs)

theorem sortByNumber_perm (l : List SRTEntry) : (sortByNumber l).Perm l := by
  induction l with
  | nil => exact List.Perm.refl _
  | cons x xs ih =>
    exact (insertByNumber_perm x (sortByNumber xs)).trans (List.Perm.cons x ih)

theorem insertByNumber_sorted (e : SRTEntry) (l : List SRTEntry)
    (h : l.Pairwise (fun a b => a.number ≤ b.number)) :
    (insertByNumber e l).Pairwise (fun a b => a.number ≤ b.number) := by
  induction l with
  | nil => exact List.pairwise_singleton _ _
  | cons x xs ih =>
    rw [List.pairwise_cons] at h
    by_cases hc : e.number ≤ x.number
    · rw [insertByNumber, if_pos hc]
      rw [List.pairwise_cons]
      refine ⟨?_, List.pairwise_cons.mpr h⟩
      intro b hb
      rcases List.mem_cons.mp hb with rfl | hbxs
      · exact hc
      · exact hc.trans (h.1 b hbxs)
    · rw [insertByNumber, if_neg hc]
      rw [List.pairwise_cons]
      refine ⟨?_, ih h.2⟩
      intro b hb
      rcases List.mem_cons.mp ((insertByNumber_perm e xs).mem_iff.mp hb) with rfl | hbxs
      · omega
      · exact h.1 b hbxs

theorem sortByNumber_sorted (l : List SRTEntry) :
    (sortByNumber l).Pairwise (fun a b => a.number ≤ b.number) := by
  induction l with
  | nil => exact List.Pairwise.nil
  | cons x xs ih => exact insertByNumber_sorted x _ ih

theorem merge_flatten_filterMap (fs : Nat → Option (Option Str)) :
    ∀ (ks : List Nat),
      ((ks.map (fun k =>
        match fs k with
        | none => []
        | some none => []
        | some (some content) => parse_srt_polisher content)).flatten) =
      ((ks.filterMap (fun k =>
        match fs k with
        | some (some content) => some (parse_srt_polisher content)
        | _ => none)).flatten) := by
  intro ks
  induction ks with
  | nil => rfl
  | cons k ks ih =>
    rw [List.map_cons, List.filterMap_cons]
    cases hk : fs k with
    | none =>
      rw [List.flatten_cons, ih]
      rfl
    | some r =>
      cases r with
      | none =>
        rw [List.flatten_cons, ih]
        rfl
      | some content =>
        rw [List.flatten_cons, List.flatten_cons, ih]

/-- C10: the merge never fails on absent or unreadable batch artifacts — it
is a total function of the filesystem outcomes — and its result holds
exactly the records parsed from the batch files in `1..total_batches` that
do exist and are readable, arranged by ascending sequence number; a missing
artifact simply contributes no records. -/
theorem C10_merge_skips_missing (fs : Nat → Option (Option Str)) (total : Nat) :
    ((merge_batch_files fs total).1).Perm
      (((pyRange 1 (total + 1) 1).filterMap (fun k =>
        match fs k with
        | some (some content) => some (parse_srt_polisher content)
        | _ => none)).flatten) ∧
    ((merge_batch_files fs total).1.map (fun e => e.number)).Pairwise (· ≤ ·) := by
  constructor
  · show (sortByNumber (((pyRange 1 (total + 1) 1).map (fun k =>
      match fs k with
      | none => []
      | some none => []
      | some (some content) => parse_srt_polisher content)).flatten)).Perm _
    rw [← merge_flatten_filterMap fs]
    exact sortByNumber_perm _
  · rw [List.pairwise_map]
    exact sortByNumber_sorted _

/-! ## Diff review (`srt_gui.highlight_differences`, claim C9)

`difflib.SequenceMatcher(None, a, b)` over the two normalized texts:
`b2j` maps each character of `b` to its ascending index list, dropping
popular characters when `b` has at least 200 characters (`autojunk`); no
junk predicate is installed, so the junk-extension loops never run. -/

/-- All indices of `c` in `b`, ascending. -/
def b2jAll (b : Str) (c : Char) : List Nat :=
  (List.range b.length).filter (fun j => b.getD j c == c && decide (j < b.length))

/-- `b2j` with the `autojunk` heuristic: for `len(b) >= 200`, characters
occurring more than `len(b) // 100 + 1` times are dropped. -/
def b2j (b : Str) (c : Char) : List Nat :=
  let idxs := b2jAll b c
  if 200 ≤ b.length && decide (b.length / 100 + 1 < idxs.length) then [] else idxs

/-- One inner step of `find_longest_match`'s main loop: extend the run
ending at `(i, j)` using the previous row `j2len`, record it in the new row,
and update the best match when strictly longer. -/
def flmStep (j2len : Nat → Nat) (i : Nat)
    (acc : (Nat → Nat) × Nat × Nat × Nat) (j : Nat) : (Nat → Nat) × Nat × Nat × Nat :=
  let k := (if j = 0 then 0 else j2len (j - 1)) + 1
  let new := fun x => if x = j then k else acc.1 x
  if acc.2.2.2 < k then (new, i + 1 - k, j + 1 - k, k) else (new, acc.2)

/-- The row loop of `find_longest_match`: one pass per index of
`range(alo, ahi)`, threading the `j2len` row and the best match. -/
def flmRows (a : Str) (bj : Char → List Nat) (blo bhi : Nat) :
    List Nat → (Nat → Nat) → Nat × Nat × Nat → Nat × Nat × Nat
  | [], _, best => best
  | i :: is, j2len, best =>
    let js := (bj (a.getD i ' ')).filter (fun j => decide (blo ≤ j) && decide (j < bhi))
    let r := js.foldl (flmStep j2len i) ((fun _ => 0), best)
    flmRows a bj blo bhi is r.1 r.2

/-- The leftward extension loop
(`while besti > alo and bestj > blo and a[besti-1] == b[bestj-1]`). -/
def flmExtL (a b : Str) (alo blo : Nat) : Nat → Nat → Nat → Nat → Nat × Nat × Nat
  | 0, i, j, k => (i, j, k)
  | fuel + 1, i, j, k =>
    if alo < i && blo < j && (a.getD (i - 1) ' ' == b.getD (j - 1) '\t') then
      flmExtL a b alo blo fuel (i - 1) (j - 1) (k + 1)
    else (i, j, k)

/-- The rightward extension loop
(`while besti+bestsize < ahi and bestj+bestsize < bhi and a[...] == b[...]`). -/
def flmExtR (a b : Str) (ahi bhi : Nat) : Nat → Nat → Nat → Nat → Nat × Nat × Nat
  | 0, i, j, k => (i, j, k)
  | fuel + 1, i, j, k =>
    if i + k < ahi && j + k < bhi && (a.getD (i + k) ' ' == b.getD (j + k) '\t') then
      flmExtR a b ahi bhi fuel i j (k + 1)
    else (i, j, k)

/-- `SequenceMatcher.find_longest_match(alo, ahi, blo, bhi)`: dynamic
programming over the rows, then the two extension loops (with no junk, the
junk-extension loops never fire). -/
def find_longest_match (a b : Str) (bj : Char → List Nat) (alo ahi blo bhi : Nat) :
    Nat × Nat × Nat :=
  let best := flmRows a bj blo bhi (List.range' alo (ahi - alo)) (fun _ => 0) (alo, blo, 0)
  let e1 := flmExtL a b alo blo a.length best.1 best.2.1 best.2.2
  flmExtR a b ahi bhi a.length e1.1 e1.2.1 e1.2.2

/-- The recursive block collection of `get_matching_blocks`, in order (the
LIFO queue of the source visits the left and right subwindows of each match;
empty subwindows yield no blocks, so recursing unconditionally is
equivalent).  The in-order traversal is already sorted, making the source's
`matching_blocks.sort()` the identity. -/
def mbRec (a b : Str) (bj : Char → List Nat) :
    Nat → Nat → Nat → Nat → Nat → List (Nat × Nat × Nat)
  | 0, _, _, _, _ => []
  | fuel + 1, alo, ahi, blo, bhi =>
    let m := find_longest_match a b bj alo ahi blo bhi
    if m.2.2 = 0 then []
    else mbRec a b bj fuel alo m.1 blo m.2.1 ++
      m :: mbRec a b bj fuel (m.1 + m.2.2) ahi (m.2.1 + m.2.2) bhi

/-- The adjacency-merge loop of `get_matching_blocks`: adjacent blocks in
both sequences are coalesced; the accumulator holds the pending block. -/
def nonAdjGo : Nat × Nat × Nat → List (Nat × Nat × Nat) → List (Nat × Nat × Nat)
  | acc, [] => if acc.2.2 ≠ 0 then [acc] else []
  | acc, blk :: rest =>
    if acc.1 + acc.2.2 = blk.1 ∧ acc.2.1 + acc.2.2 = blk.2.1 then
      nonAdjGo (acc.1, acc.2.1, acc.2.2 + blk.2.2) rest
    else
      (if acc.2.2 ≠ 0 then [acc] else []) ++ nonAdjGo blk rest

/-- `SequenceMatcher.get_matching_blocks()`: the merged blocks followed by
the `(len(a), len(b), 0)` sentinel. -/
def get_matching_blocks (a b : Str) : List (Nat × Nat × Nat) :=
  nonAdjGo (0, 0, 0) (mbRec a b (b2j b) (a.length + 1) 0 a.length 0 b.length) ++
    [(a.length, b.length, 0)]

/-- Opcode tags of `SequenceMatcher.get_opcodes()`. -/
inductive DiffTag where
  | equal
  | delete
  | insert
  | replace
deriving Repr, DecidableEq

/-- The opcode generation loop of `get_opcodes`: positions `(i, j)` advance
through the matching blocks; the gap before each block becomes a
replace/delete/insert opcode and each non-empty block an equal opcode. -/
def get_opcodes_go : Nat → Nat → List (Nat × Nat × Nat) → List (DiffTag × Nat × Nat × Nat × Nat)
  | _, _, [] => []
  | i, j, blk :: rest =>
    let ai := blk.1
    let bjj := blk.2.1
    let size := blk.2.2
    (if i < ai ∧ j < bjj then [(DiffTag.replace, i, ai, j, bjj)]
     else if i < ai then [(DiffTag.delete, i, ai, j, bjj)]
     else if j < bjj then [(DiffTag.insert, i, ai, j, bjj)]
     else []) ++
    (if size ≠ 0 then [(DiffTag.equal, ai, ai + size, bjj, bjj + size)] else []) ++
    get_opcodes_go (ai + size) (bjj + size) rest

/-- `SequenceMatcher(None, oc, cc).get_opcodes()`. -/
def diff_opcodes (oc cc : Str) : List (DiffTag × Nat × Nat × Nat × Nat) :=
  get_opcodes_go 0 0 (get_matching_blocks oc cc)

/-- Python slice `s[i1:i2]`. -/
def substr (s : Str) (i1 i2 : Nat) : Str := (s.take i2).drop i1

/-- The part-assembly loop of `highlight_differences`: equal spans verbatim
in both outputs, deleted and replaced spans of the first text wrapped in
`[-`...`-]`, inserted and replaced spans of the second text wrapped in
`[+`...`+]`. -/
def assembleTagged (oc cc : Str) : List (DiffTag × Nat × Nat × Nat × Nat) → Str × Str
  | [] => ([], [])
  | o :: rest =>
    let r := assembleTagged oc cc rest
    match o with
    | (DiffTag.equal, i1, i2, j1, j2) =>
      (substr oc i1 i2 ++ r.1, substr cc j1 j2 ++ r.2)
    | (DiffTag.delete, i1, i2, _, _) =>
      ('[' :: '-' :: substr oc i1 i2 ++ '-' :: ']' :: r.1, r.2)
    | (DiffTag.insert, _, _, j1, j2) =>
      (r.1, '[' :: '+' :: substr cc j1 j2 ++ '+' :: ']' :: r.2)
    | (DiffTag.replace, i1, i2, j1, j2) =>
      ('[' :: '-' :: substr oc i1 i2 ++ '-' :: ']' :: r.1,
       '[' :: '+' :: substr cc j1 j2 ++ '+' :: ']' :: r.2)

/-- The same assembly with the tag markers removed: what remains of the two
annotated strings after stripping the `[-`...`-]` and `[+`...`+]` tags. -/
def assemblePlain (oc cc : Str) : List (DiffTag × Nat × Nat × Nat × Nat) → Str × Str
  | [] => ([], [])
  | o :: rest =>
    let r := assemblePlain oc cc rest
    match o with
    | (DiffTag.equal, i1, i2, j1, j2) =>
      (substr oc i1 i2 ++ r.1, substr cc j1 j2 ++ r.2)
    | (DiffTag.delete, i1, i2, _, _) => (substr oc i1 i2 ++ r.1, r.2)
    | (DiffTag.insert, _, _, j1, j2) => (r.1, substr cc j1 j2 ++ r.2)
    | (DiffTag.replace, i1, i2, j1, j2) =>
      (substr oc i1 i2 ++ r.1, substr cc j1 j2 ++ r.2)

/-- `srt_gui.highlight_differences`: normalize both texts (newlines to
spaces, then strip), shortcut on equality, otherwise assemble the two
annotated strings from the opcodes. -/
def highlight_differences (original corrected : Str) : Str × Str :=
  let oc := pyStrip (original.map (fun c => if c == '\n' then ' ' else c))
  let cc := pyStrip (corrected.map (fun c => if c == '\n' then ' ' else c))
  if oc == cc then (oc, cc)
  else assembleTagged oc cc (diff_opcodes oc cc)

/-- Window bounds of a match triple: it lies inside
`[alo, ahi] × [blo, bhi]`. -/
def bestInv (alo ahi blo bhi : Nat) (m : Nat × Nat × Nat) : Prop :=
  alo ≤ m.1 ∧ blo ≤ m.2.1 ∧ m.1 + m.2.2 ≤ ahi ∧ m.2.1 + m.2.2 ≤ bhi

/-- Invariant of a `j2len` row: every entry is at most `C` and a non-zero
entry at `j` describes a run ending at `j` that starts at or after `blo`. -/
def rowInv (blo C : Nat) (f : Nat → Nat) : Prop :=
  ∀ j, f j ≤ C ∧ (f j ≠ 0 → blo ≤ j ∧ f j ≤ j + 1 - blo)

theorem flmStep_fold (j2len : Nat → Nat) (i alo ahi blo bhi C : Nat)
    (hrow : rowInv blo C j2len) (hCi : C + alo ≤ i) (hiA : i < ahi) :
    ∀ (js : List Nat) (acc : (Nat → Nat) × Nat × Nat × Nat),
      (∀ j ∈ js, blo ≤ j ∧ j < bhi) →
      rowInv blo (C + 1) acc.1 →
      bestInv alo ahi blo bhi acc.2 →
      rowInv blo (C + 1) (js.foldl (flmStep j2len i) acc).1 ∧
      bestInv alo ahi blo bhi (js.foldl (flmStep j2len i) acc).2 := by
  intro js
  induction js with
  | nil => intro acc _ h1 h2; exact ⟨h1, h2⟩
  | cons j js ih =>
    intro acc hmem h1 h2
    have hj := hmem j (List.mem_cons_self _ _)
    have hk : ((if j = 0 then 0 else j2len (j - 1)) + 1) ≤ C + 1 ∧
        ((if j = 0 then 0 else j2len (j - 1)) + 1) ≤ j + 1 - blo := by
      by_cases hj0 : j = 0
      · rw [if_pos hj0]
        subst hj0
        omega
      · rw [if_neg hj0]
        have hr := hrow (j - 1)
        by_cases hz : j2len (j - 1) = 0
        · rw [hz]; omega
        · have := hr.2 hz
          omega
    rw [List.foldl_cons]
    apply ih
    · intro x hx; exact hmem x (List.mem_cons_of_mem _ hx)
    · intro x
      show ((flmStep j2len i acc j).1 x ≤ C + 1 ∧ _)
      have hfst : (flmStep j2len i acc j).1 =
          fun x => if x = j then (if j = 0 then 0 else j2len (j - 1)) + 1 else acc.1 x := by
        simp only [flmStep]
        by_cases hlt : acc.2.2.2 < (if j = 0 then 0 else j2len (j - 1)) + 1
        · rw [if_pos hlt]
        · rw [if_neg hlt]
      simp only [hfst]
      by_cases hx : x = j
      · rw [if_pos hx]
        subst hx
        exact ⟨hk.1, fun _ => ⟨hj.1, hk.2⟩⟩
      · rw [if_neg hx]
        exact h1 x
    · show bestInv alo ahi blo bhi (flmStep j2len i acc j).2
      simp only [flmStep]
      by_cases hlt : acc.2.2.2 < (if j = 0 then 0 else j2len (j - 1)) + 1
      · rw [if_pos hlt]
        obtain ⟨hj1, hj2⟩ := hj
        obtain ⟨hk1, hk2⟩ := hk
        unfold bestInv
        dsimp only
        refine ⟨by omega, by omega, by omega, by omega⟩
      · rw [if_neg hlt]
        exact h2

theorem flmRows_bestInv (a : Str) (bj : Char → List Nat) (alo ahi blo bhi : Nat) :
    ∀ (n s : Nat) (j2len : Nat → Nat) (best : Nat × Nat × Nat) (C : Nat),
      s + n ≤ ahi → C + alo ≤ s →
      rowInv blo C j2len →
      bestInv alo ahi blo bhi best →
      bestInv alo ahi blo bhi (flmRows a bj blo bhi (List.range' s n) j2len best) := by
  intro n
  induction n with
  | zero => intro s j2len best C _ _ _ hb; exact hb
  | succ n ih =>
    intro s j2len best C hsn hC hrow hbest
    rw [List.range'_succ]
    simp only [flmRows]
    have hjs : ∀ j ∈ (bj (a.getD s ' ')).filter
        (fun j => decide (blo ≤ j) && decide (j < bhi)), blo ≤ j ∧ j < bhi := by
      intro j hjm
      have := List.of_mem_filter hjm
      simp only [Bool.and_eq_true, decide_eq_true_eq] at this
      exact this
    have hrow0 : rowInv blo (C + 1) (fun _ => 0) := by
      intro j
      refine ⟨?_, fun h => absurd rfl h⟩
      show (0 : Nat) ≤ C + 1
      omega
    have h := flmStep_fold j2len s alo ahi blo bhi C hrow hC (by omega) _
      ((fun _ => 0), best) hjs hrow0 hbest
    exact ih (s + 1) _ _ (C + 1) (by omega) (by omega) h.1 h.2

theorem flmExtL_bestInv (a b : Str) (alo blo ahi bhi : Nat) :
    ∀ fuel i j k, alo ≤ i → blo ≤ j → i + k ≤ ahi → j + k ≤ bhi →
      bestInv alo ahi blo bhi (flmExtL a b alo blo fuel i j k) := by
  intro fuel
  induction fuel with
  | zero => intro i j k h1 h2 h3 h4; exact ⟨h1, h2, h3, h4⟩
  | succ fuel ih =>
    intro i j k h1 h2 h3 h4
    rw [flmExtL]
    by_cases hc : (alo < i && blo < j &&
        (a.getD (i - 1) ' ' == b.getD (j - 1) '\t')) = true
    · rw [if_pos hc]
      simp only [Bool.and_eq_true, decide_eq_true_eq] at hc
      exact ih (i - 1) (j - 1) (k + 1) (by omega) (by omega) (by omega) (by omega)
    · rw [if_neg hc]
      exact ⟨h1, h2, h3, h4⟩

theorem flmExtR_bestInv (a b : Str) (alo blo ahi bhi : Nat) :
    ∀ fuel i j k, alo ≤ i → blo ≤ j → i + k ≤ ahi → j + k ≤ bhi →
      bestInv alo ahi blo bhi (flmExtR a b ahi bhi fuel i j k) := by
  intro fuel
  induction fuel with
  | zero => intro i j k h1 h2 h3 h4; exact ⟨h1, h2, h3, h4⟩
  | succ fuel ih =>
    intro i j k h1 h2 h3 h4
    rw [flmExtR]
    by_cases hc : (i + k < ahi && j + k < bhi &&
        (a.getD (i + k) ' ' == b.getD (j + k) '\t')) = true
    · rw [if_pos hc]
      simp only [Bool.and_eq_true, decide_eq_true_eq] at hc
      exact ih i j (k + 1) (by omega) (by omega) (by omega) (by omega)
    · rw [if_neg hc]
      exact ⟨h1, h2, h3, h4⟩

theorem flm_bounds (a b : Str) (bj : Char → List Nat) (alo ahi blo bhi : Nat)
    (h1 : alo ≤ ahi) (h2 : blo ≤ bhi) :
    bestInv alo ahi blo bhi (find_longest_match a b bj alo ahi blo bhi) := by
  unfold find_longest_match
  have hrow0 : rowInv blo 0 (fun _ => 0) := by
    intro j; exact ⟨le_refl _, fun h => absurd rfl h⟩
  have hb0 : bestInv alo ahi blo bhi (alo, blo, 0) := by
    unfold bestInv
    dsimp only
    exact ⟨le_refl _, le_refl _, by omega, by omega⟩
  have hrows := flmRows_bestInv a bj alo ahi blo bhi (ahi - alo) alo (fun _ => 0)
    (alo, blo, 0) 0 (by omega) (by omega) hrow0 hb0
  have hL := flmExtL_bestInv a b alo blo ahi bhi a.length _ _ _
    hrows.1 hrows.2.1 hrows.2.2.1 hrows.2.2.2
  exact flmExtR_bestInv a b alo blo ahi bhi a.length _ _ _
    hL.1 hL.2.1 hL.2.2.1 hL.2.2.2

/-- Chain invariant of a block list: starting from position `(loi, loj)`,
each block begins at or after the current position, ends within
`(hii, hij)`, and advances the position to its end. -/
def ChainOk (hii hij : Nat) : Nat → Nat → List (Nat × Nat × Nat) → Prop
  | _, _, [] => True
  | loi, loj, blk :: rest =>
    loi ≤ blk.1 ∧ loj ≤ blk.2.1 ∧ blk.1 + blk.2.2 ≤ hii ∧ blk.2.1 + blk.2.2 ≤ hij ∧
    ChainOk hii hij (blk.1 + blk.2.2) (blk.2.1 + blk.2.2) rest

/-- The final position after walking a block list. -/
def chainEnds : Nat → Nat → List (Nat × Nat × Nat) → Nat × Nat
  | i, j, [] => (i, j)
  | _, _, blk :: rest => chainEnds (blk.1 + blk.2.2) (blk.2.1 + blk.2.2) rest

theorem ChainOk_mono (hii hij hii2 hij2 : Nat) (hhi : hii ≤ hii2) (hhj : hij ≤ hij2) :
    ∀ (l : List (Nat × Nat × Nat)) (loi loj loi2 loj2 : Nat),
      loi2 ≤ loi → loj2 ≤ loj → ChainOk hii hij loi loj l →
      ChainOk hii2 hij2 loi2 loj2 l := by
  intro l
  induction l with
  | nil => intro _ _ _ _ _ _ _; trivial
  | cons blk rest ih =>
    intro loi loj loi2 loj2 hli hlj h
    obtain ⟨a1, a2, a3, a4, a5⟩ := h
    exact ⟨by omega, by omega, by omega, by omega,
      ih _ _ _ _ (le_refl _) (le_refl _) a5⟩

theorem ChainOk_append (hii hij : Nat) :
    ∀ (L1 : List (Nat × Nat × Nat)) (loi loj mi mj : Nat) (L2 : List (Nat × Nat × Nat)),
      ChainOk mi mj loi loj L1 → ChainOk hii hij mi mj L2 →
      mi ≤ hii → mj ≤ hij → loi ≤ mi → loj ≤ mj →
      ChainOk hii hij loi loj (L1 ++ L2) := by
  intro L1
  induction L1 with
  | nil =>
    intro loi loj mi mj L2 _ h2 _ _ h5 h6
    exact ChainOk_mono hii hij hii hij (le_refl _) (le_refl _) L2 mi mj loi loj h5 h6 h2
  | cons blk rest ih =>
    intro loi loj mi mj L2 h1 h2 h3 h4 h5 h6
    obtain ⟨a1, a2, a3, a4, a5⟩ := h1
    exact ⟨a1, a2, by omega, by omega,
      ih _ _ mi mj L2 a5 h2 h3 h4 a3 a4⟩

theorem mbRec_chain (a b : Str) (bj : Char → List Nat) :
    ∀ fuel alo ahi blo bhi, alo ≤ ahi → blo ≤ bhi →
      ChainOk ahi bhi alo blo (mbRec a b bj fuel alo ahi blo bhi) := by
  intro fuel
  induction fuel with
  | zero => intro alo ahi blo bhi _ _; trivial
  | succ fuel ih =>
    intro alo ahi blo bhi h1 h2
    simp only [mbRec]
    have hb := flm_bounds a b bj alo ahi blo bhi h1 h2
    obtain ⟨b1, b2, b3, b4⟩ := hb
    by_cases hk : (find_longest_match a b bj alo ahi blo bhi).2.2 = 0
    · rw [if_pos hk]; trivial
    · rw [if_neg hk]
      apply ChainOk_append ahi bhi _ alo blo (find_longest_match a b bj alo ahi blo bhi).1
        (find_longest_match a b bj alo ahi blo bhi).2.1
      · exact ih alo (find_longest_match a b bj alo ahi blo bhi).1 blo
          (find_longest_match a b bj alo ahi blo bhi).2.1 b1 b2
      · refine ⟨le_refl _, le_refl _, b3, b4, ?_⟩
        exact ih _ ahi _ bhi (by omega) (by omega)
      · omega
      · omega
      · exact b1
      · exact b2

theorem nonAdj_chain (la lb : Nat) :
    ∀ (raw : List (Nat × Nat × Nat)) (i1 j1 k1 loi loj : Nat),
      loi ≤ i1 → loj ≤ j1 → i1 + k1 ≤ la → j1 + k1 ≤ lb →
      ChainOk la lb (i1 + k1) (j1 + k1) raw →
      ChainOk la lb loi loj (nonAdjGo (i1, j1, k1) raw) := by
  intro raw
  induction raw with
  | nil =>
    intro i1 j1 k1 loi loj h1 h2 h3 h4 _
    simp only [nonAdjGo]
    by_cases hk : k1 ≠ 0
    · rw [if_pos hk]
      exact ⟨h1, h2, h3, h4, trivial⟩
    · rw [if_neg hk]
      trivial
  | cons blk rest ih =>
    intro i1 j1 k1 loi loj h1 h2 h3 h4 hch
    obtain ⟨c1, c2, c3, c4, c5⟩ := hch
    simp only [nonAdjGo]
    by_cases hadj : i1 + k1 = blk.1 ∧ j1 + k1 = blk.2.1
    · rw [if_pos hadj]
      obtain ⟨ha1, ha2⟩ := hadj
      apply ih i1 j1 (k1 + blk.2.2) loi loj h1 h2 (by omega) (by omega)
      have he1 : i1 + (k1 + blk.2.2) = blk.1 + blk.2.2 := by omega
      have he2 : j1 + (k1 + blk.2.2) = blk.2.1 + blk.2.2 := by omega
      rw [he1, he2]
      exact c5
    · rw [if_neg hadj]
      by_cases hk : k1 ≠ 0
      · rw [if_pos hk]
        refine List.cons_append _ _ _ ▸ ?_
        exact ⟨h1, h2, h3, h4, ih blk.1 blk.2.1 blk.2.2 (i1 + k1) (j1 + k1) c1 c2 c3 c4 c5⟩
      · rw [if_neg hk]
        rw [List.nil_append]
        exact ih blk.1 blk.2.1 blk.2.2 loi loj (by omega) (by omega) c3 c4 c5

theorem chainEnds_append_sentinel (la lb : Nat) :
    ∀ (L : List (Nat × Nat × Nat)) (i j : Nat),
      chainEnds i j (L ++ [(la, lb, 0)]) = (la, lb) := by
  intro L
  induction L with
  | nil => intro i j; rfl
  | cons blk rest ih => intro i j; exact ih _ _

theorem gmb_chain (a b : Str) :
    ChainOk a.length b.length 0 0 (get_matching_blocks a b) ∧
    chainEnds 0 0 (get_matching_blocks a b) = (a.length, b.length) := by
  constructor
  · unfold get_matching_blocks
    apply ChainOk_append a.length b.length _ 0 0 a.length b.length
    · apply nonAdj_chain a.length b.length _ 0 0 0 0 0 (le_refl _) (le_refl _)
        (by omega) (by omega)
      exact mbRec_chain a b (b2j b) (a.length + 1) 0 a.length 0 b.length
        (by omega) (by omega)
    · exact ⟨le_refl _, le_refl _, le_refl _, le_refl _, trivial⟩
    · exact le_refl _
    · exact le_refl _
    · exact Nat.zero_le _
    · exact Nat.zero_le _
  · exact chainEnds_append_sentinel a.length b.length _ 0 0

theorem substr_self (s : Str) (i : Nat) : substr s i i = [] := by
  unfold substr
  apply List.drop_eq_nil_of_le
  rw [List.length_take]
  omega

theorem substr_append (s : Str) (i1 i2 i3 : Nat) (h12 : i1 ≤ i2) (h23 : i2 ≤ i3)
    (h3 : i3 ≤ s.length) :
    substr s i1 i2 ++ substr s i2 i3 = substr s i1 i3 := by
  unfold substr
  have ht : s.take i3 = s.take i2 ++ (s.take i3).drop i2 := by
    conv_lhs => rw [← List.take_append_drop i2 (s.take i3)]
    rw [List.take_take, Nat.min_eq_left h23]
  have hlen : (s.take i2).length = i2 := by
    rw [List.length_take]; omega
  conv_rhs => rw [ht]
  rw [List.drop_append_eq_append_drop, hlen]
  have h0 : i1 - i2 = 0 := by omega
  rw [h0, List.drop_zero]

theorem assemble_cover (oc cc : Str) :
    ∀ (blocks : List (Nat × Nat × Nat)) (i j : Nat),
      ChainOk oc.length cc.length i j blocks →
      chainEnds i j blocks = (oc.length, cc.length) →
      assemblePlain oc cc (get_opcodes_go i j blocks) =
        (substr oc i oc.length, substr cc j cc.length) := by
  intro blocks
  induction blocks with
  | nil =>
    intro i j _ hend
    simp only [chainEnds] at hend
    rw [Prod.mk.injEq] at hend
    obtain ⟨h1, h2⟩ := hend
    simp only [get_opcodes_go, assemblePlain]
    rw [h1, h2, substr_self, substr_self]
  | cons blk rest ih =>
    intro i j hch hend
    obtain ⟨c1, c2, c3, c4, c5⟩ := hch
    have hrec := ih _ _ c5 hend
    simp only [get_opcodes_go]
    by_cases hi : i < blk.1 <;> by_cases hj : j < blk.2.1 <;>
      by_cases hs : blk.2.2 ≠ 0
    · rw [if_pos ⟨hi, hj⟩, if_pos hs]
      simp only [List.cons_append, List.nil_append, assemblePlain, List.append_eq, List.nil_append]
      rw [hrec]
      apply Prod.ext
      · show substr oc i blk.1 ++ (substr oc blk.1 (blk.1 + blk.2.2) ++
          substr oc (blk.1 + blk.2.2) oc.length) = substr oc i oc.length
        rw [substr_append oc blk.1 (blk.1 + blk.2.2) oc.length (by omega) c3 (le_refl _)]
        exact substr_append oc i blk.1 oc.length (by omega) (by omega) (le_refl _)
      · show substr cc j blk.2.1 ++ (substr cc blk.2.1 (blk.2.1 + blk.2.2) ++
          substr cc (blk.2.1 + blk.2.2) cc.length) = substr cc j cc.length
        rw [substr_append cc blk.2.1 (blk.2.1 + blk.2.2) cc.length (by omega) c4 (le_refl _)]
        exact substr_append cc j blk.2.1 cc.length (by omega) (by omega) (le_refl _)
    · rw [if_pos ⟨hi, hj⟩, if_neg hs]
      have hz : blk.2.2 = 0 := by omega
      simp only [List.cons_append, List.nil_append, assemblePlain, List.append_eq, List.nil_append]
      rw [hrec]
      apply Prod.ext
      · show substr oc i blk.1 ++ substr oc (blk.1 + blk.2.2) oc.length =
          substr oc i oc.length
        rw [hz]
        exact substr_append oc i blk.1 oc.length (by omega) (by omega) (le_refl _)
      · show substr cc j blk.2.1 ++ substr cc (blk.2.1 + blk.2.2) cc.length =
          substr cc j cc.length
        rw [hz]
        exact substr_append cc j blk.2.1 cc.length (by omega) (by omega) (le_refl _)
    · rw [if_neg (fun hc => hj hc.2), if_pos hi, if_pos hs]
      have hje : j = blk.2.1 := by omega
      simp only [List.cons_append, List.nil_append, assemblePlain, List.append_eq, List.nil_append]
      rw [hrec]
      apply Prod.ext
      · show substr oc i blk.1 ++ (substr oc blk.1 (blk.1 + blk.2.2) ++
          substr oc (blk.1 + blk.2.2) oc.length) = substr oc i oc.length
        rw [substr_append oc blk.1 (blk.1 + blk.2.2) oc.length (by omega) c3 (le_refl _)]
        exact substr_append oc i blk.1 oc.length (by omega) (by omega) (le_refl _)
      · show substr cc blk.2.1 (blk.2.1 + blk.2.2) ++
          substr cc (blk.2.1 + blk.2.2) cc.length = substr cc j cc.length
        rw [hje]
        exact substr_append cc blk.2.1 (blk.2.1 + blk.2.2) cc.length (by omega) c4 (le_refl _)
    · rw [if_neg (fun hc => hj hc.2), if_pos hi, if_neg hs]
      have hz : blk.2.2 = 0 := by omega
      have hje : j = blk.2.1 := by omega
      simp only [List.cons_append, List.nil_append, assemblePlain, List.append_eq, List.nil_append]
      rw [hrec]
      apply Prod.ext
      · show substr oc i blk.1 ++ substr oc (blk.1 + blk.2.2) oc.length =
          substr oc i oc.length
        rw [hz]
        exact substr_append oc i blk.1 oc.length (by omega) (by omega) (le_refl _)
      · show substr cc (blk.2.1 + blk.2.2) cc.length = substr cc j cc.length
        rw [hz, Nat.add_zero, hje]
    · rw [if_neg (fun hc => hi hc.1), if_neg hi, if_pos hj, if_pos hs]
      have hie : i = blk.1 := by omega
      simp only [List.cons_append, List.nil_append, assemblePlain, List.append_eq, List.nil_append]
      rw [hrec]
      apply Prod.ext
      · show substr oc blk.1 (blk.1 + blk.2.2) ++
          substr oc (blk.1 + blk.2.2) oc.length = substr oc i oc.length
        rw [hie]
        exact substr_append oc blk.1 (blk.1 + blk.2.2) oc.length (by omega) c3 (le_refl _)
      · show substr cc j blk.2.1 ++ (substr cc blk.2.1 (blk.2.1 + blk.2.2) ++
          substr cc (blk.2.1 + blk.2.2) cc.length) = substr cc j cc.length
        rw [substr_append cc blk.2.1 (blk.2.1 + blk.2.2) cc.length (by omega) c4 (le_refl _)]
        exact substr_append cc j blk.2.1 cc.length (by omega) (by omega) (le_refl _)
    · rw [if_neg (fun hc => hi hc.1), if_neg hi, if_pos hj, if_neg hs]
      have hz : blk.2.2 = 0 := by omega
      have hie : i = blk.1 := by omega
      simp only [List.cons_append, List.nil_append, assemblePlain, List.append_eq, List.nil_append]
      rw [hrec]
      apply Prod.ext
      · show substr oc (blk.1 + blk.2.2) oc.length = substr oc i oc.length
        rw [hz, Nat.add_zero, hie]
      · show substr cc j blk.2.1 ++ substr cc (blk.2.1 + blk.2.2) cc.length =
          substr cc j cc.length
        rw [hz]
        exact substr_append cc j blk.2.1 cc.length (by omega) (by omega) (le_refl _)
    · rw [if_neg (fun hc => hi hc.1), if_neg hi, if_neg hj, if_pos hs]
      have hie : i = blk.1 := by omega
      have hje : j = blk.2.1 := by omega
      simp only [List.cons_append, List.nil_append, assemblePlain, List.append_eq, List.nil_append]
      rw [hrec]
      apply Prod.ext
      · show substr oc blk.1 (blk.1 + blk.2.2) ++
          substr oc (blk.1 + blk.2.2) oc.length = substr oc i oc.length
        rw [hie]
        exact substr_append oc blk.1 (blk.1 + blk.2.2) oc.length (by omega) c3 (le_refl _)
      · show substr cc blk.2.1 (blk.2.1 + blk.2.2) ++
          substr cc (blk.2.1 + blk.2.2) cc.length = substr cc j cc.length
        rw [hje]
        exact substr_append cc blk.2.1 (blk.2.1 + blk.2.2) cc.length (by omega) c4 (le_refl _)
    · rw [if_neg (fun hc => hi hc.1), if_neg hi, if_neg hj, if_neg hs]
      have hz : blk.2.2 = 0 := by omega
      have hie : i = blk.1 := by omega
      have hje : j = blk.2.1 := by omega
      simp only [List.nil_append, assemblePlain, List.append_eq]
      rw [hrec]
      apply Prod.ext
      · show substr oc (blk.1 + blk.2.2) oc.length = substr oc i oc.length
        rw [hz, Nat.add_zero, hie]
      · show substr cc (blk.2.1 + blk.2.2) cc.length = substr cc j cc.length
        rw [hz, Nat.add_zero, hje]

theorem plain_cover (oc cc : Str) :
    assemblePlain oc cc (diff_opcodes oc cc) = (oc, cc) := by
  unfold diff_opcodes
  have hg := gmb_chain oc cc
  have h := assemble_cover oc cc (get_matching_blocks oc cc) 0 0 hg.1 hg.2
  rw [h]
  unfold substr
  rw [List.take_length, List.take_length, List.drop_zero, List.drop_zero]

/-- C9: `highlight_differences` normalizes both texts (newlines to spaces,
then strip), and on unequal texts assembles the two annotated strings from
the `SequenceMatcher` opcodes — deleted and replaced spans tagged only in
the first string, inserted and replaced spans only in the second, equal
spans verbatim in both; removing the tags from the assembly reproduces the
two normalized texts exactly, because the opcodes tile both strings without
gaps or overlaps. -/
theorem C9_diff_review (original corrected : Str) :
    highlight_differences original corrected =
      (if pyStrip (original.map (fun c => if c == '\n' then ' ' else c)) ==
          pyStrip (corrected.map (fun c => if c == '\n' then ' ' else c)) then
        (pyStrip (original.map (fun c => if c == '\n' then ' ' else c)),
         pyStrip (corrected.map (fun c => if c == '\n' then ' ' else c)))
      else
        assembleTagged (pyStrip (original.map (fun c => if c == '\n' then ' ' else c)))
          (pyStrip (corrected.map (fun c => if c == '\n' then ' ' else c)))
          (diff_opcodes (pyStrip (original.map (fun c => if c == '\n' then ' ' else c)))
            (pyStrip (corrected.map (fun c => if c == '\n' then ' ' else c))))) ∧
    (∀ oc cc : Str, assemblePlain oc cc (diff_opcodes oc cc) = (oc, cc)) :=
  ⟨rfl, plain_cover⟩
